import Mathlib

/-!
Verification of the `startup` dependency-resolution engine.

This file is a shallow embedding of `startup.py` (class `Startup` together
with `Variable`, `Closure`, and the module-level helper functions) and of
the older near-identical implementation `boot.py` (class `Boot`).

Modelling conventions:
  * Python function objects are identified by a natural-number task id
    (`TaskSpec.id`); the lexicographic tie-break key
    `(func.__module__, func.__qualname__)` is carried separately, since two
    distinct Python functions may share that key.
  * The work done by the annotation parser (`_parse_args` / `_parse_ret`)
    is represented structurally: a `TaskSpec` carries the already-parsed
    input bindings and output specification.  `_get_not_annotated` is
    represented by carrying the list of non-optional parameter names.
  * Variable values are a closed inductive type `Val` (numbers and lists);
    `read_all` returns the whole history as a `Val.list`, matching the
    Python list that `Variable.read_all` returns.
  * Python `assert` failures, `AttributeError` (use of a `del`eted
    attribute), `KeyError` (`set.remove` of a missing element),
    `TypeError` (`zip` over a non-sequence) and `StartupException` are all
    modelled as values of the error type `Err`; a run returns the exception
    together with the mutated scheduler object, mirroring the fact that a
    raising `Startup.call` leaves the partially-mutated object behind.
  * The scheduler loop is driven by fuel; `Err.fuelOut` marks exhaustion
    and is never identified with any Python behaviour.
  * The run is instrumented with a ghost `events` log recording each
    underlying-function invocation (with the argument values passed) and
    each value written to a variable, in execution order.
-/

/-- Values stored in startup variables: numbers and (nested) lists.
`Variable.read_all` returns the Python list of all written values, which is
modelled as `Val.list`. -/
inductive Val where
  | nat : Nat → Val
  | list : List Val → Val

mutual

/-- Decision procedure for equality of values (the derive handler does not
support the nested occurrence of `Val` under `List`). -/
def Val.decEq : ∀ a b : Val, Decidable (a = b)
  | .nat a, .nat b =>
    match Nat.decEq a b with
    | isTrue h => isTrue (by rw [h])
    | isFalse h => isFalse (by intro hh; cases hh; exact h rfl)
  | .nat _, .list _ => isFalse (by intro h; cases h)
  | .list _, .nat _ => isFalse (by intro h; cases h)
  | .list as, .list bs =>
    match Val.decEqs as bs with
    | isTrue h => isTrue (by rw [h])
    | isFalse h => isFalse (by intro hh; cases hh; exact h rfl)

/-- Decision procedure for equality of value lists. -/
def Val.decEqs : ∀ as bs : List Val, Decidable (as = bs)
  | [], [] => isTrue rfl
  | [], _ :: _ => isFalse (by intro h; cases h)
  | _ :: _, [] => isFalse (by intro h; cases h)
  | a :: as, b :: bs =>
    match Val.decEq a b, Val.decEqs as bs with
    | isTrue h1, isTrue h2 => isTrue (by rw [h1, h2])
    | isFalse h1, _ => isFalse (by intro hh; cases hh; exact h1 rfl)
    | _, isFalse h2 => isFalse (by intro hh; cases hh; exact h2 rfl)

end

instance : DecidableEq Val := Val.decEq

instance {ε α : Type} [DecidableEq ε] [DecidableEq α] :
    DecidableEq (Except ε α) := fun x y =>
  match x, y with
  | .ok a, .ok b =>
    if h : a = b then isTrue (by rw [h])
    else isFalse (by intro hh; cases hh; exact h rfl)
  | .error a, .error b =>
    if h : a = b then isTrue (by rw [h])
    else isFalse (by intro hh; cases hh; exact h rfl)
  | .ok _, .error _ => isFalse (by intro h; cases h)
  | .error _, .ok _ => isFalse (by intro h; cases h)

/-- Read mode of one argument binding: a plain `'var'` annotation reads the
latest value (`Variable.read_latest`), a `['var']` annotation reads all
values (`Variable.read_all`). -/
inductive ReadMode where
  | latest
  | all
deriving DecidableEq, Repr

/-- One parsed argument binding, the model of `Argument = namedtuple('Argument', 'name read')`
together with the variable it reads (the pair produced by `_parse_arg`). -/
structure Binding where
  param : String
  var : String
  mode : ReadMode
deriving DecidableEq, Repr

/-- The parsed return annotation, as produced by `_parse_ret`: `None`,
a single variable, or a tuple of variables. -/
inductive WriteSpec where
  | none
  | one (v : String)
  | many (vs : List String)
deriving DecidableEq, Repr

/-- The ordered list of output-variable occurrences of a return annotation.
A variable may occur several times (`_parse_ret`: a variable can be written
multiple times per return annotation). -/
def WriteSpec.names : WriteSpec → List String
  | .none => []
  | .one v => [v]
  | .many vs => vs

/-- A registered function, as the engine sees it after parsing: identity,
tie-break key data (`__module__`, `__qualname__`), non-optional parameter
names (input of `_get_not_annotated`), parsed bindings, parsed return
annotation, and the underlying callable's behaviour as a function from the
read argument values (in binding order) to the returned value. -/
structure TaskSpec where
  id : Nat
  modName : String
  qualname : String
  params : List String
  binds : List Binding
  out : WriteSpec
  body : List Val → Val

/-- The tie-break key of a function: `(func.__module__, func.__qualname__)`
(`Closure._key`). -/
def TaskSpec.key (s : TaskSpec) : String × String := (s.modName, s.qualname)

/-- Ghost instrumentation: one event of a run, either the invocation of the
underlying function of a task (with the argument values passed to it, in
binding order) or a write of a value to a variable. -/
inductive Event where
  | inv (id : Nat) (args : List Val)
  | wr (name : String) (value : Val)
deriving DecidableEq

/-- The task ids invoked in an event list, in invocation order. -/
def invocs (es : List Event) : List Nat :=
  es.filterMap fun e =>
    match e with
    | .inv id _ => some id
    | .wr _ _ => Option.none

/-- The values written to variable `n` in an event list, in write order. -/
def writesTo (n : String) (es : List Event) : List Val :=
  es.filterMap fun e =>
    match e with
    | .inv _ _ => Option.none
    | .wr m v => if m = n then some v else Option.none

/-- Errors of the model.  `unsat` is the `StartupException` raised by
`Startup.call` when functions remain uncalled (its payload is the remaining
task ids, mirroring `'cannot satisfy dependency for %r' % self.funcs`);
`dup` and `notAnn` are the registration-time `StartupException`s; `reuse`
is `'startup cannot be called again'`; `assertFail` is a Python
`AssertionError`; `attrErr` is an `AttributeError` from touching a deleted
attribute of a released object; `keyErr` is the `KeyError` of
`set.remove`; `typeErr` is the `TypeError` of `zip` over a non-sequence;
`fuelOut` marks fuel exhaustion of the model's loop. -/
inductive Err where
  | unsat (remaining : List Nat)
  | dup
  | notAnn
  | reuse
  | assertFail
  | attrErr
  | keyErr
  | typeErr
  | fuelOut
deriving DecidableEq, Repr

/-- Pointwise update of a function, used for the variable table and the
closure store. -/
def upd {α β : Type} [DecidableEq α] (f : α → β) (a : α) (b : β) : α → β :=
  fun x => if x = a then b else f x

/-- The state of a `Variable` object: the count of writers it is waiting
for, the reader closures (by task id, in append order, with multiplicity),
and all past and current values. -/
structure Variable where
  numWriteWaits : Nat
  readers : List Nat
  values : List Val

/-- A fresh `Variable()` as produced by the `defaultdict`. -/
def Variable.init : Variable := ⟨0, [], []⟩

/-- `Variable.notify_will_write`. -/
def Variable.notifyWillWrite (v : Variable) : Variable :=
  { v with numWriteWaits := v.numWriteWaits + 1 }

/-- `Variable.readable`: true when `num_write_waits == 0` and `values` is
non-empty. -/
def Variable.readable (v : Variable) : Bool :=
  v.numWriteWaits == 0 && !v.values.isEmpty

/-- `Variable.write`: asserts `num_write_waits > 0`, decrements it, and
appends the value. -/
def Variable.write (v : Variable) (x : Val) : Except Err Variable :=
  if v.numWriteWaits = 0 then .error .assertFail
  else .ok { v with numWriteWaits := v.numWriteWaits - 1, values := v.values ++ [x] }

/-- `Variable.read_latest`: asserts readability and returns `values[-1]`. -/
def Variable.readLatest (v : Variable) : Except Err Val :=
  if v.readable then
    match v.values.getLast? with
    | some x => .ok x
    | Option.none => .error .assertFail
  else .error .assertFail

/-- `Variable.read_all`: asserts readability and returns the whole value
history. -/
def Variable.readAll (v : Variable) : Except Err Val :=
  if v.readable then .ok (.list v.values) else .error .assertFail

/-- The state of a `Closure` object.  `released` models `_release()`
having deleted `args`, `writeto` and `num_read_ready_waits` (the model
keeps the field contents but every access checks the flag first). -/
structure Closure where
  key : String × String
  args : List Binding
  writeto : WriteSpec
  numReadReadyWaits : Nat
  released : Bool
  body : List Val → Val

/-- A dummy closure: the default value of the closure store at ids that
were never registered (such ids are never consulted by the engine). -/
def Closure.dummy : Closure :=
  ⟨("", ""), [], .none, 0, false, fun _ => .nat 0⟩

/-- The closure built from a task spec by `Startup.__call__`:
`Closure(func, tuple(arg for arg, _ in arg_read_var), writeto)` with
`num_read_ready_waits = len(args)`. -/
def Closure.mk' (s : TaskSpec) : Closure :=
  ⟨s.key, s.binds, s.out, s.binds.length, false, s.body⟩

/-- Lexicographic comparison of tie-break keys, i.e. Python tuple `<=` on
`(module, qualname)` pairs of strings. -/
def keyLe (a b : String × String) : Bool :=
  if a.1 = b.1 then decide (a.2 ≤ b.2) else decide (a.1 < b.1)

/-- Stable insertion of an element into a sorted list (Python `list.sort`
is stable; ties keep their existing relative order, and the inserted
element goes before later elements with an equal key). -/
def insortBy {α : Type} (le : α → α → Bool) (a : α) : List α → List α
  | [] => [a]
  | b :: l => if le a b then a :: b :: l else b :: insortBy le a l

/-- Stable sort, the model of `Closure.sort` / Python `list.sort(key=...)`. -/
def sortBy {α : Type} (le : α → α → Bool) : List α → List α
  | [] => []
  | a :: l => insortBy le a (sortBy le l)

/-- `Closure.sort` on a list of task ids: sort by the closures' tie-break
keys, stably. -/
def sortClosures (cls : Nat → Closure) (l : List Nat) : List Nat :=
  sortBy (fun a b => keyLe (cls a).key (cls b).key) l

/-- The state of a `Startup` (or `Boot`) object: the set of added
functions not yet called (`funcs`, as a list in insertion order), the
closure objects, the variable table (`defaultdict(Variable)`, modelled as
a total function plus the list of keys in insertion order), and the
`satisfied` staging list.  `released` models `_release()` having deleted
the three attributes. -/
structure Startup where
  funcs : List Nat
  closures : Nat → Closure
  vars : String → Variable
  names : List String
  satisfied : List Nat
  released : Bool

/-- A freshly constructed `Startup()` object. -/
def Startup.init : Startup :=
  { funcs := [], closures := fun _ => Closure.dummy, vars := fun _ => Variable.init,
    names := [], satisfied := [], released := false }

/-- Access of `variables[name]` on a `defaultdict` inserts the key on
first touch; only the key-insertion order is tracked (the default value is
already the total function's value). -/
def touch (names : List String) (n : String) : List String :=
  if n ∈ names then names else names ++ [n]

/-- The non-optional parameters of a spec that carry no annotation
(`_get_not_annotated`). -/
def notAnnotatedOf (s : TaskSpec) : List String :=
  s.params.filter (fun p => !(s.binds.any (fun b => b.param = p)))

/-- The shared body of `Startup.__call__` and `Boot.__call__` after their
checks have passed (the two sources are textually identical here):
`_parse_args` touches the input variables, `_parse_ret` touches the output
variables and notifies their will-writes in order, the closure is built,
appended to each input variable's reader list (once per binding), staged
into `satisfied` if it has no arguments, and added to `funcs`. -/
def registerCore (s : Startup) (spec : TaskSpec) : Startup :=
  let names1 := spec.binds.foldl (fun ns b => touch ns b.var) s.names
  let outs := spec.out.names
  let names2 := outs.foldl (fun ns n => touch ns n) names1
  let vars1 := outs.foldl (fun vs n => upd vs n ((vs n).notifyWillWrite)) s.vars
  let closure := Closure.mk' spec
  let vars2 := spec.binds.foldl
    (fun vs b => upd vs b.var { vs b.var with readers := (vs b.var).readers ++ [spec.id] }) vars1
  let sat := if closure.numReadReadyWaits = 0 then s.satisfied ++ [spec.id] else s.satisfied
  { funcs := s.funcs ++ [spec.id], closures := upd s.closures spec.id closure,
    vars := vars2, names := names2, satisfied := sat, released := s.released }

/-- `Startup.__call__` (registration): rejects re-registration of a
function already in `funcs` and rejects non-optional parameters without
annotation, then runs the shared registration body.  (The `callable`
check and the annotation-format checks of `_parse_arg` / `_parse_ret`
are not representable: every `TaskSpec` body is a function and the
bindings arrive already structured.) -/
def Startup.register (s : Startup) (spec : TaskSpec) : Except Err Startup :=
  if s.released then .error .attrErr
  else if spec.id ∈ s.funcs then .error .dup
  else if notAnnotatedOf spec ≠ [] then .error .notAnn
  else .ok (registerCore s spec)

/-- `Boot.__call__` (registration): identical to `Startup.__call__`
except that `boot.py` has no `_get_not_annotated` check. -/
def Boot.register (s : Startup) (spec : TaskSpec) : Except Err Startup :=
  if s.released then .error .attrErr
  else if spec.id ∈ s.funcs then .error .dup
  else .ok (registerCore s spec)

/-- Registration of a whole list of specs, in order, on a fresh object. -/
def registerAll (specs : List TaskSpec) : Except Err Startup :=
  specs.foldlM Startup.register Startup.init

/-- Registration of a whole list of specs on a fresh `Boot` object. -/
def bootRegisterAll (specs : List TaskSpec) : Except Err Startup :=
  specs.foldlM Boot.register Startup.init

/-- The mutable state of one `Startup.call` run: the object fields plus
the ready `queue` and the ghost event log. -/
structure RunState where
  funcs : List Nat
  closures : Nat → Closure
  vars : String → Variable
  names : List String
  queue : List Nat
  events : List Event

/-- The object left behind by a run: on an exception the attributes stay
as they are (and `queue` aliases `self.satisfied`, which `pop(0)` has been
draining). -/
def stToObj (st : RunState) : Startup :=
  { funcs := st.funcs, closures := st.closures, vars := st.vars,
    names := st.names, satisfied := st.queue, released := false }

/-- One `reader.notify_read_ready()` pass over a reader list
(the inner loop of `_notify_reader_writes`): each notification asserts
`num_read_ready_waits > 0` and decrements it; a reader that becomes
satisfied is appended to the collected batch. -/
def notifyFold (cls : Nat → Closure) : List Nat → List Nat →
    ((Nat → Closure) × List Nat) × Except Err Unit
  | [], acc => ((cls, acc), .ok ())
  | r :: rest, acc =>
    let c := cls r
    if c.released then ((cls, acc), .error .attrErr)
    else if c.numReadReadyWaits = 0 then ((cls, acc), .error .assertFail)
    else
      let c' := { c with numReadReadyWaits := c.numReadReadyWaits - 1 }
      let acc' := if c'.numReadReadyWaits = 0 then acc ++ [r] else acc
      notifyFold (upd cls r c') rest acc'

/-- The outer loop of `_notify_reader_writes`: for each written variable
that is readable, notify its readers and collect the newly satisfied
closures. -/
def notifyVars (cls : Nat → Closure) (vars : String → Variable) :
    List String → List Nat → ((Nat → Closure) × List Nat) × Except Err Unit
  | [], acc => ((cls, acc), .ok ())
  | n :: rest, acc =>
    if (vars n).readable then
      match notifyFold cls (vars n).readers acc with
      | ((cls', acc'), .ok ()) => notifyVars cls' vars rest acc'
      | (p, .error e) => (p, .error e)
    else notifyVars cls vars rest acc

/-- `_notify_reader_writes`: notify the readers of the written variables
and return the newly satisfied closures, sorted by tie-break key. -/
def notifyReaders (st : RunState) (written : List String) :
    RunState × Except Err (List Nat) :=
  match notifyVars st.closures st.vars written [] with
  | ((cls', batch), .ok ()) =>
    ({ st with closures := cls' }, .ok (sortClosures cls' batch))
  | ((cls2, _batch2), .error e) => ({ st with closures := cls2 }, .error e)

/-- The argument-reading pass of `Closure.call`:
`{arg.name: arg.read() for arg in self.args}`, i.e. each binding reads its
variable according to its mode. -/
def readArgs (vars : String → Variable) : List Binding → Except Err (List Val)
  | [] => .ok []
  | b :: bs =>
    match (match b.mode with
      | .latest => (vars b.var).readLatest
      | .all => (vars b.var).readAll) with
    | .error e => .error e
    | .ok v =>
      match readArgs vars bs with
      | .error e => .error e
      | .ok rest => .ok (v :: rest)

/-- Sequential writes of `zip(self.writeto, out_value)`: Python `zip`
silently truncates to the shorter of the two sequences. -/
def writeSeq (st : RunState) : List (String × Val) → RunState × Except Err Unit
  | [] => (st, .ok ())
  | (n, v) :: rest =>
    match (st.vars n).write v with
    | .error e => (st, .error e)
    | .ok var' =>
      writeSeq { st with vars := upd st.vars n var'
                         events := st.events ++ [.wr n v] } rest

/-- The output-writing branch of `Closure.call`: no annotation discards
the return value; a single variable receives the whole return value; a
tuple of variables is zipped with the return value (which must therefore
be a sequence), and the returned "set of written variables" is the
deduplicated list of output names. -/
def writeOuts (st : RunState) : WriteSpec → Val → RunState × Except Err (List String)
  | .none, _ => (st, .ok [])
  | .one n, v =>
    (match (st.vars n).write v with
    | .error e => (st, .error e)
    | .ok var' =>
      ({ st with vars := upd st.vars n var'
                 events := st.events ++ [.wr n v] }, .ok [n]))
  | .many ns, v =>
    match v with
    | .list outs =>
      (match writeSeq st (ns.zip outs) with
      | (st', .ok ()) => (st', .ok ns.eraseDups)
      | (st', .error e) => (st', .error e))
    | _ => (st, .error .typeErr)

/-- `Closure.call` for the closure of task `id`: assert not released and
satisfied, read the arguments, invoke the underlying function (logged as
an `Event.inv`), write the outputs, release the closure, and return the
set of distinct written variables. -/
def closureCall (st : RunState) (id : Nat) :
    RunState × Except Err (List String) :=
  let c := st.closures id
  if c.released then (st, .error .attrErr)
  else if c.numReadReadyWaits ≠ 0 then (st, .error .assertFail)
  else
    match readArgs st.vars c.args with
    | .error e => (st, .error e)
    | .ok vals =>
      let st1 := { st with events := st.events ++ [.inv id vals] }
      match writeOuts st1 c.writeto (c.body vals) with
      | (st2, .error e) => (st2, .error e)
      | (st2, .ok written) =>
        ({ st2 with closures := upd st2.closures id { c with released := true } },
         .ok written)

/-- One iteration of the `while queue` loop of `Startup.call`:
`queue.pop(0)`, `closure.call()`, `self.funcs.remove(closure.func)`
(a `KeyError` if absent), and `queue.extend(_notify_reader_writes(writeto))`.
On an empty queue nothing happens. -/
def stepOnce (st : RunState) : RunState × Except Err Unit :=
  match st.queue with
  | [] => (st, .ok ())
  | id :: rest =>
    let st0 := { st with queue := rest }
    match closureCall st0 id with
    | (st1, .error e) => (st1, .error e)
    | (st1, .ok written) =>
      if id ∈ st1.funcs then
        let st2 := { st1 with funcs := st1.funcs.erase id }
        match notifyReaders st2 written with
        | (st3, .ok batch) => ({ st3 with queue := st3.queue ++ batch }, .ok ())
        | (st3, .error e) => (st3, .error e)
      else (st1, .error .keyErr)

/-- The fuelled scheduling loop (`while queue:` in `Startup.call`). -/
def loop : Nat → RunState → RunState × Except Err Unit
  | 0, st =>
    match st.queue with
    | [] => (st, .ok ())
    | _ :: _ => (st, .error .fuelOut)
  | Nat.succ n, st =>
    match st.queue with
    | [] => (st, .ok ())
    | _ :: _ =>
      match stepOnce st with
      | (st2, .ok ()) => loop n st2
      | (st2, .error e) => (st2, .error e)

/-- `_write_values`: for each keyword argument (in order), touch the
variable, `notify_will_write`, and `write` the value; collect the written
variables for notification. -/
def writeValuesAux (st : RunState) : List (String × Val) → List String →
    (RunState × List String) × Except Err Unit
  | [], acc => ((st, acc), .ok ())
  | (n, v) :: rest, acc =>
    let st1 := { st with names := touch st.names n
                         vars := upd st.vars n ((st.vars n).notifyWillWrite) }
    match (st1.vars n).write v with
    | .error e => ((st1, acc), .error e)
    | .ok var' =>
      writeValuesAux
        { st1 with vars := upd st1.vars n var'
                   events := st1.events ++ [.wr n v] } rest (acc ++ [n])

/-- `_write_values` followed by its `_notify_reader_writes`. -/
def writeValues (st : RunState) (kwargs : List (String × Val)) :
    RunState × Except Err (List Nat) :=
  match writeValuesAux st kwargs [] with
  | ((st1, written), .ok ()) => notifyReaders st1 written
  | ((st1, _), .error e) => (st1, .error e)

/-- The output dictionary built on success:
`{name: var.read_latest() for name, var in self.vars.items()}`
(the `read_latest` assertion can fire here). -/
def readOutputs (vars : String → Variable) : List String →
    Except Err (List (String × Val))
  | [] => .ok []
  | n :: rest =>
    match (vars n).readLatest with
    | .error e => .error e
    | .ok v =>
      match readOutputs vars rest with
      | .error e => .error e
      | .ok out => .ok ((n, v) :: out)

/-- A generous fuel bound for a run: the queue can only ever receive the
initially satisfied closures plus at most one entry per reader-list
occurrence, so this bound is never reached by a faithful execution. -/
def fuelOf (st : RunState) : Nat :=
  st.queue.length + st.funcs.length +
    st.names.foldl (fun a n => a + (st.vars n).readers.length) 0 + 1

/-- The shared tail of `Startup.call` and `Boot.call` (textually identical
in the two sources), starting at `queue.extend(_write_values(...))`:
write the keyword values, run the loop, raise `unsat` if functions remain,
otherwise build and return the output dictionary and release the object. -/
def runFrom (st0 : RunState) (kwargs : List (String × Val)) :
    Except Err (List (String × Val)) × Startup × List Event :=
  match writeValues st0 kwargs with
  | (st1, .error e) => (.error e, stToObj st1, st1.events)
  | (st1, .ok batch) =>
    match loop (fuelOf { st1 with queue := st1.queue ++ batch })
        { st1 with queue := st1.queue ++ batch } with
    | (st3, .error e) => (.error e, stToObj st3, st3.events)
    | (st3, .ok ()) =>
      if st3.funcs ≠ [] then (.error (.unsat st3.funcs), stToObj st3, st3.events)
      else
        match readOutputs st3.vars st3.names with
        | .error e => (.error e, stToObj st3, st3.events)
        | .ok out => (.ok out, { stToObj st3 with released := true }, st3.events)

/-- The run state prepared by `Startup.call` before `_write_values`: the
name-setting pass of lines 171-174 has inserted the keyword-argument
names, and `queue = Closure.sort(self.satisfied)`. -/
def callInit (s : Startup) (kwargs : List (String × Val)) : RunState :=
  { funcs := s.funcs, closures := s.closures, vars := s.vars,
    names := kwargs.foldl (fun ns kv => touch ns kv.1) s.names,
    queue := sortClosures s.closures s.satisfied, events := [] }

/-- The run state prepared by `Boot.call`, which has no name-setting
pass. -/
def bootInit (s : Startup) : RunState :=
  { funcs := s.funcs, closures := s.closures, vars := s.vars,
    names := s.names, queue := sortClosures s.closures s.satisfied, events := [] }

/-- `Startup.call`: refuse a released object, set the variables' names
(which inserts the keyword-argument names into the variable table), sort
the staged satisfied closures into the initial queue, and run. -/
def Startup.call (s : Startup) (kwargs : List (String × Val)) :
    Except Err (List (String × Val)) × Startup × List Event :=
  if s.released then (.error .reuse, s, [])
  else runFrom (callInit s kwargs) kwargs

/-- `Boot.call`: identical to `Startup.call` except that `boot.py` has no
name-setting pass (lines 171-174 of `startup.py`), so the keyword-argument
names enter the variable table only inside `_write_values`. -/
def Boot.call (s : Startup) (kwargs : List (String × Val)) :
    Except Err (List (String × Val)) × Startup × List Event :=
  if s.released then (.error .reuse, s, [])
  else runFrom (bootInit s) kwargs

/-- A complete run of the new implementation: register all specs on a
fresh `Startup` object and call it. -/
def startupRun (specs : List TaskSpec) (kwargs : List (String × Val)) :
    Except Err (Except Err (List (String × Val)) × Startup × List Event) :=
  (registerAll specs).map (fun obj => Startup.call obj kwargs)

/-- A complete run of the old implementation (`boot.py`). -/
def bootRun (specs : List TaskSpec) (kwargs : List (String × Val)) :
    Except Err (Except Err (List (String × Val)) × Startup × List Event) :=
  (bootRegisterAll specs).map (fun obj => Boot.call obj kwargs)

/-- The ghost event log of a complete run (empty when registration fails). -/
def runEvents (specs : List TaskSpec) (kwargs : List (String × Val)) : List Event :=
  match startupRun specs kwargs with
  | .ok (_, _, es) => es
  | .error _ => []

/-- The result dictionary of a complete run. -/
def runResult (specs : List TaskSpec) (kwargs : List (String × Val)) :
    Except Err (List (String × Val)) :=
  match startupRun specs kwargs with
  | .ok (r, _, _) => r
  | .error e => .error e

/-- Loop-head states reachable by `n` successful iterations of the
scheduling loop. -/
def reachN : Nat → RunState → Option RunState
  | 0, st => some st
  | Nat.succ n, st =>
    match st.queue with
    | [] => Option.none
    | _ :: _ =>
      match stepOnce st with
      | (st', .ok ()) => reachN n st'
      | (_, .error _) => Option.none

/-- The number of occurrences of variable `n` in a return annotation. -/
def occOut (w : WriteSpec) (n : String) : Nat := w.names.count n

/-- The total number of declared writes of variable `n` in a run: one per
output occurrence in a registered spec plus one per keyword argument. -/
def declaredWrites (specs : List TaskSpec) (kwargs : List (String × Val))
    (n : String) : Nat :=
  (specs.map (fun s => occOut s.out n)).sum + (kwargs.map Prod.fst).count n

/-- The result of a second `call` on the object left behind by a first
`call` (used to examine the reuse behaviour). -/
def secondCallResult (specs : List TaskSpec) (k1 k2 : List (String × Val)) :
    Except Err (List (String × Val)) :=
  match registerAll specs with
  | .error e => .error e
  | .ok obj => (Startup.call ((Startup.call obj k1).2.1) k2).1

/-- A task spec with no inputs, one output variable, and a constant body. -/
def constTask (i : Nat) (q : String) (outName : String) (v : Nat) : TaskSpec :=
  { id := i, modName := "m", qualname := q, params := [], binds := [],
    out := .one outName, body := fun _ => .nat v }

/-- Two distinct no-input tasks whose functions share the tie-break key
`("m", "f")` (in Python, two functions produced by the same factory share
`__module__` and `__qualname__`): used against registration-order
independence. -/
def exKeyA : TaskSpec := constTask 0 "f" "a" 0

/-- The second task of the shared-key pair. -/
def exKeyB : TaskSpec := constTask 1 "f" "b" 1

/-- A no-input task declaring two output variables whose body returns a
three-element list: used against the return-arity requirement. -/
def exArity : TaskSpec :=
  { id := 0, modName := "m", qualname := "f", params := [], binds := [],
    out := .many ["p", "q"], body := fun _ => .list [.nat 1, .nat 2, .nat 3] }

/-- A no-input task declaring two output variables whose body returns a
one-element list, so its second declared write never happens. -/
def exShort : TaskSpec :=
  { id := 0, modName := "m", qualname := "f", params := [], binds := [],
    out := .many ["p", "q"], body := fun _ => .list [.nat 1] }

/-- A task reading `x` (latest mode) that no write ever satisfies. -/
def exStuck : TaskSpec :=
  { id := 0, modName := "m", qualname := "f", params := ["x"],
    binds := [⟨"x", "x", .latest⟩], out := .none, body := fun _ => .nat 0 }

/-- A task with a collection-mode input on a variable with zero declared
writers and a latest-mode input on `y` (the §8 scenario run with only `y`
supplied). -/
def exColl : TaskSpec :=
  { id := 0, modName := "m", qualname := "f", params := ["xs", "y"],
    binds := [⟨"xs", "x", .all⟩, ⟨"y", "y", .latest⟩], out := .none,
    body := fun _ => .nat 0 }

/-- A dependency cycle: `f1 : x → y`, `f2 : y → z`, `f3 : y → x`. -/
def exCycle : List TaskSpec :=
  [{ id := 0, modName := "m", qualname := "f1", params := ["x"],
     binds := [⟨"x", "x", .latest⟩], out := .one "y", body := fun _ => .nat 0 },
   { id := 1, modName := "m", qualname := "f2", params := ["y"],
     binds := [⟨"y", "y", .latest⟩], out := .one "z", body := fun _ => .nat 0 },
   { id := 2, modName := "m", qualname := "f3", params := ["y"],
     binds := [⟨"y", "y", .latest⟩], out := .one "x", body := fun _ => .nat 0 }]

/-- Three zero-input writers of `x` plus a collection-mode reader of `x`
(the §8 join scenario). -/
def exJoin : List TaskSpec :=
  [constTask 0 "w1" "x" 1, constTask 1 "w2" "x" 2, constTask 2 "w3" "x" 3,
   { id := 3, modName := "m", qualname := "zreader", params := ["xs"],
     binds := [⟨"xs", "x", .all⟩], out := .one "got",
     body := fun vs => .list vs }]

/-- A task with an unannotated non-optional parameter (rejected by
`startup`, accepted by `boot`). -/
def exNoAnn : TaskSpec :=
  { id := 0, modName := "m", qualname := "f", params := ["x"], binds := [],
    out := .none, body := fun _ => .nat 0 }

/-- A concrete run state holding the `exArity` task alone in the queue
(the state of the loop body just before `closure.call()`). -/
def exAritySt : RunState :=
  match registerAll [exArity] with
  | .ok obj =>
    { funcs := obj.funcs, closures := obj.closures, vars := obj.vars,
      names := obj.names, queue := [0], events := [] }
  | .error _ =>
    { funcs := [], closures := fun _ => Closure.dummy, vars := fun _ => Variable.init,
      names := [], queue := [], events := [] }

/-- The `Startup` object holding the single registered task `exArity`. -/
def exArityObj : Startup :=
  match registerAll [exArity] with
  | .ok obj => obj
  | .error _ => Startup.init

/-- The `Startup` object holding the registered `exJoin` task list. -/
def exJoinObj : Startup :=
  match registerAll exJoin with
  | .ok obj => obj
  | .error _ => Startup.init

/-- A minimal join scenario: one writer of `x` and one collection-mode
reader of `x`. -/
def exJoin2 : List TaskSpec :=
  [constTask 0 "w" "x" 7,
   { id := 1, modName := "m", qualname := "zr", params := ["xs"],
     binds := [⟨"xs", "x", .all⟩], out := .none, body := fun _ => .nat 0 }]

/-- The `Startup` object holding the registered `exJoin2` task list. -/
def exJoin2Obj : Startup :=
  match registerAll exJoin2 with
  | .ok obj => obj
  | .error _ => Startup.init

/-- The `Startup` object holding the single registered task `exStuck`. -/
def exStuckObj : Startup :=
  match registerAll [exStuck] with
  | .ok obj => obj
  | .error _ => Startup.init

/-- A reader of `a` (latest mode) writing `b`, with tie-break key
`("m", "g")`. -/
def exC1reader : TaskSpec :=
  { id := 1, modName := "m", qualname := "g", params := ["x"],
    binds := [⟨"x", "a", .latest⟩], out := .one "b", body := fun _ => .nat 2 }

/-- A writer of `a` and a dependent reader, with distinct tie-break keys,
in the two registration orders. -/
def exC1specs : List TaskSpec :=
  [constTask 0 "f" "a" 1, exC1reader]

/-- The same two tasks registered in the opposite order. -/
def exC1specsR : List TaskSpec :=
  [exC1reader, constTask 0 "f" "a" 1]

/-- The `Startup` object registered from `exC1specs`. -/
def exC1Obj : Startup :=
  match registerAll exC1specs with
  | .ok obj => obj
  | .error _ => Startup.init

/-- The `Startup` object registered from `exC1specsR`. -/
def exC1ObjR : Startup :=
  match registerAll exC1specsR with
  | .ok obj => obj
  | .error _ => Startup.init

/-- The event log of the run of `exC1specs`. -/
def exC1es : List Event :=
  [.inv 0 [], .wr "a" (.nat 1), .inv 1 [.nat 1], .wr "b" (.nat 2)]

/-- The output mapping of the run of `exC1specs`. -/
def exC1out : List (String × Val) :=
  [("a", Val.nat 1), ("b", Val.nat 2)]

/-- The `Startup` object holding `exKeyA, exKeyB` in that order. -/
def exKeyABObj : Startup :=
  match registerAll [exKeyA, exKeyB] with
  | .ok obj => obj
  | .error _ => Startup.init

/-- The `Startup` object holding `exKeyB, exKeyA` in that order. -/
def exKeyBAObj : Startup :=
  match registerAll [exKeyB, exKeyA] with
  | .ok obj => obj
  | .error _ => Startup.init

/-- The run state entering `_write_values` for the `exKeyA, exKeyB`
registration order (the stable sort keeps the registration order of the
two equal-key closures). -/
def exKeyABSt : RunState :=
  { funcs := [0, 1], closures := exKeyABObj.closures,
    vars := exKeyABObj.vars, names := exKeyABObj.names,
    queue := [0, 1], events := [] }

/-- The run state entering `_write_values` for the `exKeyB, exKeyA`
registration order. -/
def exKeyBASt : RunState :=
  { funcs := [1, 0], closures := exKeyBAObj.closures,
    vars := exKeyBAObj.vars, names := exKeyBAObj.names,
    queue := [1, 0], events := [] }

/-- The number of `notify_read_ready` calls task `id` receives when the
readers of the readable variables among `ws` are notified. -/
def notifCount (vars : String → Variable)
    (ws : List String) (id : Nat) : Nat :=
  (ws.map (fun n => if (vars n).readable then (vars n).readers.count id else 0)).sum

/-- The total number of declared write occurrences on variable `n` among
the unreleased registered tasks. -/
def unreleasedDecl (cls : Nat → Closure) (R : List Nat) (n : String) : Nat :=
  (R.map (fun id =>
    if (cls id).released then 0 else occOut (cls id).writeto n)).sum

/-- The master invariant of loop-head states, relative to the list `R` of
registered task ids and the declared-write totals `D` (registration
declarations plus keyword-argument declarations).  It packages the
queue/readiness correspondence, the released/invoked correspondence, the
wait-count accounting against readable variables, the reader-list
accounting against bindings, the value-history/event-log correspondence,
and the writer accounting. -/
structure InvB (R : List Nat) (D : String → Nat) (st : RunState) : Prop where
  funcsNodup : st.funcs.Nodup
  funcsSub : ∀ id ∈ st.funcs, id ∈ R
  queueNodup : st.queue.Nodup
  queueSub : ∀ id ∈ st.queue, id ∈ st.funcs
  queueSat : ∀ id ∈ st.queue, (st.closures id).numReadReadyWaits = 0
  satInQueue : ∀ id ∈ st.funcs,
    (st.closures id).numReadReadyWaits = 0 → id ∈ st.queue
  relNR : ∀ id ∈ R, (id ∈ st.funcs ↔ (st.closures id).released = false)
  relInv : ∀ id ∈ R,
    ((st.closures id).released = true ↔ id ∈ invocs st.events)
  invNodup : (invocs st.events).Nodup
  invSub : ∀ id ∈ invocs st.events, id ∈ R
  waitsCount : ∀ id ∈ R, (st.closures id).released = false →
    (st.closures id).numReadReadyWaits
      = (st.closures id).args.countP (fun b => !(st.vars b.var).readable)
  readersCnt : ∀ n, ∀ id ∈ R, (st.vars n).readers.count id
    = (st.closures id).args.countP (fun b => b.var = n)
  readersSub : ∀ n, ∀ id ∈ (st.vars n).readers, id ∈ R
  releasedReadable : ∀ id ∈ R, (st.closures id).released = true →
    ∀ b ∈ (st.closures id).args, (st.vars b.var).readable = true
  valuesLog : ∀ n, (st.vars n).values = writesTo n st.events
  declBalance : ∀ n,
    (st.vars n).numWriteWaits + (writesTo n st.events).length = D n
  waitsWriters : ∀ n,
    unreleasedDecl st.closures R n ≤ (st.vars n).numWriteWaits

/-- Bookkeeping facts maintained at every loop-head state of a run:
registered functions are listed once each, the invocation log never
repeats, invoked tasks are exactly the released ones, and pending tasks
are unreleased. -/
structure LoopInvA (st : RunState) : Prop where
  funcsNodup : st.funcs.Nodup
  invNodup : (invocs st.events).Nodup
  invRel : ∀ id ∈ invocs st.events, (st.closures id).released = true
  funcsFresh : ∀ id ∈ st.funcs, (st.closures id).released = false

/-- The collection-read correctness property of an event log: whenever a
task `t` was invoked with argument values `vs`, every collection-mode
binding of `t` received exactly the values written to its variable before
the invocation, the count of those values is the total declared-write
count, no value is written to the variable afterwards, and every
registered writer of the variable had already been invoked. -/
def JoinProp (specs : List TaskSpec) (kw : List (String × Val))
    (st : RunState) : Prop :=
  ∀ pre t vs post, st.events = pre ++ Event.inv t vs :: post →
    ∀ i b, (st.closures t).args.get? i = some b → b.mode = .all →
      vs.get? i = some (.list (writesTo b.var pre)) ∧
      (writesTo b.var pre).length = declaredWrites specs kw b.var ∧
      writesTo b.var post = [] ∧
      ∀ sp ∈ specs, 0 < occOut sp.out b.var → sp.id ∈ invocs pre

/-- Correspondence between the variable tables of two runs that differ
only in registration order: wait counts and value histories agree, and
reader lists agree as multisets (their order records registration
order). -/
def VarsRel (v1 v2 : String → Variable) : Prop :=
  ∀ n, (v2 n).numWriteWaits = (v1 n).numWriteWaits ∧
    (v2 n).values = (v1 n).values ∧
    (v2 n).readers.Perm (v1 n).readers

/-- Correspondence between the run states of two executions whose
registrations are permutations of each other: the ready queue and the
event log agree exactly, the closure stores agree, and the remaining
components agree up to registration order. -/
structure SRel (s1 s2 : RunState) : Prop where
  funcs : s2.funcs.Perm s1.funcs
  closures : s2.closures = s1.closures
  vars : VarsRel s1.vars s2.vars
  names : s2.names.Perm s1.names
  queue : s2.queue = s1.queue
  events : s2.events = s1.events

/-- The same correspondence for the registered objects before a run. -/
structure ObjRel (s1 s2 : Startup) : Prop where
  funcs : s2.funcs.Perm s1.funcs
  closures : s2.closures = s1.closures
  vars : VarsRel s1.vars s2.vars
  names : s2.names.Perm s1.names
  satisfied : s2.satisfied.Perm s1.satisfied
  released : s2.released = s1.released

section BasicLemmas

theorem upd_same {α β : Type} [DecidableEq α] (f : α → β) (a : α) (b : β) :
    upd f a b a = b := by simp [upd]

theorem upd_other {α β : Type} [DecidableEq α] (f : α → β) (a : α) (b : β)
    (x : α) (h : x ≠ a) : upd f a b x = f x := by simp [upd, h]

theorem Variable.write_ok {v v' : Variable} {x : Val}
    (h : v.write x = .ok v') :
    v.numWriteWaits ≠ 0 ∧
      v' = { v with numWriteWaits := v.numWriteWaits - 1, values := v.values ++ [x] } := by
  unfold Variable.write at h
  split at h
  · exact absurd h (by simp)
  · exact ⟨by assumption, by injection h with h; exact h.symm⟩

theorem Variable.write_error {v : Variable} {x : Val} {e : Err}
    (h : v.write x = .error e) : v.numWriteWaits = 0 ∧ e = .assertFail := by
  unfold Variable.write at h
  split at h
  · exact ⟨by assumption, by injection h with h; exact h.symm⟩
  · exact absurd h (by simp)

/-- Effect of a successful sequence of writes (`zip` loop of `Closure.call`):
only `vars` and `events` change; each variable receives the values zipped to
it, in order, and its wait count drops once per occurrence. -/
theorem writeSeq_ok {l : List (String × Val)} {st st' : RunState}
    (h : writeSeq st l = (st', .ok ())) :
    st'.funcs = st.funcs ∧ st'.closures = st.closures ∧ st'.names = st.names ∧
    st'.queue = st.queue ∧
    st'.events = st.events ++ l.map (fun p => Event.wr p.1 p.2) ∧
    ∀ n, (st'.vars n).readers = (st.vars n).readers ∧
      (st'.vars n).values
        = (st.vars n).values ++ (l.filter (fun p => p.1 = n)).map Prod.snd ∧
      (st'.vars n).numWriteWaits + (l.map Prod.fst).count n
        = (st.vars n).numWriteWaits := by
  induction l generalizing st with
  | nil =>
    unfold writeSeq at h
    injection h with h1 h2
    subst h1
    simp
  | cons hd tl ih =>
    obtain ⟨nm, v⟩ := hd
    simp only [writeSeq] at h
    split at h
    next e heq => simp at h
    next var' heq =>
      obtain ⟨hne, hv⟩ := Variable.write_ok heq
      obtain ⟨f1, f2, f3, f4, f5, f6⟩ := ih h
      dsimp only at f1 f2 f3 f4 f5 f6
      refine ⟨f1, f2, f3, f4, ?_, ?_⟩
      · rw [f5]; simp
      · intro n
        obtain ⟨g1, g2, g3⟩ := f6 n
        by_cases hmn : n = nm
        · subst hmn
          rw [upd_same] at g1 g2 g3
          rw [hv] at g1 g2 g3
          refine ⟨g1, ?_, ?_⟩
          · rw [g2]; simp
          · dsimp only at g3
            simp only [List.map_cons, List.count_cons, beq_self_eq_true,
              if_true, List.filter_cons] at *
            omega
        · rw [upd_other _ _ _ _ hmn] at g1 g2 g3
          refine ⟨g1, ?_, ?_⟩
          · rw [g2]; simp [List.filter_cons, Ne.symm hmn]
          · simp only [List.map_cons, List.count_cons] at *
            have hb : (nm == n) = false := by
              simp only [beq_eq_false_iff_ne, ne_eq]
              intro hh; exact hmn hh.symm
            rw [hb] at *
            simp at *
            omega

/-- `Closure.call` with a tuple of N output variables and a return value
that is a sequence of M values writes element i to output variable i for
each `i < min N M`, in declared order, with no arity check: surplus return
elements are dropped and missing ones leave declared writes unperformed.
Repeated output variables receive their writes independently (the wait
count of a variable drops once per occurrence), and the returned set of
"written" variables is the deduplicated list of declared output names. -/
theorem closureCall_many {st st' : RunState} {id : Nat} {ns : List String}
    {outs vals : List Val} {written : List String}
    (h1 : (st.closures id).released = false)
    (h2 : (st.closures id).numReadReadyWaits = 0)
    (h3 : (st.closures id).writeto = .many ns)
    (hvals : readArgs st.vars (st.closures id).args = .ok vals)
    (hbody : (st.closures id).body vals = .list outs)
    (hok : closureCall st id = (st', .ok written)) :
    written = ns.eraseDups ∧
    st'.events = st.events ++ Event.inv id vals ::
      (ns.zip outs).map (fun p => Event.wr p.1 p.2) ∧
    (∀ n, (st'.vars n).values
        = (st.vars n).values ++ ((ns.zip outs).filter (fun p => p.1 = n)).map Prod.snd ∧
      (st'.vars n).numWriteWaits + ((ns.zip outs).map Prod.fst).count n
        = (st.vars n).numWriteWaits) ∧
    st'.funcs = st.funcs ∧ st'.queue = st.queue := by
  simp only [closureCall, h1, h2, hvals, h3, hbody, Bool.false_eq_true,
    if_false, ne_eq, not_true_eq_false, not_false_eq_true, reduceIte] at hok
  simp only [writeOuts] at hok
  cases hws : writeSeq { st with events := st.events ++ [Event.inv id vals] } (ns.zip outs) with
  | mk st2 r =>
    rw [hws] at hok
    cases r with
    | error e => simp at hok
    | ok u =>
      dsimp only at hok
      obtain ⟨w1, w2, w3, w4, w5, w6⟩ := writeSeq_ok hws
      dsimp only at w1 w2 w3 w4 w5 w6
      injection hok with hst hw
      injection hw with hw
      subst hst
      refine ⟨hw.symm, ?_, ?_, ?_, ?_⟩
      · dsimp only; rw [w5]; simp
      · intro n
        obtain ⟨g1, g2, g3⟩ := w6 n
        exact ⟨g2, g3⟩
      · exact w1
      · exact w4

theorem Variable.readLatest_ok {v : Variable} {x : Val}
    (h : v.readLatest = .ok x) :
    v.readable = true ∧ v.values.getLast? = some x := by
  unfold Variable.readLatest at h
  split at h
  · refine ⟨by assumption, ?_⟩
    split at h
    · injection h with h; subst h; assumption
    · exact absurd h (by simp)
  · exact absurd h (by simp)

/-- The successful output dictionary lists exactly the touched variables,
each readable, mapped to the last value of its history. -/
theorem readOutputs_ok {vars : String → Variable} {ns : List String}
    {out : List (String × Val)} (h : readOutputs vars ns = .ok out) :
    out.map Prod.fst = ns ∧
    ∀ p ∈ out, (vars p.1).readable = true ∧ (vars p.1).values.getLast? = some p.2 := by
  induction ns generalizing out with
  | nil =>
    unfold readOutputs at h
    injection h with h
    subst h
    simp
  | cons n rest ih =>
    unfold readOutputs at h
    cases hl : (vars n).readLatest with
    | error e => rw [hl] at h; simp at h
    | ok x =>
      rw [hl] at h
      cases hr : readOutputs vars rest with
      | error e => rw [hr] at h; simp at h
      | ok out2 =>
        rw [hr] at h
        dsimp only at h
        injection h with h
        subst h
        obtain ⟨i1, i2⟩ := ih hr
        obtain ⟨r1, r2⟩ := Variable.readLatest_ok hl
        refine ⟨by simp [i1], ?_⟩
        intro p hp
        rcases List.mem_cons.mp hp with hp | hp
        · subst hp; exact ⟨r1, r2⟩
        · exact i2 p hp

/-- A successful loop ends with an empty queue. -/
theorem loop_ok_queue {fuel : Nat} {st st' : RunState}
    (h : loop fuel st = (st', .ok ())) : st'.queue = [] := by
  induction fuel generalizing st with
  | zero =>
    unfold loop at h
    split at h
    · injection h with h1 h2; subst h1; assumption
    · simp at h
  | succ n ih =>
    unfold loop at h
    split at h
    next hq => injection h with h1 h2; subst h1; assumption
    next =>
      revert h
      cases hs : stepOnce st with
      | mk st2 r =>
        cases r with
        | ok u => intro h; exact ih h
        | error e => intro h; simp at h

/-- Case analysis of `runFrom`: either the run succeeds, the returned
object is released, no function remains and the output dictionary reads
every touched variable; or the run fails and the returned object is not
released (its attributes are retained). -/
theorem runFrom_cases (st0 : RunState) (kw : List (String × Val)) :
    (∃ out obj es, runFrom st0 kw = (.ok out, obj, es) ∧ obj.released = true ∧
      obj.funcs = [] ∧ readOutputs obj.vars obj.names = .ok out) ∨
    (∃ e obj es, runFrom st0 kw = (.error e, obj, es) ∧ obj.released = false) := by
  unfold runFrom
  cases hwv : writeValues st0 kw with
  | mk st1 r1 =>
    cases r1 with
    | error e => right; exact ⟨e, _, _, rfl, rfl⟩
    | ok batch =>
      dsimp only
      cases hlp : loop (fuelOf { st1 with queue := st1.queue ++ batch })
          { st1 with queue := st1.queue ++ batch } with
      | mk st3 r3 =>
        cases r3 with
        | error e => right; exact ⟨e, _, _, rfl, rfl⟩
        | ok u =>
          dsimp only
          by_cases hf : st3.funcs = []
          · cases hro : readOutputs st3.vars st3.names with
            | error e =>
              right
              refine ⟨e, stToObj st3, st3.events, ?_, rfl⟩
              simp [hf, hro]
            | ok out =>
              left
              refine ⟨out, { stToObj st3 with released := true }, st3.events,
                ?_, rfl, ?_, ?_⟩
              · simp [hf, hro]
              · simpa [stToObj] using hf
              · simpa [stToObj] using hro
          · right
            refine ⟨.unsat st3.funcs, stToObj st3, st3.events, ?_, rfl⟩
            simp [hf]

/-- `Startup.call` on a non-released object is `runFrom` on the prepared
initial run state. -/
theorem call_eq_runFrom (s : Startup) (kw : List (String × Val))
    (hrel : s.released = false) :
    Startup.call s kw = runFrom (callInit s kw) kw := by
  simp [Startup.call, hrel]

end BasicLemmas

section EventLemmas

theorem invocs_append (a b : List Event) :
    invocs (a ++ b) = invocs a ++ invocs b := by
  simp [invocs, List.filterMap_append]

theorem writesTo_append (n : String) (a b : List Event) :
    writesTo n (a ++ b) = writesTo n a ++ writesTo n b := by
  simp [writesTo, List.filterMap_append]

theorem invocs_wr (n : String) (v : Val) : invocs [Event.wr n v] = [] := rfl

theorem writesTo_inv (n : String) (id : Nat) (vs : List Val) :
    writesTo n [Event.inv id vs] = [] := rfl

theorem invocs_inv (id : Nat) (vs : List Val) :
    invocs [Event.inv id vs] = [id] := rfl

theorem invocs_wr_map (l : List (String × Val)) :
    invocs (l.map (fun p => Event.wr p.1 p.2)) = [] := by
  induction l with
  | nil => rfl
  | cons hd tl ih => simp [invocs]

end EventLemmas

section StepLemmas

/-- Any `writeSeq` step touches only `vars` and `events`, and the events
it appends contain no invocation. -/
theorem writeSeq_any {l : List (String × Val)} {st st' : RunState}
    {r : Except Err Unit} (h : writeSeq st l = (st', r)) :
    st'.funcs = st.funcs ∧ st'.closures = st.closures ∧ st'.names = st.names ∧
    st'.queue = st.queue ∧ ∃ tail, st'.events = st.events ++ tail ∧ invocs tail = [] := by
  induction l generalizing st with
  | nil =>
    unfold writeSeq at h
    injection h with h1 h2
    subst h1
    exact ⟨rfl, rfl, rfl, rfl, [], by simp, rfl⟩
  | cons hd tl ih =>
    obtain ⟨nm, v⟩ := hd
    simp only [writeSeq] at h
    split at h
    next e heq =>
      injection h with h1 h2
      subst h1
      exact ⟨rfl, rfl, rfl, rfl, [], by simp, rfl⟩
    next var' heq =>
      obtain ⟨f1, f2, f3, f4, tail, f5, f6⟩ := ih h
      refine ⟨f1, f2, f3, f4, Event.wr nm v :: tail, ?_, ?_⟩
      · rw [f5]; simp
      · simpa [invocs] using f6

/-- A successful `Closure.call` of task `id`: the task was unreleased, it
is invoked exactly once (appended to the invocation log), and it becomes
released; `funcs`, `names` and the queue are untouched. -/
theorem closureCall_ok_shape {st st' : RunState} {id : Nat}
    {written : List String} (h : closureCall st id = (st', .ok written)) :
    st'.funcs = st.funcs ∧ st'.names = st.names ∧ st'.queue = st.queue ∧
    (st.closures id).released = false ∧
    invocs st'.events = invocs st.events ++ [id] ∧
    st'.closures = upd st.closures id { st.closures id with released := true } := by
  unfold closureCall at h
  dsimp only at h
  split at h
  · simp at h
  · split at h
    · simp at h
    · split at h
      next e heq => simp at h
      next vals heq =>
        revert h
        cases hwo : writeOuts { st with events := st.events ++ [Event.inv id vals] }
            (st.closures id).writeto ((st.closures id).body vals) with
        | mk st2 r2 =>
          intro h
          cases r2 with
          | error e => simp at h
          | ok w =>
            injection h with h1 h2
            injection h2 with h2
            subst h1
            have hwol :
                st2.funcs = st.funcs ∧ st2.closures = st.closures ∧
                st2.names = st.names ∧ st2.queue = st.queue ∧
                ∃ tail, st2.events = (st.events ++ [Event.inv id vals]) ++ tail ∧
                  invocs tail = [] := by
              revert hwo
              unfold writeOuts
              cases hwt : (st.closures id).writeto with
              | none =>
                intro hwo
                injection hwo with g1 g2
                subst g1
                exact ⟨rfl, rfl, rfl, rfl, [], by simp, rfl⟩
              | one n =>
                intro hwo
                dsimp only at hwo
                cases hw : (st.vars n).write ((st.closures id).body vals) with
                | error e => rw [hw] at hwo; simp at hwo
                | ok var' =>
                  rw [hw] at hwo
                  injection hwo with g1 g2
                  subst g1
                  exact ⟨rfl, rfl, rfl, rfl,
                    [Event.wr n ((st.closures id).body vals)], by simp, rfl⟩
              | many ns =>
                intro hwo
                revert hwo
                cases hb : (st.closures id).body vals with
                | nat m => intro hwo; simp at hwo
                | list outs =>
                  intro hwo
                  dsimp only at hwo
                  cases hws : writeSeq { st with events := st.events ++ [Event.inv id vals] }
                      (ns.zip outs) with
                  | mk st3 r3 =>
                    rw [hws] at hwo
                    cases r3 with
                    | error e => simp at hwo
                    | ok u =>
                      injection hwo with g1 g2
                      subst g1
                      obtain ⟨w1, w2, w3, w4, tail, w5, w6⟩ := writeSeq_any hws
                      exact ⟨w1, w2, w3, w4, tail, by simp [w5], w6⟩
            obtain ⟨g1, g2, g3, g4, tail, g5, g6⟩ := hwol
            refine ⟨g1, g3, g4, Bool.eq_false_iff.mpr (by assumption), ?_, by rw [g2]⟩
            dsimp only
            rw [g5, invocs_append, invocs_append, g6, invocs_inv]
            simp

/-- A failing `Closure.call` leaves `funcs`, the closures, `names` and
the queue untouched, and appends at most one invocation event (the task's
own, and only if the task was unreleased). -/
theorem closureCall_error_shape {st st' : RunState} {id : Nat} {e : Err}
    (h : closureCall st id = (st', .error e)) :
    st'.funcs = st.funcs ∧ st'.names = st.names ∧ st'.queue = st.queue ∧
    st'.closures = st.closures ∧
    (invocs st'.events = invocs st.events ∨
      ((st.closures id).released = false ∧
       invocs st'.events = invocs st.events ++ [id])) := by
  unfold closureCall at h
  dsimp only at h
  split at h
  next hrel =>
    injection h with h1 h2
    subst h1
    exact ⟨rfl, rfl, rfl, rfl, Or.inl rfl⟩
  next hrel =>
    split at h
    · injection h with h1 h2
      subst h1
      exact ⟨rfl, rfl, rfl, rfl, Or.inl rfl⟩
    · split at h
      next e2 heq =>
        injection h with h1 h2
        subst h1
        exact ⟨rfl, rfl, rfl, rfl, Or.inl rfl⟩
      next vals heq =>
        revert h
        cases hwo : writeOuts { st with events := st.events ++ [Event.inv id vals] }
            (st.closures id).writeto ((st.closures id).body vals) with
        | mk st2 r2 =>
          intro h
          cases r2 with
          | ok w => simp at h
          | error e2 =>
            injection h with h1 h2
            subst h1
            have hwol :
                st2.funcs = st.funcs ∧ st2.closures = st.closures ∧
                st2.names = st.names ∧ st2.queue = st.queue ∧
                ∃ tail, st2.events = (st.events ++ [Event.inv id vals]) ++ tail ∧
                  invocs tail = [] := by
              revert hwo
              unfold writeOuts
              cases hwt : (st.closures id).writeto with
              | none => intro hwo; simp at hwo
              | one n =>
                intro hwo
                dsimp only at hwo
                cases hw : (st.vars n).write ((st.closures id).body vals) with
                | error e3 =>
                  rw [hw] at hwo
                  injection hwo with g1 g2
                  subst g1
                  exact ⟨rfl, rfl, rfl, rfl, [], by simp, rfl⟩
                | ok var' => rw [hw] at hwo; simp at hwo
              | many ns =>
                intro hwo
                revert hwo
                cases hb : (st.closures id).body vals with
                | nat m =>
                  intro hwo
                  injection hwo with g1 g2
                  subst g1
                  exact ⟨rfl, rfl, rfl, rfl, [], by simp, rfl⟩
                | list outs =>
                  intro hwo
                  dsimp only at hwo
                  cases hws : writeSeq { st with events := st.events ++ [Event.inv id vals] }
                      (ns.zip outs) with
                  | mk st3 r3 =>
                    rw [hws] at hwo
                    cases r3 with
                    | ok u => simp at hwo
                    | error e3 =>
                      injection hwo with g1 g2
                      subst g1
                      obtain ⟨w1, w2, w3, w4, tail, w5, w6⟩ := writeSeq_any hws
                      exact ⟨w1, w2, w3, w4, tail, by simp [w5], w6⟩
            obtain ⟨g1, g2, g3, g4, tail, g5, g6⟩ := hwol
            refine ⟨g1, g3, g4, g2, Or.inr ⟨Bool.eq_false_iff.mpr (by assumption), ?_⟩⟩
            rw [g5, invocs_append, invocs_append, g6, invocs_inv]
            simp

/-- `notify_read_ready` passes change nothing of a closure except its
wait count. -/
theorem notifyFold_preserve {cls : Nat → Closure} {rs acc : List Nat}
    {cls' : Nat → Closure} {acc' : List Nat} {r : Except Err Unit}
    (h : notifyFold cls rs acc = ((cls', acc'), r)) :
    ∀ j, ∃ w, cls' j = { cls j with numReadReadyWaits := w } := by
  induction rs generalizing cls acc with
  | nil =>
    unfold notifyFold at h
    injection h with h1 h2
    injection h1 with h1 h2
    subst h1
    intro j
    exact ⟨(cls j).numReadReadyWaits, rfl⟩
  | cons hd tl ih =>
    unfold notifyFold at h
    dsimp only at h
    split at h
    · injection h with h1 h2
      injection h1 with h1 h2
      subst h1
      intro j
      exact ⟨(cls j).numReadReadyWaits, rfl⟩
    · split at h
      · injection h with h1 h2
        injection h1 with h1 h2
        subst h1
        intro j
        exact ⟨(cls j).numReadReadyWaits, rfl⟩
      · intro j
        obtain ⟨w, hw⟩ := ih h j
        by_cases hj : j = hd
        · subst hj
          rw [hw, upd_same]
          exact ⟨w, rfl⟩
        · rw [hw, upd_other _ _ _ _ hj]
          exact ⟨w, rfl⟩

/-- The outer loop of `_notify_reader_writes` likewise only changes wait
counts. -/
theorem notifyVars_preserve {cls : Nat → Closure} {vars : String → Variable}
    {ws : List String} {acc : List Nat} {cls' : Nat → Closure}
    {acc' : List Nat} {r : Except Err Unit}
    (h : notifyVars cls vars ws acc = ((cls', acc'), r)) :
    ∀ j, ∃ w, cls' j = { cls j with numReadReadyWaits := w } := by
  induction ws generalizing cls acc with
  | nil =>
    unfold notifyVars at h
    injection h with h1 h2
    injection h1 with h1 h2
    subst h1
    intro j
    exact ⟨(cls j).numReadReadyWaits, rfl⟩
  | cons hd tl ih =>
    unfold notifyVars at h
    split at h
    · revert h
      cases hnf : notifyFold cls (vars hd).readers acc with
      | mk p r1 =>
        obtain ⟨cls1, acc1⟩ := p
        cases r1 with
        | ok u =>
          intro h
          intro j
          obtain ⟨w1, hw1⟩ := ih h j
          obtain ⟨w2, hw2⟩ := notifyFold_preserve hnf j
          rw [hw1, hw2]
          exact ⟨w1, rfl⟩
        | error e =>
          intro h
          injection h with h1 h2
          injection h1 with h1 h2
          subst h1
          exact notifyFold_preserve hnf
    · exact ih h

/-- `_notify_reader_writes` touches only the closures' wait counts; all
other run-state components are unchanged. -/
theorem notifyReaders_preserve {st : RunState} {ws : List String}
    {st' : RunState} {r : Except Err (List Nat)}
    (h : notifyReaders st ws = (st', r)) :
    st'.funcs = st.funcs ∧ st'.vars = st.vars ∧ st'.names = st.names ∧
    st'.queue = st.queue ∧ st'.events = st.events ∧
    ∀ j, ∃ w, st'.closures j = { st.closures j with numReadReadyWaits := w } := by
  unfold notifyReaders at h
  revert h
  cases hnv : notifyVars st.closures st.vars ws [] with
  | mk p r1 =>
    obtain ⟨cls1, acc1⟩ := p
    cases r1 with
    | ok u =>
      intro h
      injection h with h1 h2
      subst h1
      exact ⟨rfl, rfl, rfl, rfl, rfl, notifyVars_preserve hnv⟩
    | error e =>
      intro h
      injection h with h1 h2
      subst h1
      exact ⟨rfl, rfl, rfl, rfl, rfl, notifyVars_preserve hnv⟩

/-- A successful loop iteration: either the queue was empty and nothing
happened, or the head task was popped, invoked (it was unreleased and is
now released), removed from `funcs`, and the newly satisfied batch was
appended to the queue. -/
theorem stepOnce_ok {st st' : RunState} (h : stepOnce st = (st', .ok ())) :
    (st.queue = [] ∧ st' = st) ∨
    ∃ id rest batch, st.queue = id :: rest ∧
      (st.closures id).released = false ∧
      (st'.closures id).released = true ∧
      (∀ j, j ≠ id → (st'.closures j).released = (st.closures j).released) ∧
      invocs st'.events = invocs st.events ++ [id] ∧
      id ∈ st.funcs ∧ st'.funcs = st.funcs.erase id ∧
      st'.queue = rest ++ batch := by
  unfold stepOnce at h
  split at h
  next hq =>
    injection h with h1 h2
    subst h1
    exact Or.inl ⟨hq, rfl⟩
  next id rest hq =>
    right
    dsimp only at h
    cases hcc : closureCall { st with queue := rest } id with
    | mk st1 r1 =>
      rw [hcc] at h
      cases r1 with
      | error e => simp at h
      | ok written =>
        obtain ⟨c1, c2, c3, c4, c5, c6⟩ := closureCall_ok_shape hcc
        dsimp only at c1 c2 c3 c4 c5 c6
        dsimp only at h
        split at h
        next hmem =>
          cases hnr : notifyReaders { st1 with funcs := st1.funcs.erase id } written with
          | mk st3 r3 =>
            rw [hnr] at h
            cases r3 with
            | error e => simp at h
            | ok batch =>
              injection h with h1 h2
              subst h1
              obtain ⟨n1, n2, n3, n4, n5, n6⟩ := notifyReaders_preserve hnr
              dsimp only at n1 n2 n3 n4 n5 n6
              refine ⟨id, rest, batch, hq, c4, ?_, ?_, ?_, ?_, ?_, ?_⟩
              · dsimp only
                obtain ⟨w, hw⟩ := n6 id
                rw [hw, c6, upd_same]
              · intro j hj
                dsimp only
                obtain ⟨w, hw⟩ := n6 j
                rw [hw, c6, upd_other _ _ _ _ hj]
              · dsimp only; rw [n5, c5]
              · rw [← c1]; exact hmem
              · dsimp only; rw [n1, c1]
              · dsimp only; rw [n4, c3]
        next hmem => simp at h

/-- A failing loop iteration: `funcs` is unchanged or loses exactly the
invoked head task, the invocation log gains at most the head task (only
when it was unreleased). -/
theorem stepOnce_error {st st' : RunState} {e : Err}
    (h : stepOnce st = (st', .error e)) :
    (st'.funcs = st.funcs ∨
      ∃ id, id ∈ st.funcs ∧ st'.funcs = st.funcs.erase id ∧
        id ∈ invocs st'.events) ∧
    (invocs st'.events = invocs st.events ∨
      ∃ id, (st.closures id).released = false ∧
        invocs st'.events = invocs st.events ++ [id]) := by
  unfold stepOnce at h
  split at h
  next hq => simp at h
  next id rest hq =>
    dsimp only at h
    cases hcc : closureCall { st with queue := rest } id with
    | mk st1 r1 =>
      rw [hcc] at h
      cases r1 with
      | error e1 =>
        injection h with h1 h2
        subst h1
        obtain ⟨c1, c2, c3, c4, c5⟩ := closureCall_error_shape hcc
        dsimp only at c1 c2 c3 c4 c5
        refine ⟨Or.inl c1, ?_⟩
        rcases c5 with c5 | ⟨c5a, c5b⟩
        · exact Or.inl c5
        · exact Or.inr ⟨id, c5a, c5b⟩
      | ok written =>
        obtain ⟨c1, c2, c3, c4, c5, c6⟩ := closureCall_ok_shape hcc
        dsimp only at c1 c2 c3 c4 c5 c6
        dsimp only at h
        split at h
        next hmem =>
          cases hnr : notifyReaders { st1 with funcs := st1.funcs.erase id } written with
          | mk st3 r3 =>
            rw [hnr] at h
            cases r3 with
            | ok batch => simp at h
            | error e3 =>
              injection h with h1 h2
              subst h1
              obtain ⟨n1, n2, n3, n4, n5, n6⟩ := notifyReaders_preserve hnr
              dsimp only at n1 n2 n3 n4 n5 n6
              constructor
              · right
                refine ⟨id, by rw [← c1]; exact hmem, by rw [n1, c1], ?_⟩
                rw [n5, c5]
                simp
              · right
                exact ⟨id, c4, by rw [n5, c5]⟩
        next hmem =>
          injection h with h1 h2
          subst h1
          refine ⟨Or.inl c1, Or.inr ⟨id, c4, c5⟩⟩

end StepLemmas

theorem call_released {s : Startup} (kw : List (String × Val))
    (h : s.released = true) :
    Startup.call s kw = (.error .reuse, s, []) := by
  simp [Startup.call, h]


section RegistrationLemmas

theorem register_ok {s0 : Startup} {spec : TaskSpec} {s1 : Startup}
    (h : Startup.register s0 spec = .ok s1) :
    s0.released = false ∧ spec.id ∉ s0.funcs ∧ s1 = registerCore s0 spec := by
  unfold Startup.register at h
  split at h
  · simp at h
  · split at h
    · simp at h
    · split at h
      · simp at h
      · refine ⟨Bool.eq_false_iff.mpr (by assumption), by assumption, ?_⟩
        injection h with h
        exact h.symm

theorem registerCore_funcs (s0 : Startup) (spec : TaskSpec) :
    (registerCore s0 spec).funcs = s0.funcs ++ [spec.id] := rfl

theorem registerCore_closures (s0 : Startup) (spec : TaskSpec) :
    (registerCore s0 spec).closures = upd s0.closures spec.id (Closure.mk' spec) := rfl

theorem registerCore_released (s0 : Startup) (spec : TaskSpec) :
    (registerCore s0 spec).released = s0.released := rfl

/-- Shape of a successful registration fold: ids are appended in order,
each is fresh when added, closures of previously registered tasks are
untouched, every spec's closure is exactly the one built from it, and
every closure is either untouched or freshly unreleased. -/
theorem registerFold_shape {specs : List TaskSpec} {s0 s : Startup}
    (h : List.foldlM Startup.register s0 specs = .ok s) :
    s.funcs = s0.funcs ++ specs.map TaskSpec.id ∧
    s.released = s0.released ∧
    (s0.funcs.Nodup → s.funcs.Nodup) ∧
    (∀ j ∈ s0.funcs, s.closures j = s0.closures j) ∧
    (∀ spec ∈ specs, s.closures spec.id = Closure.mk' spec) ∧
    (∀ j, s.closures j = s0.closures j ∨ (s.closures j).released = false) := by
  induction specs generalizing s0 with
  | nil =>
    simp only [List.foldlM] at h
    injection h with h
    subst h
    simp
  | cons spec rest ih =>
    simp only [List.foldlM] at h
    cases hr : Startup.register s0 spec with
    | error e => rw [hr] at h; simp [Bind.bind, Except.bind] at h
    | ok s1 =>
      rw [hr] at h
      simp only [Bind.bind, Except.bind] at h
      obtain ⟨hrel, hfresh, hcore⟩ := register_ok hr
      subst hcore
      obtain ⟨i1, i2, i3, i4, i5, i6⟩ := ih h
      have hf : (registerCore s0 spec).funcs = s0.funcs ++ [spec.id] := rfl
      have hc : (registerCore s0 spec).closures
          = upd s0.closures spec.id (Closure.mk' spec) := rfl
      refine ⟨?_, ?_, ?_, ?_, ?_, ?_⟩
      · rw [i1, hf]; simp
      · rw [i2]; rfl
      · intro hnd
        apply i3
        rw [hf]
        simp [List.nodup_append, hnd, hfresh]
      · intro j hj
        have hjm : j ∈ (registerCore s0 spec).funcs := by
          rw [hf]; exact List.mem_append_left _ hj
        have hne : j ≠ spec.id := fun he => hfresh (he ▸ hj)
        rw [i4 j hjm, hc, upd_other _ _ _ _ hne]
      · intro q hq
        rcases List.mem_cons.mp hq with hq | hq
        · subst hq
          rw [i4 q.id (by rw [hf]; simp), hc, upd_same]
        · exact i5 q hq
      · intro j
        rcases i6 j with h6 | h6
        · rw [h6, hc]
          by_cases hj : j = spec.id
          · subst hj
            rw [upd_same]
            right
            rfl
          · rw [upd_other _ _ _ _ hj]
            left
            rfl
        · right; exact h6

/-- Shape of `registerAll`: the registered ids in order, no duplicates,
an unreleased object, per-spec closures, and all closures unreleased. -/
theorem registerAll_shape {specs : List TaskSpec} {s : Startup}
    (h : registerAll specs = .ok s) :
    s.funcs = specs.map TaskSpec.id ∧ s.funcs.Nodup ∧ s.released = false ∧
    (∀ spec ∈ specs, s.closures spec.id = Closure.mk' spec) ∧
    (∀ j, (s.closures j).released = false) := by
  obtain ⟨i1, i2, i3, i4, i5, i6⟩ := registerFold_shape h
  refine ⟨by simpa [Startup.init] using i1, ?_, by simpa [Startup.init] using i2,
    i5, ?_⟩
  · have := i3 (by simp [Startup.init])
    exact this
  · intro j
    rcases i6 j with h6 | h6
    · rw [h6]; rfl
    · exact h6

end RegistrationLemmas

section WriteValuesLemmas

theorem writeValuesAux_any {kw : List (String × Val)} {acc : List String}
    {st : RunState} {st' : RunState} {acc' : List String} {r : Except Err Unit}
    (h : writeValuesAux st kw acc = ((st', acc'), r)) :
    st'.funcs = st.funcs ∧ st'.closures = st.closures ∧ st'.queue = st.queue ∧
    ∃ tail, st'.events = st.events ++ tail ∧ invocs tail = [] := by
  induction kw generalizing st acc with
  | nil =>
    unfold writeValuesAux at h
    injection h with h1 h2
    injection h1 with h1 h2
    subst h1
    exact ⟨rfl, rfl, rfl, [], by simp, rfl⟩
  | cons hd tl ih =>
    obtain ⟨nm, v⟩ := hd
    simp only [writeValuesAux] at h
    split at h
    next e heq =>
      injection h with h1 h2
      injection h1 with h1 h2
      subst h1
      exact ⟨rfl, rfl, rfl, [], by simp, rfl⟩
    next var' heq =>
      obtain ⟨f1, f2, f3, tail, f4, f5⟩ := ih h
      refine ⟨f1, f2, f3, Event.wr nm v :: tail, ?_, ?_⟩
      · rw [f4]; simp
      · simp [invocs] at f5 ⊢; exact f5

theorem writeValues_any {kw : List (String × Val)} {st st' : RunState}
    {r : Except Err (List Nat)} (h : writeValues st kw = (st', r)) :
    st'.funcs = st.funcs ∧ st'.queue = st.queue ∧
    (∀ j, ∃ w, st'.closures j = { st.closures j with numReadReadyWaits := w }) ∧
    ∃ tail, st'.events = st.events ++ tail ∧ invocs tail = [] := by
  unfold writeValues at h
  revert h
  cases hwa : writeValuesAux st kw [] with
  | mk p r1 =>
    obtain ⟨st1, acc⟩ := p
    cases r1 with
    | error e =>
      intro h
      injection h with h1 h2
      subst h1
      obtain ⟨f1, f2, f3, tail, f4, f5⟩ := writeValuesAux_any hwa
      exact ⟨f1, f3, fun j => ⟨(st.closures j).numReadReadyWaits, by rw [f2]⟩,
        tail, f4, f5⟩
    | ok u =>
      intro h
      obtain ⟨f1, f2, f3, tail, f4, f5⟩ := writeValuesAux_any hwa
      obtain ⟨n1, n2, n3, n4, n5, n6⟩ := notifyReaders_preserve h
      refine ⟨by rw [n1, f1], by rw [n4, f3], ?_, tail, by rw [n5, f4], f5⟩
      intro j
      obtain ⟨w, hw⟩ := n6 j
      rw [hw, f2]
      exact ⟨w, rfl⟩

end WriteValuesLemmas

section LoopLemmas

theorem loop_A {fuel : Nat} {st st' : RunState} {r : Except Err Unit}
    (h : loop fuel st = (st', r)) (inv : LoopInvA st) :
    (invocs st'.events).Nodup ∧
    (∃ tail, invocs st'.events = invocs st.events ++ tail) ∧
    (∀ id ∈ st.funcs, id ∈ st'.funcs ∨ id ∈ invocs st'.events) ∧
    (∀ id ∈ st'.funcs, id ∈ st.funcs) ∧
    (r = .ok () → LoopInvA st') := by
  induction fuel generalizing st with
  | zero =>
    unfold loop at h
    split at h <;>
      (injection h with h1 h2; subst h1)
    · exact ⟨inv.invNodup, ⟨[], by simp⟩, fun id hid => Or.inl hid,
        fun id hid => hid, fun _ => inv⟩
    · exact ⟨inv.invNodup, ⟨[], by simp⟩, fun id hid => Or.inl hid,
        fun id hid => hid, fun hcon => absurd (hcon ▸ h2) (by simp)⟩
  | succ n ih =>
    unfold loop at h
    split at h
    next hq =>
      injection h with h1 h2
      subst h1
      exact ⟨inv.invNodup, ⟨[], by simp⟩, fun id hid => Or.inl hid,
        fun id hid => hid, fun _ => inv⟩
    next id0 rest hq =>
      revert h
      cases hs : stepOnce st with
      | mk st1 r1 =>
        cases r1 with
        | error e =>
          intro h
          injection h with h1 h2
          subst h1
          obtain ⟨e1, e2⟩ := stepOnce_error hs
          have hnd : (invocs st1.events).Nodup := by
            rcases e2 with e2 | ⟨id, hrel, hinv⟩
            · rw [e2]; exact inv.invNodup
            · rw [hinv]
              have : id ∉ invocs st.events := fun hmem =>
                absurd (inv.invRel id hmem) (by rw [hrel]; simp)
              simp [List.nodup_append, inv.invNodup, this]
          have htail : ∃ tail, invocs st1.events = invocs st.events ++ tail := by
            rcases e2 with e2 | ⟨id, _, hinv⟩
            · exact ⟨[], by simp [e2]⟩
            · exact ⟨[id], hinv⟩
          refine ⟨hnd, htail, ?_, ?_, fun hcon => absurd (hcon ▸ h2) (by simp)⟩
          · intro id hid
            rcases e1 with e1 | ⟨j, hj, he, hjin⟩
            · exact Or.inl (by rw [e1]; exact hid)
            · by_cases hij : id = j
              · subst hij; exact Or.inr hjin
              · exact Or.inl (by rw [he]; exact (List.mem_erase_of_ne hij).mpr hid)
          · intro id hid
            rcases e1 with e1 | ⟨j, hj, he, hjin⟩
            · rw [e1] at hid; exact hid
            · rw [he] at hid; exact List.mem_of_mem_erase hid
        | ok u =>
          intro h
          rcases stepOnce_ok hs with ⟨hqe, _⟩ | ⟨id, rest2, batch, _, hrel0, hrel1, hrelo,
              hinv, hmem, hfuncs, hqueue⟩
          · rw [hqe] at hq; simp at hq
          · have hnotin : id ∉ invocs st.events := fun hmemi =>
              absurd (inv.invRel id hmemi) (by rw [hrel0]; simp)
            have inv1 : LoopInvA st1 := by
              refine ⟨?_, ?_, ?_, ?_⟩
              · rw [hfuncs]; exact inv.funcsNodup.erase id
              · rw [hinv]
                simp [List.nodup_append, inv.invNodup, hnotin]
              · intro j hj
                rw [hinv] at hj
                rcases List.mem_append.mp hj with hj | hj
                · by_cases hij : j = id
                  · subst hij; exact hrel1
                  · rw [hrelo j hij]; exact inv.invRel j hj
                · have : j = id := by simpa using hj
                  subst this; exact hrel1
              · intro j hj
                rw [hfuncs] at hj
                have hji : j ≠ id := by
                  intro he
                  subst he
                  exact (inv.funcsNodup.not_mem_erase hj)
                rw [hrelo j hji]
                exact inv.funcsFresh j (List.mem_of_mem_erase hj)
            obtain ⟨a1, a2, a3, a4, a5⟩ := ih h inv1
            refine ⟨a1, ?_, ?_, ?_, a5⟩
            · obtain ⟨tail, ht⟩ := a2
              exact ⟨id :: tail, by rw [ht, hinv]; simp⟩
            · intro j hj
              by_cases hij : j = id
              · subst hij
                rcases a2 with ⟨tail, ht⟩
                right
                rw [ht, hinv]
                simp
              · have : j ∈ st1.funcs := by
                  rw [hfuncs]; exact (List.mem_erase_of_ne hij).mpr hj
                exact a3 j this
            · intro j hj
              have := a4 j hj
              rw [hfuncs] at this
              exact List.mem_of_mem_erase this

end LoopLemmas

section ErrorKindLemmas

theorem Variable.readLatest_error {v : Variable} {e : Err}
    (h : v.readLatest = .error e) : e = .assertFail := by
  unfold Variable.readLatest at h
  split at h
  · split at h
    · simp at h
    · injection h with h; exact h.symm
  · injection h with h; exact h.symm

theorem Variable.readAll_error {v : Variable} {e : Err}
    (h : v.readAll = .error e) : e = .assertFail := by
  unfold Variable.readAll at h
  split at h
  · simp at h
  · injection h with h; exact h.symm

theorem readArgs_error {vars : String → Variable} {bs : List Binding} {e : Err}
    (h : readArgs vars bs = .error e) : e = .assertFail := by
  induction bs with
  | nil => simp [readArgs] at h
  | cons b rest ih =>
    unfold readArgs at h
    split at h
    next e2 heq =>
      injection h with h
      subst h
      split at heq
      · exact Variable.readLatest_error heq
      · exact Variable.readAll_error heq
    next v heq =>
      split at h
      · injection h with h; subst h; exact ih (by assumption)
      · simp at h

theorem writeSeq_error {l : List (String × Val)} {st st' : RunState} {e : Err}
    (h : writeSeq st l = (st', .error e)) : e = .assertFail := by
  induction l generalizing st with
  | nil => simp [writeSeq] at h
  | cons hd tl ih =>
    obtain ⟨nm, v⟩ := hd
    simp only [writeSeq] at h
    split at h
    next e2 heq =>
      injection h with h1 h2
      injection h2 with h2
      subst h2
      exact (Variable.write_error heq).2
    next var' heq => exact ih h

theorem writeOuts_error {st : RunState} {w : WriteSpec} {v : Val}
    {st' : RunState} {e : Err} (h : writeOuts st w v = (st', .error e)) :
    e = .assertFail ∨ e = .typeErr := by
  cases w with
  | none => simp [writeOuts] at h
  | one n =>
    simp only [writeOuts] at h
    split at h
    next e2 heq =>
      injection h with h1 h2
      injection h2 with h2
      subst h2
      exact Or.inl (Variable.write_error heq).2
    next var' heq => simp at h
  | many ns =>
    simp only [writeOuts] at h
    cases v with
    | nat m =>
      dsimp only at h
      injection h with h1 h2
      injection h2 with h2
      exact Or.inr h2.symm
    | list outs =>
      dsimp only at h
      split at h
      next heq => simp at h
      next st2 e2 heq =>
        injection h with h1 h2
        injection h2 with h2
        subst h2
        exact Or.inl (writeSeq_error heq)

theorem closureCall_not_unsat {st : RunState} {id : Nat} {st' : RunState}
    {e : Err} (h : closureCall st id = (st', .error e)) :
    ∀ l, e ≠ .unsat l := by
  unfold closureCall at h
  dsimp only at h
  split at h
  · injection h with h1 h2
    injection h2 with h2
    subst h2
    simp
  · split at h
    · injection h with h1 h2
      injection h2 with h2
      subst h2
      simp
    · split at h
      next e2 heq =>
        injection h with h1 h2
        injection h2 with h2
        subst h2
        rw [readArgs_error heq]
        simp
      next vals heq =>
        split at h
        next st2 e2 heq2 =>
          rcases writeOuts_error heq2 with he | he <;>
            (intro l hcon; subst he; simp_all)
        next st2 written heq2 => simp_all

theorem notifyFold_error {cls : Nat → Closure} {rs acc : List Nat}
    {p : (Nat → Closure) × List Nat} {e : Err}
    (h : notifyFold cls rs acc = (p, .error e)) :
    e = .attrErr ∨ e = .assertFail := by
  induction rs generalizing cls acc with
  | nil => simp [notifyFold] at h
  | cons hd tl ih =>
    unfold notifyFold at h
    dsimp only at h
    split at h
    · injection h with h1 h2
      injection h2 with h2
      subst h2
      simp
    · split at h
      · injection h with h1 h2
        injection h2 with h2
        subst h2
        simp
      · exact ih h

theorem notifyVars_error {cls : Nat → Closure} {vars : String → Variable}
    {ws : List String} {acc : List Nat} {p : (Nat → Closure) × List Nat}
    {e : Err} (h : notifyVars cls vars ws acc = (p, .error e)) :
    e = .attrErr ∨ e = .assertFail := by
  induction ws generalizing cls acc with
  | nil => simp [notifyVars] at h
  | cons hd tl ih =>
    unfold notifyVars at h
    split at h
    · split at h
      next cls1 acc1 heq => exact ih h
      next p2 e2 heq =>
        injection h with h1 h2
        injection h2 with h2
        subst h2
        obtain ⟨p1, p2p⟩ := p2
        exact notifyFold_error heq
    · exact ih h

theorem notifyReaders_error {st : RunState} {ws : List String}
    {st' : RunState} {e : Err} (h : notifyReaders st ws = (st', .error e)) :
    e = .attrErr ∨ e = .assertFail := by
  unfold notifyReaders at h
  split at h
  next cls1 batch heq => simp at h
  next cls2 _batch2 e2 heq =>
    injection h with h1 h2
    injection h2 with h2
    subst h2
    exact notifyVars_error heq

theorem writeValuesAux_error {kw : List (String × Val)} {acc : List String}
    {st : RunState} {p : RunState × List String} {e : Err}
    (h : writeValuesAux st kw acc = (p, .error e)) : e = .assertFail := by
  induction kw generalizing st acc with
  | nil => simp [writeValuesAux] at h
  | cons hd tl ih =>
    obtain ⟨nm, v⟩ := hd
    simp only [writeValuesAux] at h
    split at h
    next e2 heq =>
      injection h with h1 h2
      injection h2 with h2
      subst h2
      exact (Variable.write_error heq).2
    next var' heq => exact ih h

theorem writeValues_error {kw : List (String × Val)} {st st' : RunState}
    {e : Err} (h : writeValues st kw = (st', .error e)) :
    e = .assertFail ∨ e = .attrErr := by
  unfold writeValues at h
  split at h
  next st1 written heq =>
    rcases notifyReaders_error h with he | he
    · exact Or.inr he
    · exact Or.inl he
  next p e2 heq =>
    injection h with h1 h2
    injection h2 with h2
    subst h2
    exact Or.inl (writeValuesAux_error heq)

theorem stepOnce_not_unsat {st st' : RunState} {e : Err}
    (h : stepOnce st = (st', .error e)) : ∀ l, e ≠ .unsat l := by
  unfold stepOnce at h
  split at h
  next hq => simp at h
  next id rest hq =>
    dsimp only at h
    split at h
    next st1 e1 heq =>
      injection h with h1 h2
      injection h2 with h2
      subst h2
      exact closureCall_not_unsat heq
    next st1 written heq =>
      split at h
      next hmem =>
        split at h
        next heq2 => simp at h
        next st3 e3 heq2 =>
          injection h with h1 h2
          injection h2 with h2
          subst h2
          rcases notifyReaders_error heq2 with he | he <;> (rw [he]; simp)
      next hmem =>
        injection h with h1 h2
        injection h2 with h2
        subst h2
        simp

theorem loop_not_unsat {fuel : Nat} {st st' : RunState} {e : Err}
    (h : loop fuel st = (st', .error e)) : ∀ l, e ≠ .unsat l := by
  induction fuel generalizing st with
  | zero =>
    unfold loop at h
    split at h
    · simp at h
    · injection h with h1 h2
      injection h2 with h2
      subst h2
      simp
  | succ n ih =>
    unfold loop at h
    split at h
    next hq => simp at h
    next id0 rest hq =>
      split at h
      next st2 heq => exact ih h
      next st2 e2 heq =>
        injection h with h1 h2
        injection h2 with h2
        subst h2
        exact stepOnce_not_unsat heq

theorem readOutputs_error {vars : String → Variable} {ns : List String}
    {e : Err} (h : readOutputs vars ns = .error e) : e = .assertFail := by
  induction ns with
  | nil => simp [readOutputs] at h
  | cons n rest ih =>
    unfold readOutputs at h
    split at h
    next e2 heq =>
      injection h with h
      subst h
      exact Variable.readLatest_error heq
    next v heq =>
      split at h
      · injection h with h; subst h; exact ih (by assumption)
      · simp at h

end ErrorKindLemmas

section NotifySpecLemmas

/-- Full characterization of a successful reader-notification pass:
wait counts drop once per occurrence in the reader list, every notified
reader was unreleased, and the satisfied batch collects exactly the
readers whose wait count reached zero, once each. -/
theorem notifyFold_ok_spec {cls : Nat → Closure} {rs acc : List Nat}
    {cls' : Nat → Closure} {acc' : List Nat}
    (h : notifyFold cls rs acc = ((cls', acc'), .ok ())) :
    (∀ id, ∃ w, cls' id = { cls id with numReadReadyWaits := w }) ∧
    (∀ id, (cls' id).numReadReadyWaits + rs.count id
      = (cls id).numReadReadyWaits) ∧
    (∀ id ∈ rs, (cls id).released = false) ∧
    ∃ batch, acc' = acc ++ batch ∧ batch.Nodup ∧
      (∀ id, id ∈ batch ↔
        (0 < rs.count id ∧ (cls' id).numReadReadyWaits = 0)) := by
  induction rs generalizing cls acc with
  | nil =>
    unfold notifyFold at h
    injection h with h1 h2
    injection h1 with h1 h2
    subst h1 h2
    refine ⟨fun id => ⟨(cls id).numReadReadyWaits, rfl⟩, fun id => by simp,
      fun id hid => absurd hid (by simp), [], by simp, List.nodup_nil, ?_⟩
    intro id
    simp
  | cons r rest ih =>
    unfold notifyFold at h
    dsimp only at h
    split at h
    · simp at h
    · split at h
      · simp at h
      · next hrel hw =>
        obtain ⟨ih1, ih2, ih3, b1, hb1, hbnd, hbiff⟩ := ih h
        have hclp : ∀ id, id ≠ r → upd cls r
            { cls r with numReadReadyWaits := (cls r).numReadReadyWaits - 1 } id
            = cls id := fun id hid => upd_other _ _ _ _ hid
        have hwpos : (cls r).numReadReadyWaits ≠ 0 := hw
        refine ⟨?_, ?_, ?_, ?_⟩
        · intro id
          obtain ⟨w, hwid⟩ := ih1 id
          by_cases hir : id = r
          · subst hir
            rw [hwid, upd_same]
            exact ⟨w, rfl⟩
          · rw [hwid, hclp id hir]
            exact ⟨w, rfl⟩
        · intro id
          by_cases hir : id = r
          · subst hir
            have := ih2 id
            rw [upd_same] at this
            dsimp only at this
            rw [List.count_cons_self]
            omega
          · have := ih2 id
            rw [hclp id hir] at this
            rw [List.count_cons_of_ne hir]
            exact this
        · intro id hid
          rcases List.mem_cons.mp hid with hid | hid
          · subst hid
            exact Bool.eq_false_iff.mpr hrel
          · have := ih3 id hid
            by_cases hir : id = r
            · subst hir
              rw [upd_same] at this
              exact this
            · rw [hclp id hir] at this
              exact this
        · by_cases hz : (cls r).numReadReadyWaits - 1 = 0
          · rw [if_pos hz] at hb1
            have hrb1 : r ∉ b1 := by
              intro hrb
              have := (hbiff r).mp hrb
              have h2 := ih2 r
              rw [upd_same] at h2
              dsimp only at h2
              omega
            refine ⟨r :: b1, by rw [hb1]; simp, by simp [hbnd, hrb1], ?_⟩
            intro id
            by_cases hir : id = r
            · subst hir
              simp only [List.mem_cons, true_or, true_iff]
              have h2 := ih2 id
              rw [upd_same] at h2
              dsimp only at h2
              constructor
              · rw [List.count_cons_self]; omega
              · omega
            · simp only [List.mem_cons, hir, false_or]
              rw [hbiff id, List.count_cons_of_ne hir]
          · rw [if_neg hz] at hb1
            refine ⟨b1, hb1, hbnd, ?_⟩
            intro id
            by_cases hir : id = r
            · subst hir
              rw [hbiff id]
              have h2 := ih2 id
              rw [upd_same] at h2
              dsimp only at h2
              constructor
              · rintro ⟨hc, hf⟩
                exact ⟨by rw [List.count_cons_self]; omega, hf⟩
              · rintro ⟨hc, hf⟩
                refine ⟨?_, hf⟩
                omega
            · rw [hbiff id, List.count_cons_of_ne hir]

/-- Full characterization of a successful `_notify_reader_writes` pass
over a list of written variables: each task's wait count drops once per
notification it receives, notified readers are unreleased, and the
collected batch holds exactly the tasks whose wait count reached zero,
once each. -/
theorem notifyVars_ok_spec {cls : Nat → Closure} {vars : String → Variable}
    {ws : List String} {acc : List Nat} {cls' : Nat → Closure}
    {acc' : List Nat}
    (h : notifyVars cls vars ws acc = ((cls', acc'), .ok ())) :
    (∀ id, ∃ w, cls' id = { cls id with numReadReadyWaits := w }) ∧
    (∀ id, (cls' id).numReadReadyWaits + notifCount vars ws id
      = (cls id).numReadReadyWaits) ∧
    (∀ n ∈ ws, (vars n).readable = true →
      ∀ id ∈ (vars n).readers, (cls id).released = false) ∧
    ∃ batch, acc' = acc ++ batch ∧ batch.Nodup ∧
      (∀ id, id ∈ batch ↔
        (0 < notifCount vars ws id ∧ (cls' id).numReadReadyWaits = 0)) := by
  induction ws generalizing cls acc with
  | nil =>
    unfold notifyVars at h
    injection h with h1 h2
    injection h1 with h1 h2
    subst h1 h2
    refine ⟨fun id => ⟨(cls id).numReadReadyWaits, rfl⟩,
      fun id => by simp [notifCount], fun n hn => absurd hn (by simp),
      [], by simp, List.nodup_nil, ?_⟩
    intro id
    simp [notifCount]
  | cons n rest ih =>
    unfold notifyVars at h
    split at h
    next hread =>
      revert h
      cases hnf : notifyFold cls (vars n).readers acc with
      | mk p r1 =>
        obtain ⟨cls1, acc1⟩ := p
        cases r1 with
        | error e => intro h; simp at h
        | ok u =>
          intro h
          obtain ⟨nf1, nf2, nf3, bn, hbn, hbnnd, hbniff⟩ := notifyFold_ok_spec hnf
          obtain ⟨ih1, ih2, ih3, brest, hbrest, hbrnd, hbriff⟩ := ih h
          have hrelp : ∀ id, (cls1 id).released = (cls id).released := by
            intro id
            obtain ⟨w, hwid⟩ := nf1 id
            rw [hwid]
          have hcount : ∀ id, notifCount vars (n :: rest) id
              = (vars n).readers.count id + notifCount vars rest id := by
            intro id
            simp [notifCount, hread]
          refine ⟨?_, ?_, ?_, ?_⟩
          · intro id
            obtain ⟨w1, hw1⟩ := ih1 id
            obtain ⟨w2, hw2⟩ := nf1 id
            rw [hw1, hw2]
            exact ⟨w1, rfl⟩
          · intro id
            have h1 := ih2 id
            have h2 := nf2 id
            rw [hcount id]
            omega
          · intro m hm hmr id hid
            rcases List.mem_cons.mp hm with hm | hm
            · subst hm
              exact nf3 id hid
            · rw [← hrelp id]
              exact ih3 m hm hmr id hid
          · refine ⟨bn ++ brest, by rw [hbrest, hbn]; simp, ?_, ?_⟩
            · have hdisj : ∀ id ∈ bn, id ∉ brest := by
                intro id hidb hidr
                have hb := (hbniff id).mp hidb
                have hr := (hbriff id).mp hidr
                have h1 := ih2 id
                omega
              rw [List.nodup_append]
              exact ⟨hbnnd, hbrnd, fun a ha hb => hdisj a ha hb⟩
            · intro id
              rw [hcount id]
              constructor
              · intro hid
                rcases List.mem_append.mp hid with hid | hid
                · have hb := (hbniff id).mp hid
                  have h1 := ih2 id
                  refine ⟨by omega, by omega⟩
                · have hr := (hbriff id).mp hid
                  exact ⟨by omega, hr.2⟩
              · rintro ⟨hpos, hzero⟩
                by_cases hrc : 0 < notifCount vars rest id
                · exact List.mem_append.mpr (Or.inr ((hbriff id).mpr ⟨hrc, hzero⟩))
                · have h1 := ih2 id
                  have hcls1 : (cls1 id).numReadReadyWaits = 0 := by omega
                  have hrd : 0 < (vars n).readers.count id := by omega
                  exact List.mem_append.mpr (Or.inl ((hbniff id).mpr ⟨hrd, hcls1⟩))
    next hread =>
      obtain ⟨ih1, ih2, ih3, brest, hbrest, hbrnd, hbriff⟩ := ih h
      have hcount : ∀ id, notifCount vars (n :: rest) id
          = notifCount vars rest id := by
        intro id
        simp only [notifCount, List.map_cons, List.sum_cons, if_neg hread]
        omega
      refine ⟨ih1, fun id => by rw [hcount id]; exact ih2 id, ?_, ?_⟩
      · intro m hm hmr id hid
        rcases List.mem_cons.mp hm with hm | hm
        · subst hm
          exact absurd hmr hread
        · exact ih3 m hm hmr id hid
      · refine ⟨brest, hbrest, hbrnd, ?_⟩
        intro id
        rw [hcount id]
        exact hbriff id

/-- Stable insertion is a permutation of consing. -/
theorem insortBy_perm {α : Type} (le : α → α → Bool) (a : α) :
    ∀ l : List α, (insortBy le a l).Perm (a :: l)
  | [] => by simp [insortBy]
  | b :: l => by
    unfold insortBy
    split
    · exact List.Perm.refl _
    · exact ((insortBy_perm le a l).cons b).trans (List.Perm.swap a b l)

/-- Stable sorting permutes the list. -/
theorem sortBy_perm {α : Type} (le : α → α → Bool) :
    ∀ l : List α, (sortBy le l).Perm l
  | [] => by simp [sortBy]
  | a :: l =>
    ((insortBy_perm le a (sortBy le l)).trans ((sortBy_perm le l).cons a))

/-- `Closure.sort` permutes the id list. -/
theorem sortClosures_perm (cls : Nat → Closure) (l : List Nat) :
    (sortClosures cls l).Perm l :=
  sortBy_perm _ l

/-- A successful `_notify_reader_writes` is a successful `notifyVars` pass
whose batch is returned in sorted order (a permutation of the collected
batch); only the closure store changes. -/
theorem notifyReaders_ok_spec {st : RunState} {ws : List String}
    {st' : RunState} {batchS : List Nat}
    (h : notifyReaders st ws = (st', .ok batchS)) :
    ∃ cls' batch, notifyVars st.closures st.vars ws [] = ((cls', batch), .ok ()) ∧
      st' = { st with closures := cls' } ∧
      batchS = sortClosures cls' batch ∧ batchS.Perm batch := by
  revert h
  unfold notifyReaders
  cases hnv : notifyVars st.closures st.vars ws [] with
  | mk p r =>
    obtain ⟨cls', batch⟩ := p
    cases r with
    | error e => intro h; simp at h
    | ok u =>
      intro h
      injection h with h1 h2
      injection h2 with h2
      cases u
      refine ⟨cls', batch, rfl, h1.symm, h2.symm, ?_⟩
      rw [← h2]
      exact sortClosures_perm cls' batch

end NotifySpecLemmas

section CountingLemmas

/-- Splitting a count along a pointwise implication: the elements
satisfying `q` are those satisfying `p` plus those satisfying `q` but not
`p`. -/
theorem countP_split {α : Type} (p q : α → Bool) (l : List α)
    (himp : ∀ x ∈ l, p x = true → q x = true) :
    l.countP q = l.countP p + l.countP (fun x => q x && !p x) := by
  induction l with
  | nil => simp
  | cons a l ih =>
    have ihs := ih (fun x hx => himp x (List.mem_cons_of_mem a hx))
    have ha := himp a (List.mem_cons_self a l)
    by_cases hp : p a = true
    · rw [List.countP_cons_of_pos q _ (ha hp), List.countP_cons_of_pos p _ hp,
        List.countP_cons_of_neg _ _ (by simp [hp]), ihs]
      omega
    · rw [List.countP_cons_of_neg p _ hp]
      by_cases hq : q a = true
      · rw [List.countP_cons_of_pos q _ hq,
          List.countP_cons_of_pos _ _ (by simp [hp, hq]), ihs]
        omega
      · rw [List.countP_cons_of_neg q _ hq,
          List.countP_cons_of_neg _ _ (by simp [hq]), ihs]

/-- A guarded sum over a list is the plain sum over its filtered list. -/
theorem sum_if_filter {α : Type} (P : α → Bool) (g : α → Nat) (l : List α) :
    (l.map (fun x => if P x then g x else 0)).sum
      = ((l.filter P).map g).sum := by
  induction l with
  | nil => simp
  | cons a l ih =>
    by_cases hp : P a = true
    · simp [hp, ih]
    · simp [hp, ih, Bool.eq_false_iff.mpr hp]

/-- Counting keys in a cons-list splits when the head key is fresh. -/
theorem countP_mem_cons {α : Type} (f : α → String) (n : String)
    (rest : List String) (hnr : n ∉ rest) (l : List α) :
    l.countP (fun x => decide (f x ∈ n :: rest))
      = l.countP (fun x => decide (f x = n))
        + l.countP (fun x => decide (f x ∈ rest)) := by
  induction l with
  | nil => simp
  | cons a l ih =>
    by_cases hf : f a = n
    · rw [List.countP_cons_of_pos _ _ (by simp [hf]),
        List.countP_cons_of_pos _ _ (by simp [hf]),
        List.countP_cons_of_neg _ _ (by simp [hf, hnr]), ih]
      omega
    · by_cases hfr : f a ∈ rest
      · rw [List.countP_cons_of_pos _ _ (by simp [hfr]),
          List.countP_cons_of_neg _ _ (by simp [hf]),
          List.countP_cons_of_pos _ _ (by simp [hfr]), ih]
        omega
      · rw [List.countP_cons_of_neg _ _ (by simp [hf, hfr]),
          List.countP_cons_of_neg _ _ (by simp [hf]),
          List.countP_cons_of_neg _ _ (by simp [hfr]), ih]

/-- Summing per-key counts over a duplicate-free key list counts the
elements whose key lies in the list. -/
theorem sum_countP_eq {α : Type} (f : α → String) (ns : List String)
    (hnd : ns.Nodup) (l : List α) :
    (ns.map (fun n => l.countP (fun x => f x = n))).sum
      = l.countP (fun x => decide (f x ∈ ns)) := by
  induction ns with
  | nil => simp
  | cons n rest ih =>
    have hnr : n ∉ rest := (List.nodup_cons.mp hnd).1
    have ihr := ih (List.nodup_cons.mp hnd).2
    rw [List.map_cons, List.sum_cons, ihr, countP_mem_cons f n rest hnr l]

/-- A positive guarded sum exhibits a member with a positive summand. -/
theorem sum_map_pos {α : Type} {f : α → Nat} {l : List α}
    (h : 0 < (l.map f).sum) : ∃ x ∈ l, 0 < f x := by
  induction l with
  | nil => simp at h
  | cons a l ih =>
    rw [List.map_cons, List.sum_cons] at h
    by_cases ha : 0 < f a
    · exact ⟨a, List.mem_cons_self a l, ha⟩
    · obtain ⟨x, hx, hfx⟩ := ih (by omega)
      exact ⟨x, List.mem_cons_of_mem a hx, hfx⟩

/-- Changing a single summand of a map-sum over a duplicate-free list. -/
theorem map_sum_update {R : List Nat} (f g : Nat → Nat) {id : Nat}
    (hnd : R.Nodup) (hid : id ∈ R) (hg : g id = 0)
    (hfg : ∀ j ∈ R, j ≠ id → f j = g j) :
    (R.map f).sum = (R.map g).sum + f id := by
  induction R with
  | nil => simp at hid
  | cons a R ih =>
    have hand := List.nodup_cons.mp hnd
    rw [List.map_cons, List.sum_cons, List.map_cons, List.sum_cons]
    rcases List.mem_cons.mp hid with hia | hia
    · subst hia
      have hrest : R.map f = R.map g :=
        List.map_congr_left (fun j hj => hfg j (List.mem_cons_of_mem _ hj)
          (fun he => hand.1 (he ▸ hj)))
      rw [hrest, hg]
      omega
    · have hai : a ≠ id := fun he => hand.1 (he ▸ hia)
      rw [ih hand.2 hia (fun j hj hji => hfg j (List.mem_cons_of_mem _ hj) hji),
        hfg a (List.mem_cons_self a R) hai]
      omega

/-- The writes extracted from a pure write-event list. -/
theorem writesTo_wr_map (n : String) (wl : List (String × Val)) :
    writesTo n (wl.map (fun p => Event.wr p.1 p.2))
      = (wl.filter (fun p => p.1 = n)).map Prod.snd := by
  induction wl with
  | nil => simp [writesTo]
  | cons p wl ih =>
    by_cases hp : p.1 = n
    · simp [writesTo, hp, List.filter_cons] at ih ⊢
      exact ih
    · simp [writesTo, hp, List.filter_cons] at ih ⊢
      exact ih

/-- Counting a key among the first components is counting the pairs
holding that key. -/
theorem count_map_fst (wl : List (String × Val)) (n : String) :
    (wl.map Prod.fst).count n = wl.countP (fun p => p.1 = n) := by
  induction wl with
  | nil => simp
  | cons p wl ih =>
    by_cases hp : p.1 = n
    · rw [List.map_cons, hp, List.count_cons_self,
        List.countP_cons_of_pos _ _ (by simp [hp]), ih]
    · rw [List.map_cons, List.count_cons_of_ne (fun he => hp he.symm),
        List.countP_cons_of_neg _ _ (by simp [hp]), ih]

/-- Membership in `eraseDups` (inner loop form). -/
theorem eraseDups_loop_mem {α : Type} [BEq α] [LawfulBEq α]
    (x : α) : ∀ (as bs : List α),
    (x ∈ List.eraseDups.loop as bs ↔ x ∈ as ∨ x ∈ bs)
  | [], bs => by simp [List.eraseDups.loop]
  | a :: as, bs => by
    unfold List.eraseDups.loop
    cases helem : bs.elem a with
    | true =>
      have ha : a ∈ bs := List.elem_iff.mp helem
      rw [eraseDups_loop_mem x as bs]
      simp only [List.mem_cons]
      constructor
      · rintro (h | h)
        · exact Or.inl (Or.inr h)
        · exact Or.inr h
      · rintro ((h | h) | h)
        · exact Or.inr (h ▸ ha)
        · exact Or.inl h
        · exact Or.inr h
    | false =>
      rw [eraseDups_loop_mem x as (a :: bs)]
      simp only [List.mem_cons]
      tauto

/-- The inner loop of `eraseDups` keeps its accumulator duplicate-free. -/
theorem eraseDups_loop_nodup {α : Type} [BEq α] [LawfulBEq α] :
    ∀ (as bs : List α), bs.Nodup → (List.eraseDups.loop as bs).Nodup
  | [], bs => by
    intro h
    simpa [List.eraseDups.loop] using h
  | a :: as, bs => by
    intro h
    unfold List.eraseDups.loop
    cases helem : bs.elem a with
    | true => exact eraseDups_loop_nodup as bs h
    | false =>
      refine eraseDups_loop_nodup as (a :: bs) (List.nodup_cons.mpr ⟨?_, h⟩)
      intro hab
      rw [← List.elem_iff (α := α)] at hab
      rw [hab] at helem
      cases helem

/-- `eraseDups` keeps exactly the members of the list. -/
theorem mem_eraseDups {α : Type} [BEq α] [LawfulBEq α] (x : α) (l : List α) :
    x ∈ l.eraseDups ↔ x ∈ l := by
  unfold List.eraseDups
  rw [eraseDups_loop_mem x l []]
  simp

/-- `eraseDups` produces a duplicate-free list. -/
theorem nodup_eraseDups {α : Type} [BEq α] [LawfulBEq α] (l : List α) :
    l.eraseDups.Nodup := by
  unfold List.eraseDups
  exact eraseDups_loop_nodup l [] List.nodup_nil

end CountingLemmas

section SortLemmas

theorem keyLe_total (a b : String × String) :
    keyLe a b = true ∨ keyLe b a = true := by
  unfold keyLe
  by_cases h : a.1 = b.1
  · rw [if_pos h, if_pos h.symm]
    rcases le_total a.2 b.2 with hle | hle
    · left; exact decide_eq_true hle
    · right; exact decide_eq_true hle
  · rw [if_neg h, if_neg (fun hc => h hc.symm)]
    rcases lt_or_gt_of_ne h with hlt | hlt
    · left; exact decide_eq_true hlt
    · right; exact decide_eq_true hlt

theorem keyLe_trans {a b c : String × String}
    (h1 : keyLe a b = true) (h2 : keyLe b c = true) : keyLe a c = true := by
  unfold keyLe at h1 h2 ⊢
  by_cases hab : a.1 = b.1
  · rw [if_pos hab] at h1
    by_cases hbc : b.1 = c.1
    · rw [if_pos hbc] at h2
      rw [if_pos (hab.trans hbc)]
      exact decide_eq_true (le_trans (of_decide_eq_true h1) (of_decide_eq_true h2))
    · rw [if_neg hbc] at h2
      have hlt : b.1 < c.1 := of_decide_eq_true h2
      rw [if_neg (by rw [hab]; exact ne_of_lt hlt)]
      exact decide_eq_true (hab ▸ hlt)
  · rw [if_neg hab] at h1
    have hlt : a.1 < b.1 := of_decide_eq_true h1
    by_cases hbc : b.1 = c.1
    · rw [if_neg (by rw [← hbc]; exact ne_of_lt hlt)]
      exact decide_eq_true (hbc ▸ hlt)
    · rw [if_neg hbc] at h2
      have hlt2 : b.1 < c.1 := of_decide_eq_true h2
      rw [if_neg (ne_of_lt (lt_trans hlt hlt2))]
      exact decide_eq_true (lt_trans hlt hlt2)

theorem keyLe_antisymm {a b : String × String}
    (h1 : keyLe a b = true) (h2 : keyLe b a = true) : a = b := by
  unfold keyLe at h1 h2
  by_cases hab : a.1 = b.1
  · rw [if_pos hab] at h1
    rw [if_pos hab.symm] at h2
    have : a.2 = b.2 := le_antisymm (of_decide_eq_true h1) (of_decide_eq_true h2)
    exact Prod.ext hab this
  · rw [if_neg hab] at h1
    rw [if_neg (fun hc => hab hc.symm)] at h2
    exact absurd (lt_trans (of_decide_eq_true h1) (of_decide_eq_true h2))
      (lt_irrefl a.1)

/-- Stable insertion preserves sortedness for a total transitive
comparison. -/
theorem insortBy_pairwise {α : Type} (le : α → α → Bool)
    (htot : ∀ a b, le a b = true ∨ le b a = true)
    (htrans : ∀ a b c, le a b = true → le b c = true → le a c = true)
    (a : α) : ∀ {l : List α},
    l.Pairwise (fun x y => le x y = true) →
    (insortBy le a l).Pairwise (fun x y => le x y = true)
  | [], _ => List.pairwise_singleton _ a
  | b :: l, h => by
    obtain ⟨hb, hl⟩ := List.pairwise_cons.mp h
    unfold insortBy
    split
    · next hab =>
      refine List.pairwise_cons.mpr ⟨?_, h⟩
      intro x hx
      rcases List.mem_cons.mp hx with he | hm
      · subst he; exact hab
      · exact htrans a b x hab (hb x hm)
    · next hab =>
      refine List.pairwise_cons.mpr ⟨?_, insortBy_pairwise le htot htrans a hl⟩
      intro x hx
      have hx2 := (insortBy_perm le a l).mem_iff.mp hx
      rcases List.mem_cons.mp hx2 with he | hm
      · rw [he]
        rcases htot a b with hax | hxa
        · exact absurd hax hab
        · exact hxa
      · exact hb x hm

/-- Stable sorting produces a sorted list. -/
theorem sortBy_pairwise {α : Type} (le : α → α → Bool)
    (htot : ∀ a b, le a b = true ∨ le b a = true)
    (htrans : ∀ a b c, le a b = true → le b c = true → le a c = true) :
    ∀ (l : List α),
    (sortBy le l).Pairwise (fun x y => le x y = true)
  | [] => List.Pairwise.nil
  | a :: l => by
    unfold sortBy
    exact insortBy_pairwise le htot htrans a (sortBy_pairwise le htot htrans l)

/-- Two sorted permutations of each other are equal when the comparison
is antisymmetric on their members. -/
theorem sorted_perm_eq {α : Type} (le : α → α → Bool) :
    ∀ {l1 l2 : List α}, l1.Perm l2 →
    l1.Pairwise (fun x y => le x y = true) →
    l2.Pairwise (fun x y => le x y = true) →
    (∀ a ∈ l1, ∀ b ∈ l1, le a b = true → le b a = true → a = b) →
    l1 = l2
  | [], l2 => by
    intro hp _ _ _
    rw [hp.nil_eq]
  | a :: t1, l2 => by
    intro hp h1 h2 anti
    cases l2 with
    | nil => exact absurd hp.symm.nil_eq (by simp)
    | cons b t2 =>
      obtain ⟨ha1, ht1⟩ := List.pairwise_cons.mp h1
      obtain ⟨hb2, ht2⟩ := List.pairwise_cons.mp h2
      have hab : a = b := by
        have hma : a ∈ b :: t2 := hp.mem_iff.mp (List.mem_cons_self a t1)
        have hmb : b ∈ a :: t1 := hp.symm.mem_iff.mp (List.mem_cons_self b t2)
        rcases List.mem_cons.mp hma with he | hma2
        · exact he
        · rcases List.mem_cons.mp hmb with he | hmb2
          · exact he.symm
          · exact anti a (List.mem_cons_self a t1) b
              (List.mem_cons_of_mem a hmb2) (ha1 b hmb2) (hb2 a hma2)
      subst hab
      have hpt : t1.Perm t2 := hp.cons_inv
      rw [sorted_perm_eq le hpt ht1 ht2
        (fun x hx y hy => anti x (List.mem_cons_of_mem a hx)
          y (List.mem_cons_of_mem a hy))]

/-- Stable sorts of permuted lists agree when the comparison is total,
transitive, and antisymmetric on the members. -/
theorem sortBy_eq_of_perm {α : Type} (le : α → α → Bool)
    (htot : ∀ a b, le a b = true ∨ le b a = true)
    (htrans : ∀ a b c, le a b = true → le b c = true → le a c = true)
    {l1 l2 : List α} (hp : l1.Perm l2)
    (anti : ∀ a ∈ l1, ∀ b ∈ l1, le a b = true → le b a = true → a = b) :
    sortBy le l1 = sortBy le l2 := by
  apply sorted_perm_eq le
    (((sortBy_perm le l1).trans hp).trans (sortBy_perm le l2).symm)
    (sortBy_pairwise le htot htrans l1)
    (sortBy_pairwise le htot htrans l2)
  intro x hx y hy
  exact anti x ((sortBy_perm le l1).mem_iff.mp hx)
    y ((sortBy_perm le l1).mem_iff.mp hy)

/-- `Closure.sort` on permuted id lists agrees when the closures' keys
are injective over the members. -/
theorem sortClosures_eq_of_perm {cls : Nat → Closure} {l1 l2 : List Nat}
    (hp : l1.Perm l2)
    (hinj : ∀ a ∈ l1, ∀ b ∈ l1, (cls a).key = (cls b).key → a = b) :
    sortClosures cls l1 = sortClosures cls l2 := by
  apply sortBy_eq_of_perm _ (fun a b => keyLe_total (cls a).key (cls b).key)
    (fun a b c h1 h2 => keyLe_trans h1 h2) hp
  intro a ha b hb h1 h2
  exact hinj a ha b hb (keyLe_antisymm h1 h2)

end SortLemmas

section CallSpecLemmas

/-- A successful argument-reading pass of `Closure.call`: one value per
binding; each variable read is readable, a collection-mode binding
receives the whole value history and a latest-mode binding the final
value. -/
theorem readArgs_ok_spec {vars : String → Variable} :
    ∀ {args : List Binding} {vals : List Val},
    readArgs vars args = .ok vals →
    vals.length = args.length ∧
    ∀ i b, args.get? i = some b →
      (vars b.var).readable = true ∧
      (b.mode = .all → vals.get? i = some (.list (vars b.var).values)) ∧
      (b.mode = .latest → vals.get? i = (vars b.var).values.getLast?)
  | [], vals => by
    intro h
    unfold readArgs at h
    injection h with h
    subst h
    exact ⟨rfl, fun i b hb => absurd hb (by simp)⟩
  | b :: bs, vals => by
    intro h
    unfold readArgs at h
    revert h
    cases hm : b.mode with
    | latest =>
      dsimp only
      cases hrl : (vars b.var).readLatest with
      | error e => intro h; exact absurd h (by simp)
      | ok v =>
        cases hr : readArgs vars bs with
        | error e => intro h; exact absurd h (by simp)
        | ok rest =>
          intro h
          injection h with h
          subst h
          obtain ⟨hlen, hrest⟩ := readArgs_ok_spec hr
          obtain ⟨hread, hlast⟩ := Variable.readLatest_ok hrl
          refine ⟨by simp [hlen], ?_⟩
          intro i b' hb'
          match i with
          | 0 =>
            injection hb' with hb'
            subst hb'
            refine ⟨hread, ?_, ?_⟩
            · intro hmode; rw [hm] at hmode; cases hmode
            · intro _; simp [hlast]
          | Nat.succ j => exact hrest j b' hb'
    | all =>
      dsimp only
      cases hrl : (vars b.var).readAll with
      | error e => intro h; exact absurd h (by simp)
      | ok v =>
        cases hr : readArgs vars bs with
        | error e => intro h; exact absurd h (by simp)
        | ok rest =>
          intro h
          injection h with h
          subst h
          obtain ⟨hlen, hrest⟩ := readArgs_ok_spec hr
          have hra : (vars b.var).readable = true ∧ v = .list (vars b.var).values := by
            unfold Variable.readAll at hrl
            split at hrl
            · exact ⟨by assumption, by injection hrl with hrl; exact hrl.symm⟩
            · exact absurd hrl (by simp)
          refine ⟨by simp [hlen], ?_⟩
          intro i b' hb'
          match i with
          | 0 =>
            injection hb' with hb'
            subst hb'
            refine ⟨hra.1, ?_, ?_⟩
            · intro _; simp [hra.2]
            · intro hmode; rw [hm] at hmode; cases hmode
          | Nat.succ j => exact hrest j b' hb'

/-- Readability unfolded to a proposition. -/
theorem Variable.readable_iff {v : Variable} :
    v.readable = true ↔ (v.numWriteWaits = 0 ∧ v.values ≠ []) := by
  unfold Variable.readable
  rw [Bool.and_eq_true, beq_iff_eq, Bool.not_eq_true', List.isEmpty_eq_false]

/-- The first components of a zip form a sublist of the left list. -/
theorem zip_map_fst_sublist {α β : Type} :
    ∀ (l1 : List α) (l2 : List β), ((l1.zip l2).map Prod.fst).Sublist l1
  | [], _ => by simp
  | _ :: _, [] => by simp
  | a :: l1, b :: l2 => by
    rw [List.zip_cons_cons, List.map_cons]
    exact (zip_map_fst_sublist l1 l2).cons₂ a

/-- Complete accounting of a successful `Closure.call` of task `id`: the
task was unreleased and satisfied, its arguments were read successfully,
the event log grows by the invocation followed by the performed writes
`wl`, each variable's history receives the values written to it in order,
wait counts drop once per performed write and never by more than the
declared occurrences, reader lists are untouched, the returned "written"
set holds exactly the declared output names without duplicates, and the
closure is released. -/
theorem closureCall_ok_full {st st' : RunState} {id : Nat}
    {written : List String} (h : closureCall st id = (st', .ok written)) :
    (st.closures id).released = false ∧
    (st.closures id).numReadReadyWaits = 0 ∧
    ∃ (vals : List Val) (wl : List (String × Val)),
      readArgs st.vars (st.closures id).args = .ok vals ∧
      st'.events = st.events ++ Event.inv id vals ::
        wl.map (fun p => Event.wr p.1 p.2) ∧
      (∀ n, (st'.vars n).readers = (st.vars n).readers) ∧
      (∀ n, (st'.vars n).values
        = (st.vars n).values ++ (wl.filter (fun p => p.1 = n)).map Prod.snd) ∧
      (∀ n, (st'.vars n).numWriteWaits + (wl.map Prod.fst).count n
        = (st.vars n).numWriteWaits) ∧
      (∀ n, (wl.map Prod.fst).count n ≤ occOut (st.closures id).writeto n) ∧
      (∀ n, n ∈ written ↔ n ∈ (st.closures id).writeto.names) ∧
      written.Nodup ∧
      st'.funcs = st.funcs ∧ st'.names = st.names ∧ st'.queue = st.queue ∧
      st'.closures = upd st.closures id { st.closures id with released := true } := by
  unfold closureCall at h
  dsimp only at h
  split at h
  · simp at h
  · split at h
    · simp at h
    · next hrel hwait =>
      split at h
      next e heq => simp at h
      next vals heq =>
        revert h
        cases hwo : writeOuts { st with events := st.events ++ [Event.inv id vals] }
            (st.closures id).writeto ((st.closures id).body vals) with
        | mk st2 r2 =>
          intro h
          cases r2 with
          | error e => simp at h
          | ok w =>
            injection h with h1 h2
            injection h2 with h2
            subst h1 h2
            refine ⟨Bool.eq_false_iff.mpr hrel, by omega, vals, ?_⟩
            have hwol : ∃ wl : List (String × Val),
                st2.events = (st.events ++ [Event.inv id vals])
                  ++ wl.map (fun p => Event.wr p.1 p.2) ∧
                (∀ n, (st2.vars n).readers = (st.vars n).readers) ∧
                (∀ n, (st2.vars n).values
                  = (st.vars n).values ++ (wl.filter (fun p => p.1 = n)).map Prod.snd) ∧
                (∀ n, (st2.vars n).numWriteWaits + (wl.map Prod.fst).count n
                  = (st.vars n).numWriteWaits) ∧
                (∀ n, (wl.map Prod.fst).count n ≤ occOut (st.closures id).writeto n) ∧
                (∀ n, n ∈ w ↔ n ∈ (st.closures id).writeto.names) ∧ w.Nodup ∧
                st2.funcs = st.funcs ∧ st2.names = st.names ∧ st2.queue = st.queue ∧
                st2.closures = st.closures := by
              revert hwo
              unfold writeOuts
              cases hwt : (st.closures id).writeto with
              | none =>
                intro hwo
                injection hwo with g1 g2
                injection g2 with g2
                subst g1 g2
                exact ⟨[], by simp, fun n => rfl, fun n => by simp,
                  fun n => by simp, fun n => by simp [occOut],
                  fun n => by simp [WriteSpec.names], List.nodup_nil,
                  rfl, rfl, rfl, rfl⟩
              | one n0 =>
                intro hwo
                dsimp only at hwo
                cases hw : (st.vars n0).write ((st.closures id).body vals) with
                | error e => rw [hw] at hwo; simp at hwo
                | ok var2 =>
                  rw [hw] at hwo
                  injection hwo with g1 g2
                  injection g2 with g2
                  subst g1 g2
                  obtain ⟨hne, hv⟩ := Variable.write_ok hw
                  refine ⟨[(n0, (st.closures id).body vals)], by simp, ?_, ?_, ?_,
                    ?_, fun n => by simp [WriteSpec.names],
                    List.nodup_cons.mpr ⟨by simp, List.nodup_nil⟩,
                    rfl, rfl, rfl, rfl⟩
                  · intro n
                    dsimp only
                    by_cases hn : n = n0
                    · subst hn; rw [upd_same, hv]
                    · rw [upd_other _ _ _ _ hn]
                  · intro n
                    dsimp only
                    by_cases hn : n = n0
                    · subst hn
                      rw [upd_same, hv]
                      simp [List.filter_cons]
                    · rw [upd_other _ _ _ _ hn]
                      have hn2 : ¬ n0 = n := fun hh => hn hh.symm
                      simp [List.filter_cons, hn2]
                  · intro n
                    dsimp only
                    by_cases hn : n = n0
                    · subst hn
                      rw [upd_same, hv]
                      simp [List.count_cons]
                      omega
                    · rw [upd_other _ _ _ _ hn]
                      have hn2 : ¬ n0 = n := fun hh => hn hh.symm
                      simp [List.count_cons, hn2]
                  · intro n
                    simp only [occOut, WriteSpec.names, List.map_cons, List.map_nil]
                    by_cases hn : n = n0
                    · subst hn; simp
                    · have hn2 : ¬ n0 = n := fun hh => hn hh.symm
                      simp [List.count_cons, hn2]
              | many ns =>
                intro hwo
                revert hwo
                cases hb : (st.closures id).body vals with
                | nat m => intro hwo; simp at hwo
                | list outs =>
                  intro hwo
                  dsimp only at hwo
                  cases hws : writeSeq { st with events := st.events ++ [Event.inv id vals] }
                      (ns.zip outs) with
                  | mk st3 r3 =>
                    rw [hws] at hwo
                    cases r3 with
                    | error e => simp at hwo
                    | ok u =>
                      injection hwo with g1 g2
                      injection g2 with g2
                      subst g1 g2
                      obtain ⟨w1, w2, w3, w4, w5, w6⟩ := writeSeq_ok hws
                      refine ⟨ns.zip outs, by rw [w5],
                        fun n => (w6 n).1, fun n => (w6 n).2.1,
                        fun n => (w6 n).2.2, ?_,
                        fun n => by simp [WriteSpec.names, mem_eraseDups],
                        nodup_eraseDups ns, w1, w3, w4, w2⟩
                      intro n
                      simp only [occOut, WriteSpec.names]
                      exact (zip_map_fst_sublist ns outs).count_le n
            obtain ⟨wl, e1, e2, e3, e4, e5, e6, e7, e8, e9, e10, e11⟩ := hwol
            refine ⟨wl, heq, ?_, e2, e3, e4, e5, e6, e7, e8, e9, e10, ?_⟩
            · dsimp only
              rw [e1]
              simp
            · dsimp only
              rw [e11]

end CallSpecLemmas

section InvariantLemmas

/-- The master invariant is preserved by one successful iteration of the
scheduling loop. -/
theorem stepOnce_InvB {R : List Nat} {D : String → Nat} {st st' : RunState}
    (hR : R.Nodup) (h : stepOnce st = (st', .ok ())) (inv : InvB R D st) :
    InvB R D st' := by
  unfold stepOnce at h
  revert h
  cases hq : st.queue with
  | nil =>
    intro h
    injection h with h1 h2
    subst h1
    exact inv
  | cons id rest =>
    dsimp only
    cases hcc : closureCall { st with queue := rest } id with
    | mk st1 r1 =>
      intro h
      cases r1 with
      | error e => simp at h
      | ok written =>
        dsimp only at h
        split at h
        · next hmem =>
          revert h
          cases hnr : notifyReaders { st1 with funcs := st1.funcs.erase id } written with
          | mk st3 r3 =>
            intro h
            cases r3 with
            | error e => simp at h
            | ok batch =>
              injection h with h1 h2
              subst h1
              obtain ⟨c1, c2, vals, wl, hread, hev, hreaders, hvalues, hwaits,
                hbound, hwmem, hwnd, hfuncs1, hnames1, hqueue1, hcls1⟩ :=
                closureCall_ok_full hcc
              dsimp only at c1 c2 hread hev hreaders hvalues hwaits hbound
              dsimp only at hwmem hfuncs1 hnames1 hqueue1 hcls1
              obtain ⟨cls2, batch0, hnv, hst3, hbs, hperm⟩ :=
                notifyReaders_ok_spec hnr
              dsimp only at hnv hst3
              obtain ⟨nv1, nv2, nv3, batch1, hb1, hb1nd, hb1iff⟩ :=
                notifyVars_ok_spec hnv
              simp only [List.nil_append] at hb1
              subst hb1
              subst hst3
              -- basic membership facts
              have hidf : id ∈ st.funcs :=
                inv.queueSub id (by rw [hq]; exact List.mem_cons_self id rest)
              have hidR : id ∈ R := inv.funcsSub id hidf
              have hqnd := inv.queueNodup
              rw [hq] at hqnd
              have hirest : id ∉ rest := (List.nodup_cons.mp hqnd).1
              have hrestnd : rest.Nodup := (List.nodup_cons.mp hqnd).2
              have hninv : id ∉ invocs st.events := by
                intro hc
                have := (inv.relInv id hidR).mpr hc
                rw [this] at c1
                cases c1
              -- closure-store facts
              have hcls1id : st1.closures id
                  = { st.closures id with released := true } := by
                rw [hcls1]; exact upd_same _ _ _
              have hcls1j : ∀ j, j ≠ id → st1.closures j = st.closures j := by
                intro j hj
                rw [hcls1]; exact upd_other _ _ _ _ hj
              have hcls2rel : ∀ j, (cls2 j).released = (st1.closures j).released := by
                intro j
                obtain ⟨w, hw⟩ := nv1 j
                rw [hw]
              have hcls2args : ∀ j, (cls2 j).args = (st1.closures j).args := by
                intro j
                obtain ⟨w, hw⟩ := nv1 j
                rw [hw]
              have hcls2wr : ∀ j, (cls2 j).writeto = (st1.closures j).writeto := by
                intro j
                obtain ⟨w, hw⟩ := nv1 j
                rw [hw]
              have hargs : ∀ j, (st1.closures j).args = (st.closures j).args := by
                intro j
                by_cases hj : j = id
                · subst hj; rw [hcls1id]
                · rw [hcls1j j hj]
              have hwrto : ∀ j, (st1.closures j).writeto = (st.closures j).writeto := by
                intro j
                by_cases hj : j = id
                · subst hj; rw [hcls1id]
                · rw [hcls1j j hj]
              -- event-log facts
              have hinvhd : invocs (Event.inv id vals ::
                  wl.map (fun p => Event.wr p.1 p.2)) = [id] := by
                have hwr := invocs_wr_map wl
                simp only [invocs, List.filterMap_cons] at hwr ⊢
                rw [hwr]
              have hinv1 : invocs st1.events = invocs st.events ++ [id] := by
                rw [hev, invocs_append, hinvhd]
              -- written variables have pending declared writes at st
              have hwrWaits : ∀ n ∈ written, (st.vars n).numWriteWaits ≠ 0 := by
                intro n hn
                have hocc : 0 < occOut (st.closures id).writeto n := by
                  have := (hwmem n).mp hn
                  simp only [occOut]
                  exact List.count_pos_iff.mpr this
                have hterm : (fun j => if (st.closures j).released then 0
                    else occOut (st.closures j).writeto n) id
                    ≤ unreleasedDecl st.closures R n := by
                  apply List.single_le_sum (fun x hx => Nat.zero_le x)
                  exact List.mem_map_of_mem _ hidR
                dsimp only at hterm
                rw [c1] at hterm
                simp only [Bool.false_eq_true, if_false] at hterm
                have := inv.waitsWriters n
                simp only [unreleasedDecl] at hterm this
                omega
              have hwrNR : ∀ n ∈ written, (st.vars n).readable = false := by
                intro n hn
                rw [Bool.eq_false_iff]
                intro hr
                exact hwrWaits n hn (Variable.readable_iff.mp hr).1
              -- readability is monotone across the call
              have hreadmono : ∀ n, (st.vars n).readable = true →
                  (st1.vars n).readable = true := by
                intro n hr
                obtain ⟨hw0, hvne⟩ := Variable.readable_iff.mp hr
                have hwn := hwaits n
                rw [hw0] at hwn
                refine Variable.readable_iff.mpr ⟨by omega, ?_⟩
                rw [hvalues n]
                intro hcontra
                exact hvne (List.append_eq_nil.mp hcontra).1
              -- unwritten variables are untouched
              have huntouched : ∀ n, n ∉ written →
                  (st1.vars n).numWriteWaits = (st.vars n).numWriteWaits ∧
                  (st1.vars n).values = (st.vars n).values := by
                intro n hn
                have hocc : occOut (st.closures id).writeto n = 0 := by
                  by_contra hc
                  exact hn ((hwmem n).mpr (List.count_pos_iff.mp
                    (by simp only [occOut] at hc ⊢; omega)))
                have hb := hbound n
                rw [hocc] at hb
                have hcnt : (wl.map Prod.fst).count n = 0 := by omega
                have hfilt : wl.filter (fun p => p.1 = n) = [] := by
                  rw [← List.length_eq_zero, ← List.countP_eq_length_filter]
                  rw [count_map_fst] at hcnt
                  exact hcnt
                refine ⟨by have := hwaits n; omega, ?_⟩
                rw [hvalues n, hfilt]
                simp
              -- newly readable variables are written
              have hnewwr : ∀ n, (st1.vars n).readable = true →
                  (st.vars n).readable = false → n ∈ written := by
                intro n h1 h0
                by_contra hn
                obtain ⟨hwn, hvn⟩ := huntouched n hn
                rw [Bool.eq_false_iff] at h0
                apply h0
                obtain ⟨a1, a2⟩ := Variable.readable_iff.mp h1
                exact Variable.readable_iff.mpr ⟨by omega, by rw [← hvn]; exact a2⟩
              -- the newly-readable set
              have hmemN : ∀ n, n ∈ written.filter (fun m => (st1.vars m).readable)
                  ↔ ((st1.vars n).readable = true ∧ (st.vars n).readable = false) := by
                intro n
                rw [List.mem_filter]
                constructor
                · rintro ⟨hn, hr⟩
                  exact ⟨hr, hwrNR n hn⟩
                · rintro ⟨h1, h0⟩
                  exact ⟨hnewwr n h1 h0, h1⟩
              have hNnd : (written.filter (fun m => (st1.vars m).readable)).Nodup :=
                hwnd.filter _
              -- notification counts measured against bindings
              have hnotif : ∀ j ∈ R, notifCount st1.vars written j
                  = (st.closures j).args.countP
                    (fun b => decide (b.var ∈ written.filter
                      (fun m => (st1.vars m).readable))) := by
                intro j hjR
                unfold notifCount
                rw [sum_if_filter]
                have hcong : (written.filter (fun m => (st1.vars m).readable)).map
                    (fun n => (st1.vars n).readers.count j)
                    = (written.filter (fun m => (st1.vars m).readable)).map
                      (fun n => (st.closures j).args.countP (fun b => b.var = n)) := by
                  apply List.map_congr_left
                  intro n hn
                  rw [hreaders n]
                  exact inv.readersCnt n j hjR
                rw [hcong, sum_countP_eq Binding.var _ hNnd]
              -- wait counts of other closures through the notification pass
              have hwrel : ∀ j, j ≠ id →
                  (cls2 j).numReadReadyWaits + notifCount st1.vars written j
                    = (st.closures j).numReadReadyWaits := by
                intro j hj
                have := nv2 j
                rw [hcls1j j hj] at this
                exact this
              -- membership route for batch members
              have hbatchR : ∀ j ∈ batch, ((st1.closures j).released = false ∧
                  j ∈ R ∧ j ∈ st.funcs ∧ j ≠ id) := by
                intro j hj
                have hj0 := hperm.mem_iff.mp hj
                obtain ⟨hc, hz⟩ := (hb1iff j).mp hj0
                unfold notifCount at hc
                obtain ⟨n, hn, hpos⟩ := sum_map_pos hc
                by_cases hr : (st1.vars n).readable
                · rw [if_pos hr] at hpos
                  have hjrd : j ∈ (st1.vars n).readers := List.count_pos_iff.mp hpos
                  have hrel := nv3 n hn hr j hjrd
                  have hjR : j ∈ R := by
                    rw [hreaders n] at hjrd
                    exact inv.readersSub n j hjrd
                  have hji : j ≠ id := by
                    intro he
                    rw [he, hcls1id] at hrel
                    cases hrel
                  refine ⟨hrel, hjR, ?_, hji⟩
                  rw [hcls1j j hji] at hrel
                  exact (inv.relNR j hjR).mpr hrel
                · rw [if_neg hr] at hpos
                  omega
              constructor
              case funcsNodup =>
                dsimp only
                rw [hfuncs1]
                exact inv.funcsNodup.erase id
              case funcsSub =>
                dsimp only
                intro j hj
                rw [hfuncs1] at hj
                exact inv.funcsSub j (List.mem_of_mem_erase hj)
              case queueNodup =>
                dsimp only
                rw [hqueue1]
                refine List.nodup_append.mpr ⟨hrestnd, hperm.nodup_iff.mpr hb1nd, ?_⟩
                intro j hjr hjb
                have hji : j ≠ id := fun he => hirest (he ▸ hjr)
                have hjq : j ∈ st.queue := by rw [hq]; exact List.mem_cons_of_mem id hjr
                have hw0 := inv.queueSat j hjq
                have he2 := hwrel j hji
                obtain ⟨hc, hz⟩ := (hb1iff j).mp (hperm.mem_iff.mp hjb)
                omega
              case queueSub =>
                dsimp only
                intro j hj
                rw [hqueue1] at hj
                rw [hfuncs1]
                rcases List.mem_append.mp hj with hjr | hjb
                · have hji : j ≠ id := fun he => hirest (he ▸ hjr)
                  have hjq : j ∈ st.queue := by rw [hq]; exact List.mem_cons_of_mem id hjr
                  exact (List.mem_erase_of_ne hji).mpr (inv.queueSub j hjq)
                · obtain ⟨hrel, hjR, hjf, hji⟩ := hbatchR j hjb
                  exact (List.mem_erase_of_ne hji).mpr hjf
              case queueSat =>
                dsimp only
                intro j hj
                rw [hqueue1] at hj
                rcases List.mem_append.mp hj with hjr | hjb
                · have hji : j ≠ id := fun he => hirest (he ▸ hjr)
                  have hjq : j ∈ st.queue := by rw [hq]; exact List.mem_cons_of_mem id hjr
                  have hw0 := inv.queueSat j hjq
                  have he2 := hwrel j hji
                  omega
                · exact ((hb1iff j).mp (hperm.mem_iff.mp hjb)).2
              case satInQueue =>
                dsimp only
                intro j hjf hjw
                rw [hfuncs1] at hjf
                obtain ⟨hji, hjfuncs⟩ := (List.Nodup.mem_erase_iff inv.funcsNodup).mp hjf
                have hjR := inv.funcsSub j hjfuncs
                have he2 := hwrel j hji
                rw [hqueue1]
                by_cases hw0 : (st.closures j).numReadReadyWaits = 0
                · have hjq := inv.satInQueue j hjfuncs hw0
                  rw [hq] at hjq
                  rcases List.mem_cons.mp hjq with he | hjr
                  · exact absurd he hji
                  · exact List.mem_append.mpr (Or.inl hjr)
                · refine List.mem_append.mpr (Or.inr (hperm.mem_iff.mpr
                    ((hb1iff j).mpr ⟨by omega, hjw⟩)))
              case relNR =>
                dsimp only
                intro j hjR
                rw [hfuncs1, hcls2rel j]
                by_cases hji : j = id
                · subst hji
                  rw [hcls1id]
                  simp [List.Nodup.mem_erase_iff inv.funcsNodup]
                · rw [hcls1j j hji, List.mem_erase_of_ne hji]
                  exact inv.relNR j hjR
              case relInv =>
                dsimp only
                intro j hjR
                rw [hcls2rel j, hinv1]
                by_cases hji : j = id
                · subst hji
                  rw [hcls1id]
                  simp
                · rw [hcls1j j hji]
                  rw [inv.relInv j hjR]
                  simp [List.mem_append, hji]
              case invNodup =>
                dsimp only
                rw [hinv1]
                exact List.nodup_append.mpr ⟨inv.invNodup, List.nodup_singleton id,
                  fun a ha hb => hninv ((List.mem_singleton.mp hb) ▸ ha)⟩
              case invSub =>
                dsimp only
                intro j hj
                rw [hinv1] at hj
                rcases List.mem_append.mp hj with hj | hj
                · exact inv.invSub j hj
                · exact (List.mem_singleton.mp hj) ▸ hidR
              case waitsCount =>
                dsimp only
                intro j hjR hjrel
                rw [hcls2rel j] at hjrel
                have hji : j ≠ id := by
                  intro he
                  rw [he, hcls1id] at hjrel
                  cases hjrel
                rw [hcls1j j hji] at hjrel
                have e1 := inv.waitsCount j hjR hjrel
                have e2 := hwrel j hji
                have e3 := hnotif j hjR
                have e4 := countP_split (fun b => !(st1.vars b.var).readable)
                  (fun b => !(st.vars b.var).readable) (st.closures j).args
                  (by
                    intro b hb hpb
                    rw [Bool.not_eq_true'] at hpb ⊢
                    rw [Bool.eq_false_iff] at hpb ⊢
                    intro hc
                    exact hpb (hreadmono b.var hc))
                have e5 : (st.closures j).args.countP
                    (fun b => !(st.vars b.var).readable
                      && !!(st1.vars b.var).readable)
                    = (st.closures j).args.countP
                      (fun b => decide (b.var ∈ written.filter
                        (fun m => (st1.vars m).readable))) := by
                  apply List.countP_congr
                  intro b hb
                  rw [Bool.and_eq_true, Bool.not_not, Bool.not_eq_true']
                  rw [decide_eq_true_eq, hmemN b.var]
                  constructor
                  · rintro ⟨h0, h1⟩; exact ⟨h1, h0⟩
                  · rintro ⟨h1, h0⟩; exact ⟨h0, h1⟩
                rw [e5] at e4
                rw [hcls2args j, hargs j]
                omega
              case readersCnt =>
                dsimp only
                intro n j hjR
                rw [hreaders n, hcls2args j, hargs j]
                exact inv.readersCnt n j hjR
              case readersSub =>
                dsimp only
                intro n j hj
                rw [hreaders n] at hj
                exact inv.readersSub n j hj
              case releasedReadable =>
                dsimp only
                intro j hjR hjrel b hb
                rw [hcls2rel j] at hjrel
                rw [hcls2args j, hargs j] at hb
                by_cases hji : j = id
                · subst hji
                  obtain ⟨hlen, hprop⟩ := readArgs_ok_spec hread
                  obtain ⟨i, hi⟩ := List.mem_iff_get?.mp hb
                  exact hreadmono b.var (hprop i b hi).1
                · rw [hcls1j j hji] at hjrel
                  exact hreadmono b.var
                    (inv.releasedReadable j hjR hjrel b hb)
              case valuesLog =>
                dsimp only
                intro n
                rw [hvalues n, hev, writesTo_append, ← List.singleton_append,
                  writesTo_append, writesTo_inv, List.nil_append,
                  writesTo_wr_map, inv.valuesLog n]
              case declBalance =>
                dsimp only
                intro n
                have e0 := inv.declBalance n
                have e1 := hwaits n
                have hlen : (writesTo n st1.events).length
                    = (writesTo n st.events).length
                      + (wl.filter (fun p => p.1 = n)).length := by
                  rw [hev, writesTo_append, ← List.singleton_append,
                    writesTo_append, writesTo_inv, List.nil_append,
                    writesTo_wr_map]
                  simp [List.length_append]
                have hcnt : (wl.map Prod.fst).count n
                    = (wl.filter (fun p => p.1 = n)).length := by
                  rw [count_map_fst, List.countP_eq_length_filter]
                omega
              case waitsWriters =>
                dsimp only
                intro n
                have hsum := map_sum_update
                  (fun j => if (st.closures j).released then 0
                    else occOut (st.closures j).writeto n)
                  (fun j => if (cls2 j).released then 0
                    else occOut (cls2 j).writeto n)
                  hR hidR
                  (by dsimp only; rw [hcls2rel id, hcls1id]; simp)
                  (by
                    intro j hj hji
                    dsimp only
                    rw [hcls2rel j, hcls2wr j, hcls1j j hji])
                dsimp only at hsum
                rw [c1] at hsum
                simp only [Bool.false_eq_true, if_false] at hsum
                have e0 := inv.waitsWriters n
                have e1 := hwaits n
                have e2 := hbound n
                simp only [unreleasedDecl] at e0 ⊢
                omega
        · next hmem => simp at h

/-- An invocation event never occurs among pure write events. -/
theorem inv_not_mem_wr_map (t : Nat) (vs : List Val)
    (wl : List (String × Val)) :
    Event.inv t vs ∉ wl.map (fun p => Event.wr p.1 p.2) := by
  intro h
  obtain ⟨p, hp, he⟩ := List.mem_map.mp h
  exact Event.noConfusion he

/-- One successful loop iteration never changes any closure's bindings or
output annotation. -/
theorem stepOnce_closure_static {st st' : RunState}
    (h : stepOnce st = (st', .ok ())) :
    ∀ j, (st'.closures j).writeto = (st.closures j).writeto ∧
      (st'.closures j).args = (st.closures j).args ∧
      (st'.closures j).key = (st.closures j).key := by
  unfold stepOnce at h
  revert h
  cases hq : st.queue with
  | nil =>
    intro h
    injection h with h1 h2
    subst h1
    exact fun j => ⟨rfl, rfl, rfl⟩
  | cons id rest =>
    dsimp only
    cases hcc : closureCall { st with queue := rest } id with
    | mk st1 r1 =>
      intro h
      cases r1 with
      | error e => simp at h
      | ok written =>
        dsimp only at h
        split at h
        · next hmem =>
          revert h
          cases hnr : notifyReaders { st1 with funcs := st1.funcs.erase id }
              written with
          | mk st3 r3 =>
            intro h
            cases r3 with
            | error e => simp at h
            | ok batch =>
              injection h with h1 h2
              subst h1
              obtain ⟨c1, c2, vals, wl, hread, hev, hreaders, hvalues, hwaits,
                hbound, hwmem, hwnd, hfuncs1, hnames1, hqueue1, hcls1⟩ :=
                closureCall_ok_full hcc
              dsimp only at hcls1
              obtain ⟨cls2, batch0, hnv, hst3, hbs, hperm⟩ :=
                notifyReaders_ok_spec hnr
              dsimp only at hnv hst3
              obtain ⟨nv1, nv2, nv3, batch1, hb1, hb1nd, hb1iff⟩ :=
                notifyVars_ok_spec hnv
              subst hst3
              intro j
              obtain ⟨w, hw⟩ := nv1 j
              dsimp only
              rw [hw]
              by_cases hj : j = id
              · subst hj
                rw [hcls1, upd_same]
                exact ⟨rfl, rfl, rfl⟩
              · rw [hcls1, upd_other _ _ _ _ hj]
                exact ⟨rfl, rfl, rfl⟩
        · next hmem => simp at h

/-- The collection-read property is preserved by one successful loop
iteration, relative to the master invariant and the correspondence
between closures and their registered output annotations. -/
theorem stepOnce_JoinProp {specs : List TaskSpec} {kw : List (String × Val)}
    {st st' : RunState}
    (h : stepOnce st = (st', .ok ()))
    (inv : InvB (specs.map TaskSpec.id) (declaredWrites specs kw) st)
    (hout : ∀ sp ∈ specs, (st.closures sp.id).writeto = sp.out)
    (hJ : JoinProp specs kw st) : JoinProp specs kw st' := by
  unfold stepOnce at h
  revert h
  cases hq : st.queue with
  | nil =>
    intro h
    injection h with h1 h2
    subst h1
    exact hJ
  | cons id rest =>
    dsimp only
    cases hcc : closureCall { st with queue := rest } id with
    | mk st1 r1 =>
      intro h
      cases r1 with
      | error e => simp at h
      | ok written =>
        dsimp only at h
        split at h
        · next hmem =>
          revert h
          cases hnr : notifyReaders { st1 with funcs := st1.funcs.erase id }
              written with
          | mk st3 r3 =>
            intro h
            cases r3 with
            | error e => simp at h
            | ok batch =>
              injection h with h1 h2
              subst h1
              obtain ⟨c1, c2, vals, wl, hread, hev, hreaders, hvalues, hwaits,
                hbound, hwmem, hwnd, hfuncs1, hnames1, hqueue1, hcls1⟩ :=
                closureCall_ok_full hcc
              dsimp only at c1 c2 hread hev hreaders hvalues hwaits hbound
              dsimp only at hwmem hfuncs1 hnames1 hqueue1 hcls1
              obtain ⟨cls2, batch0, hnv, hst3, hbs, hperm⟩ :=
                notifyReaders_ok_spec hnr
              dsimp only at hnv hst3
              obtain ⟨nv1, nv2, nv3, batch1, hb1, hb1nd, hb1iff⟩ :=
                notifyVars_ok_spec hnv
              subst hst3
              have hcls1id : st1.closures id
                  = { st.closures id with released := true } := by
                rw [hcls1]; exact upd_same _ _ _
              have hcls1j : ∀ j, j ≠ id → st1.closures j = st.closures j := by
                intro j hj
                rw [hcls1]; exact upd_other _ _ _ _ hj
              have hcls2args : ∀ j, (cls2 j).args = (st1.closures j).args := by
                intro j
                obtain ⟨w, hw⟩ := nv1 j
                rw [hw]
              have hargs : ∀ j, (st1.closures j).args = (st.closures j).args := by
                intro j
                by_cases hj : j = id
                · subst hj; rw [hcls1id]
                · rw [hcls1j j hj]
              -- conclusions at the fresh invocation
              have hNEW : ∀ i b, (st.closures id).args.get? i = some b →
                  b.mode = .all →
                  vals.get? i = some (.list (writesTo b.var st.events)) ∧
                  (writesTo b.var st.events).length
                    = declaredWrites specs kw b.var ∧
                  writesTo b.var (wl.map (fun p => Event.wr p.1 p.2)) = [] ∧
                  ∀ sp ∈ specs, 0 < occOut sp.out b.var →
                    sp.id ∈ invocs st.events := by
                intro i b hbst hmode
                obtain ⟨hlen, hprop⟩ := readArgs_ok_spec hread
                obtain ⟨hbread, hball, _⟩ := hprop i b hbst
                have h1 := hball hmode
                rw [inv.valuesLog b.var] at h1
                have hw0 : (st.vars b.var).numWriteWaits = 0 :=
                  (Variable.readable_iff.mp hbread).1
                have h2 : (writesTo b.var st.events).length
                    = declaredWrites specs kw b.var := by
                  have := inv.declBalance b.var
                  omega
                have hcnt : (wl.map Prod.fst).count b.var = 0 := by
                  have := hwaits b.var
                  omega
                have hfilter : wl.filter (fun p => p.1 = b.var) = [] := by
                  rw [count_map_fst, List.countP_eq_length_filter,
                    List.length_eq_zero] at hcnt
                  exact hcnt
                refine ⟨h1, h2, ?_, ?_⟩
                · rw [writesTo_wr_map, hfilter]
                  rfl
                · intro sp hsp hocc
                  have hsub := inv.waitsWriters b.var
                  rw [hw0, Nat.le_zero] at hsub
                  have hmem2 : (fun j => if (st.closures j).released then 0
                      else occOut (st.closures j).writeto b.var) sp.id
                      ∈ (specs.map TaskSpec.id).map
                        (fun j => if (st.closures j).released then 0
                          else occOut (st.closures j).writeto b.var) :=
                    List.mem_map_of_mem _ (List.mem_map_of_mem TaskSpec.id hsp)
                  have hle := List.single_le_sum
                    (fun y _ => Nat.zero_le y) _ hmem2
                  unfold unreleasedDecl at hsub
                  rw [hsub] at hle
                  dsimp only at hle
                  by_cases hrel : (st.closures sp.id).released
                  · exact (inv.relInv sp.id
                      (List.mem_map_of_mem TaskSpec.id hsp)).mp hrel
                  · rw [if_neg hrel, hout sp hsp] at hle
                    omega
              intro pre t vs post hdec i b hb hmode
              dsimp only at hdec hb ⊢
              rw [hcls2args t, hargs t] at hb
              rw [hev] at hdec
              rcases List.append_eq_append_iff.mp hdec with
                ⟨pre2, hpre, hnew⟩ | ⟨mid, hold, hpost⟩
              · cases pre2 with
                | nil =>
                  rw [List.append_nil] at hpre
                  rw [List.nil_append] at hnew
                  injection hnew with he1 he2
                  injection he1 with he1a he1b
                  subst he1a he1b
                  subst hpre
                  subst he2
                  exact hNEW i b hb hmode
                | cons e pre3 =>
                  rw [List.cons_append] at hnew
                  injection hnew with he1 he2
                  exfalso
                  apply inv_not_mem_wr_map t vs wl
                  rw [he2]
                  exact List.mem_append.mpr (Or.inr (List.mem_cons_self _ _))
              · cases mid with
                | nil =>
                  rw [List.append_nil] at hold
                  rw [List.nil_append] at hpost
                  injection hpost with he1 he2
                  injection he1 with he1a he1b
                  subst he1a he1b
                  subst he2
                  subst hold
                  exact hNEW i b hb hmode
                | cons e mid2 =>
                  rw [List.cons_append] at hpost
                  injection hpost with he1 he2
                  subst he1
                  subst he2
                  obtain ⟨o1, o2, o3, o4⟩ := hJ pre t vs mid2 hold i b hb hmode
                  refine ⟨o1, o2, ?_, o4⟩
                  have hwst : (writesTo b.var st.events).length
                      = declaredWrites specs kw b.var := by
                    rw [hold, writesTo_append, ← List.singleton_append,
                      writesTo_append, writesTo_inv, List.nil_append, o3,
                      List.append_nil]
                    exact o2
                  have hw0 : (st.vars b.var).numWriteWaits = 0 := by
                    have := inv.declBalance b.var
                    omega
                  have hcnt : (wl.map Prod.fst).count b.var = 0 := by
                    have := hwaits b.var
                    omega
                  have hfilter : wl.filter (fun p => p.1 = b.var) = [] := by
                    rw [count_map_fst, List.countP_eq_length_filter,
                      List.length_eq_zero] at hcnt
                    exact hcnt
                  rw [writesTo_append, o3, List.nil_append,
                    ← List.singleton_append, writesTo_append, writesTo_inv,
                    List.nil_append, writesTo_wr_map, hfilter]
                  rfl
        · next hmem => simp at h

/-- The master invariant is preserved along any number of successful
loop iterations. -/
theorem reachN_InvB {R : List Nat} {D : String → Nat} (hR : R.Nodup) :
    ∀ {k : Nat} {st st' : RunState}, reachN k st = some st' →
    InvB R D st → InvB R D st'
  | 0, st, st' => by
    intro h inv
    unfold reachN at h
    injection h with h
    subst h
    exact inv
  | Nat.succ k, st, st' => by
    intro h inv
    unfold reachN at h
    revert h
    cases hq : st.queue with
    | nil => intro h; cases h
    | cons id rest =>
      dsimp only
      cases hstep : stepOnce st with
      | mk st2 r =>
        cases r with
        | error e => intro h; cases h
        | ok u =>
          intro h
          cases u
          exact reachN_InvB hR h (stepOnce_InvB hR hstep inv)

/-- The collection-read property is carried along any number of
successful loop iterations. -/
theorem reachN_JoinProp {specs : List TaskSpec} {kw : List (String × Val)}
    (hR : (specs.map TaskSpec.id).Nodup) :
    ∀ {k : Nat} {st st' : RunState}, reachN k st = some st' →
    InvB (specs.map TaskSpec.id) (declaredWrites specs kw) st →
    (∀ sp ∈ specs, (st.closures sp.id).writeto = sp.out) →
    JoinProp specs kw st → JoinProp specs kw st'
  | 0, st, st' => by
    intro h inv hout hJ
    unfold reachN at h
    injection h with h
    subst h
    exact hJ
  | Nat.succ k, st, st' => by
    intro h inv hout hJ
    unfold reachN at h
    revert h
    cases hq : st.queue with
    | nil => intro h; cases h
    | cons id rest =>
      dsimp only
      cases hstep : stepOnce st with
      | mk st2 r =>
        cases r with
        | error e => intro h; cases h
        | ok u =>
          intro h
          cases u
          exact reachN_JoinProp hR h (stepOnce_InvB hR hstep inv)
            (fun sp hsp => by
              rw [(stepOnce_closure_static hstep sp.id).1]
              exact hout sp hsp)
            (stepOnce_JoinProp hstep inv hout hJ)

/-- A state whose event log holds no invocation satisfies the
collection-read property vacuously. -/
theorem JoinProp_of_no_inv {specs : List TaskSpec} {kw : List (String × Val)}
    {st : RunState} (h : ∀ t vs, Event.inv t vs ∉ st.events) :
    JoinProp specs kw st := by
  intro pre t vs post hdec
  exfalso
  apply h t vs
  rw [hdec]
  exact List.mem_append.mpr (Or.inr (List.mem_cons_self _ _))

/-- A normally terminating loop run reaches its final state by some
number of successful iterations. -/
theorem loop_reach : ∀ {fuel : Nat} {st st' : RunState},
    loop fuel st = (st', .ok ()) → ∃ k, reachN k st = some st'
  | 0, st, st' => by
    intro h
    unfold loop at h
    revert h
    cases hq : st.queue with
    | nil =>
      intro h
      injection h with h1 h2
      subst h1
      exact ⟨0, rfl⟩
    | cons id rest => intro h; simp at h
  | Nat.succ n, st, st' => by
    intro h
    unfold loop at h
    revert h
    cases hq : st.queue with
    | nil =>
      intro h
      injection h with h1 h2
      subst h1
      exact ⟨0, rfl⟩
    | cons id rest =>
      dsimp only
      cases hstep : stepOnce st with
      | mk st2 r =>
        cases r with
        | error e => intro h; simp at h
        | ok u =>
          intro h
          cases u
          obtain ⟨k, hk⟩ := loop_reach h
          refine ⟨k + 1, ?_⟩
          unfold reachN
          rw [hq]
          dsimp only
          rw [hstep]
          exact hk

end InvariantLemmas

section InitLemmas

/-- Pointwise effect of the will-write fold of `_parse_ret`: the wait
count grows by the number of occurrences, readers and values are
untouched. -/
theorem willWriteFold_apply :
    ∀ (outs : List String) (vs : String → Variable) (n : String),
    ((outs.foldl (fun vs m => upd vs m ((vs m).notifyWillWrite)) vs) n).numWriteWaits
      = (vs n).numWriteWaits + outs.count n ∧
    ((outs.foldl (fun vs m => upd vs m ((vs m).notifyWillWrite)) vs) n).readers
      = (vs n).readers ∧
    ((outs.foldl (fun vs m => upd vs m ((vs m).notifyWillWrite)) vs) n).values
      = (vs n).values
  | [], vs, n => by simp
  | o :: outs, vs, n => by
    rw [List.foldl_cons]
    obtain ⟨h1, h2, h3⟩ :=
      willWriteFold_apply outs (upd vs o ((vs o).notifyWillWrite)) n
    by_cases ho : n = o
    · subst ho
      rw [upd_same] at h1 h2 h3
      rw [h1, h2, h3, List.count_cons_self]
      refine ⟨?_, rfl, rfl⟩
      show (vs n).numWriteWaits + 1 + List.count n outs
        = (vs n).numWriteWaits + (List.count n outs + 1)
      ring
    · rw [upd_other _ _ _ _ ho] at h1 h2 h3
      rw [h1, h2, h3, List.count_cons_of_ne ho]
      exact ⟨rfl, rfl, rfl⟩

/-- Pointwise effect of the reader-append fold of registration: the
reader list grows by one occurrence of the task id per binding on the
variable; waits and values are untouched. -/
theorem readersFold_apply (idv : Nat) :
    ∀ (binds : List Binding) (vs : String → Variable) (n : String),
    ((binds.foldl (fun vs b => upd vs b.var
        { vs b.var with readers := (vs b.var).readers ++ [idv] }) vs) n).readers
      = (vs n).readers
        ++ List.replicate (binds.countP (fun b => b.var = n)) idv ∧
    ((binds.foldl (fun vs b => upd vs b.var
        { vs b.var with readers := (vs b.var).readers ++ [idv] }) vs) n).numWriteWaits
      = (vs n).numWriteWaits ∧
    ((binds.foldl (fun vs b => upd vs b.var
        { vs b.var with readers := (vs b.var).readers ++ [idv] }) vs) n).values
      = (vs n).values
  | [], vs, n => by simp
  | b :: binds, vs, n => by
    rw [List.foldl_cons]
    obtain ⟨h1, h2, h3⟩ := readersFold_apply idv binds
      (upd vs b.var { vs b.var with readers := (vs b.var).readers ++ [idv] }) n
    by_cases hb : n = b.var
    · subst hb
      rw [upd_same] at h1 h2 h3
      dsimp only at h1 h2 h3
      rw [h1, h2, h3, List.countP_cons_of_pos _ _ (by simp),
        List.replicate_succ, List.append_assoc, List.singleton_append]
      exact ⟨rfl, rfl, rfl⟩
    · rw [upd_other _ _ _ _ hb] at h1 h2 h3
      rw [h1, h2, h3,
        List.countP_cons_of_neg _ _ (by
          simp only [decide_eq_true_eq]
          exact fun hc => hb hc.symm)]
      exact ⟨rfl, rfl, rfl⟩

/-- Variable-table effect of one registration. -/
theorem registerCore_vars (s0 : Startup) (spec : TaskSpec) (n : String) :
    ((registerCore s0 spec).vars n).numWriteWaits
      = (s0.vars n).numWriteWaits + occOut spec.out n ∧
    ((registerCore s0 spec).vars n).readers
      = (s0.vars n).readers
        ++ List.replicate (spec.binds.countP (fun b => b.var = n)) spec.id ∧
    ((registerCore s0 spec).vars n).values = (s0.vars n).values := by
  have e : (registerCore s0 spec).vars
      = spec.binds.foldl
          (fun vs b => upd vs b.var
            { vs b.var with readers := (vs b.var).readers ++ [spec.id] })
          (spec.out.names.foldl
            (fun vs m => upd vs m ((vs m).notifyWillWrite)) s0.vars) := rfl
  obtain ⟨w1, w2, w3⟩ := willWriteFold_apply spec.out.names s0.vars n
  obtain ⟨r1, r2, r3⟩ := readersFold_apply spec.id spec.binds
    (spec.out.names.foldl (fun vs m => upd vs m ((vs m).notifyWillWrite)) s0.vars) n
  rw [e]
  refine ⟨?_, ?_, ?_⟩
  · rw [r2, w1]
    rfl
  · rw [r1, w2]
  · rw [r3, w3]

/-- `satisfied` staging of one registration. -/
theorem registerCore_satisfied (s0 : Startup) (spec : TaskSpec) :
    (registerCore s0 spec).satisfied
      = if spec.binds.length = 0 then s0.satisfied ++ [spec.id]
        else s0.satisfied := rfl

/-- Variable-table and staging effect of a successful registration
fold. -/
theorem registerFold_vars {specs : List TaskSpec} {s0 s : Startup}
    (h : List.foldlM Startup.register s0 specs = .ok s) :
    (∀ n, (s.vars n).numWriteWaits
      = (s0.vars n).numWriteWaits
        + (specs.map (fun sp => occOut sp.out n)).sum) ∧
    (∀ n j, (s.vars n).readers.count j
      = (s0.vars n).readers.count j
        + ((specs.filter (fun sp => sp.id = j)).map
            (fun sp => sp.binds.countP (fun b => b.var = n))).sum) ∧
    (∀ n j, j ∈ (s.vars n).readers →
      j ∈ (s0.vars n).readers ∨ j ∈ specs.map TaskSpec.id) ∧
    s.satisfied = s0.satisfied
      ++ (specs.filter (fun sp => sp.binds.length = 0)).map TaskSpec.id := by
  induction specs generalizing s0 with
  | nil =>
    simp only [List.foldlM] at h
    injection h with h
    subst h
    simp
  | cons spec rest ih =>
    simp only [List.foldlM] at h
    cases hr : Startup.register s0 spec with
    | error e => rw [hr] at h; simp [Bind.bind, Except.bind] at h
    | ok s1 =>
      rw [hr] at h
      simp only [Bind.bind, Except.bind] at h
      obtain ⟨hrel, hfresh, hcore⟩ := register_ok hr
      subst hcore
      obtain ⟨i1, i2, i3, i4⟩ := ih h
      refine ⟨?_, ?_, ?_, ?_⟩
      · intro n
        rw [i1 n, (registerCore_vars s0 spec n).1, List.map_cons, List.sum_cons]
        omega
      · intro n j
        rw [i2 n j, (registerCore_vars s0 spec n).2.1, List.count_append,
          List.count_replicate, List.filter_cons]
        by_cases hj : spec.id = j
        · rw [if_pos (by simp [hj]), if_pos (by simp [hj]),
            List.map_cons, List.sum_cons]
          omega
        · rw [if_neg (by simp [hj]), if_neg (by simp [hj])]
          omega
      · intro n j hj
        rcases i3 n j hj with hj2 | hj2
        · rw [(registerCore_vars s0 spec n).2.1] at hj2
          rcases List.mem_append.mp hj2 with hj3 | hj3
          · exact Or.inl hj3
          · right
            rw [List.map_cons, (List.mem_replicate.mp hj3).2]
            exact List.mem_cons_self _ _
        · right
          rw [List.map_cons]
          exact List.mem_cons_of_mem _ hj2
      · rw [i4, registerCore_satisfied, List.filter_cons]
        by_cases hb : spec.binds.length = 0
        · rw [if_pos hb, if_pos (by simp [hb]), List.map_cons]
          simp
        · rw [if_neg hb, if_neg (by simp [hb])]

/-- With duplicate-free ids, filtering the spec list down to one id
yields exactly that spec. -/
theorem filter_id_single {specs : List TaskSpec}
    (hnd : (specs.map TaskSpec.id).Nodup) :
    ∀ sp ∈ specs, specs.filter (fun q => q.id = sp.id) = [sp] := by
  induction specs with
  | nil => intro sp h; cases h
  | cons a specs ih =>
    rw [List.map_cons, List.nodup_cons] at hnd
    intro sp hsp
    rcases List.mem_cons.mp hsp with he | hm
    · subst he
      rw [List.filter_cons, if_pos (by simp)]
      have : specs.filter (fun q => q.id = sp.id) = [] := by
        rw [List.filter_eq_nil_iff]
        intro q hq
        simp only [decide_eq_true_eq]
        intro hc
        exact hnd.1 (hc ▸ List.mem_map_of_mem TaskSpec.id hq)
      rw [this]
    · rw [List.filter_cons, if_neg ?_, ih hnd.2 sp hm]
      simp only [decide_eq_true_eq]
      intro hc
      exact hnd.1 (hc ▸ List.mem_map_of_mem TaskSpec.id hm)

/-- Complete accounting of a successful `_write_values` pass: the written
names are collected in order, one write event is logged per keyword
argument, each variable's history receives its keyword values in order,
and wait counts and reader lists are net unchanged (each keyword argument
raises the wait count by one and immediately consumes it). -/
theorem writeValuesAux_ok_full :
    ∀ {kw : List (String × Val)} {acc : List String} {st st1 : RunState}
      {acc1 : List String},
    writeValuesAux st kw acc = ((st1, acc1), .ok ()) →
    acc1 = acc ++ kw.map Prod.fst ∧
    st1.events = st.events ++ kw.map (fun p => Event.wr p.1 p.2) ∧
    st1.funcs = st.funcs ∧ st1.closures = st.closures ∧
    st1.queue = st.queue ∧
    ∀ n, (st1.vars n).readers = (st.vars n).readers ∧
      (st1.vars n).numWriteWaits = (st.vars n).numWriteWaits ∧
      (st1.vars n).values
        = (st.vars n).values ++ (kw.filter (fun p => p.1 = n)).map Prod.snd
  | [], acc, st, st1, acc1 => by
    intro h
    unfold writeValuesAux at h
    injection h with h1 h2
    injection h1 with h1 h2
    subst h1 h2
    simp
  | (m, v) :: kw, acc, st, st1, acc1 => by
    intro h
    unfold writeValuesAux at h
    dsimp only at h
    rw [upd_same] at h
    have hwr : ((st.vars m).notifyWillWrite).write v
        = .ok { (st.vars m).notifyWillWrite with
            numWriteWaits := (st.vars m).numWriteWaits,
            values := (st.vars m).values ++ [v] } := by
      unfold Variable.write Variable.notifyWillWrite
      simp
    rw [hwr] at h
    obtain ⟨e1, e2, e3, e4, e5, e6⟩ := writeValuesAux_ok_full h
    refine ⟨by rw [e1]; simp, by rw [e2]; simp, by rw [e3], by rw [e4],
      by rw [e5], ?_⟩
    intro n
    obtain ⟨f1, f2, f3⟩ := e6 n
    by_cases hn : n = m
    · subst hn
      rw [f1, f2, f3]
      dsimp only
      rw [upd_same]
      refine ⟨rfl, rfl, ?_⟩
      rw [List.filter_cons]
      simp
    · rw [f1, f2, f3]
      dsimp only
      rw [upd_other _ _ _ _ hn, upd_other _ _ _ _ hn]
      refine ⟨rfl, rfl, ?_⟩
      rw [List.filter_cons]
      have hn2 : ¬ m = n := fun hc => hn hc.symm
      simp [hn2]

/-- Shape of a successful `_write_values` phase (including its
notification pass): the events are exactly the keyword writes appended,
and queue, funcs and every closure binding/annotation are unchanged. -/
theorem writeValues_events {st st1 : RunState} {kw : List (String × Val)}
    {batch : List Nat} (h : writeValues st kw = (st1, .ok batch)) :
    st1.events = st.events ++ kw.map (fun p => Event.wr p.1 p.2) ∧
    st1.queue = st.queue ∧ st1.funcs = st.funcs ∧
    ∀ j, (st1.closures j).writeto = (st.closures j).writeto ∧
      (st1.closures j).args = (st.closures j).args := by
  unfold writeValues at h
  revert h
  cases hwa : writeValuesAux st kw [] with
  | mk p r =>
    obtain ⟨stA, acc⟩ := p
    cases r with
    | error e => intro h; simp at h
    | ok u =>
      cases u
      intro h
      obtain ⟨ha1, ha2, ha3, ha4, ha5, ha6⟩ := writeValuesAux_ok_full hwa
      obtain ⟨cls2, batch0, hnv, hst1, hbs, hperm⟩ := notifyReaders_ok_spec h
      obtain ⟨nv1, nv2, nv3, batch1, hb1, hb1nd, hb1iff⟩ :=
        notifyVars_ok_spec hnv
      subst hst1
      refine ⟨by dsimp only; rw [ha2], by dsimp only; rw [ha5],
        by dsimp only; rw [ha3], ?_⟩
      intro j
      obtain ⟨w, hw⟩ := nv1 j
      dsimp only
      rw [hw, ha4]
      exact ⟨rfl, rfl⟩

end InitLemmas

section RunLemmas

/-- Invocation bookkeeping of a whole `runFrom` on a well-formed initial
state: no task is invoked twice, and on success every pending task was
invoked. -/
theorem runFrom_C2 {st0 : RunState} {kw : List (String × Val)}
    {res : Except Err (List (String × Val))} {obj : Startup} {es : List Event}
    (h : runFrom st0 kw = (res, obj, es))
    (hnd : st0.funcs.Nodup) (hev : st0.events = [])
    (hrel : ∀ j, (st0.closures j).released = false) :
    (invocs es).Nodup ∧
    (∀ out, res = .ok out → ∀ id ∈ st0.funcs, id ∈ invocs es) := by
  unfold runFrom at h
  cases hwv : writeValues st0 kw with
  | mk st1 r1 =>
    rw [hwv] at h
    obtain ⟨w1, w2, w3, tail, w4, w5⟩ := writeValues_any hwv
    have hinv1 : invocs st1.events = [] := by
      rw [w4, hev, invocs_append, w5]
      simp [invocs]
    cases r1 with
    | error e =>
      injection h with h1 h2
      injection h2 with h2 h3
      subst h3
      refine ⟨by rw [hinv1]; exact List.nodup_nil, ?_⟩
      intro out hcon
      simp [← h1] at hcon
    | ok batch =>
      dsimp only at h
      have inv2 : LoopInvA { st1 with queue := st1.queue ++ batch } := by
        refine ⟨by rw [w1]; exact hnd, by rw [hinv1]; exact List.nodup_nil, ?_, ?_⟩
        · intro id hid
          rw [hinv1] at hid
          simp at hid
        · intro id _
          obtain ⟨w, hw⟩ := w3 id
          rw [hw]
          exact hrel id
      cases hlp : loop (fuelOf { st1 with queue := st1.queue ++ batch })
          { st1 with queue := st1.queue ++ batch } with
      | mk st3 r3 =>
        rw [hlp] at h
        obtain ⟨a1, a2, a3, a4, a5⟩ := loop_A hlp inv2
        have hinv3nd : (invocs st3.events).Nodup := a1
        cases r3 with
        | error e =>
          injection h with h1 h2
          injection h2 with h2 h3
          subst h3
          refine ⟨hinv3nd, ?_⟩
          intro out hcon
          simp [← h1] at hcon
        | ok u =>
          dsimp only at h
          split at h
          next hf =>
            injection h with h1 h2
            injection h2 with h2 h3
            subst h3
            refine ⟨hinv3nd, ?_⟩
            intro out hcon
            simp [← h1] at hcon
          next hf =>
            have hf3 : st3.funcs = [] := by
              by_contra hc
              exact hf hc
            split at h
            next e heq =>
              injection h with h1 h2
              injection h2 with h2 h3
              subst h3
              refine ⟨hinv3nd, ?_⟩
              intro out hcon
              simp [← h1] at hcon
            next out2 heq =>
              injection h with h1 h2
              injection h2 with h2 h3
              subst h3
              refine ⟨hinv3nd, ?_⟩
              intro out hcon id hid
              have hid2 : id ∈ ({ st1 with queue := st1.queue ++ batch } : RunState).funcs := by
                dsimp only
                rw [w1]
                exact hid
              rcases a3 id hid2 with hmem | hmem
              · rw [hf3] at hmem; simp at hmem
              · exact hmem

/-- The unsatisfiable-dependency error of a run names exactly the
registered tasks never invoked: it can only come from the final pending
check, at which point `funcs` holds precisely the registered ids that are
not in the invocation log. -/
theorem runFrom_unsat {st0 : RunState} {kw : List (String × Val)}
    {l : List Nat} {obj : Startup} {es : List Event}
    (h : runFrom st0 kw = (.error (.unsat l), obj, es))
    (hnd : st0.funcs.Nodup) (hev : st0.events = [])
    (hrel : ∀ j, (st0.closures j).released = false) :
    l ≠ [] ∧ l.Nodup ∧
    ∀ id, id ∈ l ↔ (id ∈ st0.funcs ∧ id ∉ invocs es) := by
  unfold runFrom at h
  cases hwv : writeValues st0 kw with
  | mk st1 r1 =>
    rw [hwv] at h
    obtain ⟨w1, w2, w3, tail, w4, w5⟩ := writeValues_any hwv
    cases r1 with
    | error e =>
      injection h with h1 h2
      rcases writeValues_error hwv with he | he <;> simp [he] at h1
    | ok batch =>
      dsimp only at h
      have inv2 : LoopInvA { st1 with queue := st1.queue ++ batch } := by
        have hinv1 : invocs st1.events = [] := by
          rw [w4, hev, invocs_append, w5]
          simp [invocs]
        refine ⟨by rw [w1]; exact hnd, by rw [hinv1]; exact List.nodup_nil, ?_, ?_⟩
        · intro id hid
          rw [hinv1] at hid
          simp at hid
        · intro id _
          obtain ⟨w, hw⟩ := w3 id
          rw [hw]
          exact hrel id
      cases hlp : loop (fuelOf { st1 with queue := st1.queue ++ batch })
          { st1 with queue := st1.queue ++ batch } with
      | mk st3 r3 =>
        rw [hlp] at h
        obtain ⟨a1, a2, a3, a4, a5⟩ := loop_A hlp inv2
        cases r3 with
        | error e =>
          injection h with h1 h2
          have := loop_not_unsat hlp
          injection h1 with h1
          exact absurd h1 (this l)
        | ok u =>
          dsimp only at h
          have inv3 := a5 rfl
          split at h
          next hf =>
            injection h with h1 h2
            injection h2 with h2 h3
            injection h1 with h1
            injection h1 with h1
            subst h1 h3
            refine ⟨hf, inv3.funcsNodup, ?_⟩
            intro id
            constructor
            · intro hid
              refine ⟨by rw [← w1]; exact a4 id hid, ?_⟩
              intro hcon
              have := inv3.invRel id hcon
              rw [inv3.funcsFresh id hid] at this
              simp at this
            · rintro ⟨hid, hninv⟩
              have hid2 : id ∈ ({ st1 with queue := st1.queue ++ batch } : RunState).funcs := by
                dsimp only
                rw [w1]
                exact hid
              rcases a3 id hid2 with hmem | hmem
              · exact hmem
              · exact absurd hmem hninv
          next hf =>
            split at h
            next e heq =>
              injection h with h1 h2
              have := readOutputs_error heq
              rw [this] at h1
              simp at h1
            next out2 heq =>
              injection h with h1 h2
              simp at h1

/-- Decomposition of a successful `runFrom`: the keyword seeding
succeeded, the loop terminated normally on a state with no pending
functions, and the returned object and events come from that final
state. -/
theorem runFrom_ok_state {st0 : RunState} {kw : List (String × Val)}
    {out : List (String × Val)} {obj : Startup} {es : List Event}
    (h : runFrom st0 kw = (.ok out, obj, es)) :
    ∃ (st1 : RunState) (batch : List Nat) (st3 : RunState),
      writeValues st0 kw = (st1, .ok batch) ∧
      loop (fuelOf { st1 with queue := st1.queue ++ batch })
        { st1 with queue := st1.queue ++ batch } = (st3, .ok ()) ∧
      st3.funcs = [] ∧
      obj = { stToObj st3 with released := true } ∧ es = st3.events := by
  unfold runFrom at h
  revert h
  cases hwv : writeValues st0 kw with
  | mk st1 r1 =>
    cases r1 with
    | error e => intro h; simp at h
    | ok batch =>
      dsimp only
      cases hlp : loop (fuelOf { st1 with queue := st1.queue ++ batch })
          { st1 with queue := st1.queue ++ batch } with
      | mk st3 r3 =>
        cases r3 with
        | error e => intro h; simp at h
        | ok u =>
          cases u
          intro h
          dsimp only at h
          by_cases hfe : st3.funcs = []
          · rw [if_neg (not_not_intro hfe)] at h
            revert h
            cases hro : readOutputs st3.vars st3.names with
            | error e => intro h; simp at h
            | ok out2 =>
              intro h
              injection h with h1 h2
              injection h2 with h2 h3
              injection h1 with h1
              subst h2 h3
              exact ⟨st1, batch, st3, rfl, hlp, hfe, rfl, rfl⟩
          · rw [if_pos hfe] at h
            simp at h

end RunLemmas

section MonotonicityLemmas

/-- A readable variable is never written again inside a successful write
sequence (writing it would fail the `num_write_waits > 0` assertion), and
value histories only grow. -/
theorem writeSeq_mono {l : List (String × Val)} {st st' : RunState}
    (h : writeSeq st l = (st', .ok ())) (n : String) :
    ((st.vars n).readable = true → st'.vars n = st.vars n) ∧
    ∃ tl, (st'.vars n).values = (st.vars n).values ++ tl := by
  induction l generalizing st with
  | nil =>
    unfold writeSeq at h
    injection h with h1 h2
    subst h1
    exact ⟨fun _ => rfl, [], by simp⟩
  | cons hd tl ih =>
    obtain ⟨nm, v⟩ := hd
    simp only [writeSeq] at h
    split at h
    next e heq => simp at h
    next var' heq =>
      obtain ⟨hw0, hw1⟩ := Variable.write_ok heq
      obtain ⟨i1, i2⟩ := ih h
      dsimp only at i1 i2
      by_cases hn : n = nm
      · subst hn
        constructor
        · intro hr
          unfold Variable.readable at hr
          simp only [Bool.and_eq_true, beq_iff_eq] at hr
          exact absurd hr.1 hw0
        · obtain ⟨tl2, htl2⟩ := i2
          rw [upd_same] at htl2
          rw [htl2, hw1]
          exact ⟨v :: tl2, by simp⟩
      · rw [upd_other _ _ _ _ hn] at i1 i2
        exact ⟨i1, i2⟩

/-- The same for the output-writing branch of `Closure.call`. -/
theorem writeOuts_mono {st : RunState} {w : WriteSpec} {v : Val}
    {st' : RunState} {written : List String}
    (h : writeOuts st w v = (st', .ok written)) (n : String) :
    ((st.vars n).readable = true → st'.vars n = st.vars n) ∧
    ∃ tl, (st'.vars n).values = (st.vars n).values ++ tl := by
  cases w with
  | none =>
    simp only [writeOuts] at h
    injection h with h1 h2
    subst h1
    exact ⟨fun _ => rfl, [], by simp⟩
  | one m =>
    simp only [writeOuts] at h
    split at h
    next e heq => simp at h
    next var' heq =>
      injection h with h1 h2
      subst h1
      obtain ⟨hw0, hw1⟩ := Variable.write_ok heq
      by_cases hn : n = m
      · subst hn
        constructor
        · intro hr
          unfold Variable.readable at hr
          simp only [Bool.and_eq_true, beq_iff_eq] at hr
          exact absurd hr.1 hw0
        · dsimp only
          rw [upd_same, hw1]
          exact ⟨[v], rfl⟩
      · dsimp only
        rw [upd_other _ _ _ _ hn]
        exact ⟨fun _ => rfl, [], by simp⟩
  | many ns =>
    simp only [writeOuts] at h
    cases v with
    | nat m => simp at h
    | list outs =>
      dsimp only at h
      split at h
      next st2 heq =>
        injection h with h1 h2
        subst h1
        exact writeSeq_mono heq n
      next st2 e heq => simp at h

/-- A successful `Closure.call` never touches a readable variable, and
only appends to value histories. -/
theorem closureCall_mono {st st' : RunState} {id : Nat} {written : List String}
    (h : closureCall st id = (st', .ok written)) (n : String) :
    ((st.vars n).readable = true → st'.vars n = st.vars n) ∧
    ∃ tl, (st'.vars n).values = (st.vars n).values ++ tl := by
  unfold closureCall at h
  dsimp only at h
  split at h
  · simp at h
  · split at h
    · simp at h
    · split at h
      next e heq => simp at h
      next vals heq =>
        split at h
        next st2 e heq2 => simp at h
        next st2 w2 heq2 =>
          injection h with h1 h2
          subst h1
          have := writeOuts_mono heq2 n
          dsimp only at this
          exact this

/-- One successful loop iteration of `Startup.call` never makes a
readable variable unreadable, and only appends to value histories. -/
theorem stepOnce_mono {st st' : RunState} (h : stepOnce st = (st', .ok ()))
    (n : String) :
    ((st.vars n).readable = true → (st'.vars n).readable = true) ∧
    ∃ tl, (st'.vars n).values = (st.vars n).values ++ tl := by
  unfold stepOnce at h
  split at h
  next hq =>
    injection h with h1 h2
    subst h1
    exact ⟨fun hr => hr, [], by simp⟩
  next id rest hq =>
    dsimp only at h
    split at h
    next st1 e heq => simp at h
    next st1 written heq =>
      split at h
      next hmem =>
        split at h
        next st3 batch heq2 =>
          injection h with h1 h2
          subst h1
          obtain ⟨c1, c2⟩ := closureCall_mono heq n
          dsimp only at c1 c2
          obtain ⟨n1, n2, n3, n4, n5, n6⟩ := notifyReaders_preserve heq2
          dsimp only at n2
          constructor
          · intro hr
            rw [n2, c1 hr]
            exact hr
          · obtain ⟨tl, htl⟩ := c2
            rw [n2]
            exact ⟨tl, htl⟩
        next st3 e heq2 => simp at h
      next hmem => simp at h

/-- Readability is monotone and histories append-only along any number of
loop iterations. -/
theorem reachN_mono {k : Nat} {st st' : RunState}
    (h : reachN k st = some st') (n : String) :
    ((st.vars n).readable = true → (st'.vars n).readable = true) ∧
    ∃ tl, (st'.vars n).values = (st.vars n).values ++ tl := by
  induction k generalizing st with
  | zero =>
    unfold reachN at h
    injection h with h
    subst h
    exact ⟨fun hr => hr, [], by simp⟩
  | succ m ih =>
    unfold reachN at h
    split at h
    · simp at h
    · split at h
      next st2 heq =>
        obtain ⟨s1, s2⟩ := stepOnce_mono heq n
        obtain ⟨i1, i2⟩ := ih h
        refine ⟨fun hr => i1 (s1 hr), ?_⟩
        obtain ⟨t1, ht1⟩ := s2
        obtain ⟨t2, ht2⟩ := i2
        exact ⟨t1 ++ t2, by rw [ht2, ht1]; simp⟩
      next st2 e heq => simp at h

/-- Appending keyword writes: processing a prefix first and then the rest
is the same as processing the whole list. -/
theorem writeValuesAux_append {p q : List (String × Val)} {st st1 : RunState}
    {acc acc1 : List String}
    (h : writeValuesAux st p acc = ((st1, acc1), .ok ())) :
    writeValuesAux st (p ++ q) acc = writeValuesAux st1 q acc1 := by
  induction p generalizing st acc with
  | nil =>
    unfold writeValuesAux at h
    injection h with h1 h2
    injection h1 with h1 h2
    subst h1 h2
    simp
  | cons hd tl ih =>
    obtain ⟨nm, v⟩ := hd
    simp only [List.cons_append, writeValuesAux] at h ⊢
    split at h
    next e heq => simp at h
    next var' heq =>
      exact ih h

/-- Keyword writes to other names leave a variable untouched. -/
theorem writeValuesAux_untouched {q : List (String × Val)} {st st2 : RunState}
    {acc acc2 : List String} {r : Except Err Unit} {n : String}
    (h : writeValuesAux st q acc = ((st2, acc2), r))
    (hn : n ∉ q.map Prod.fst) :
    st2.vars n = st.vars n := by
  induction q generalizing st acc with
  | nil =>
    unfold writeValuesAux at h
    injection h with h1 h2
    injection h1 with h1 h2
    subst h1
    rfl
  | cons hd tl ih =>
    obtain ⟨nm, v⟩ := hd
    simp only [List.map_cons, List.mem_cons] at hn
    push_neg at hn
    simp only [writeValuesAux] at h
    split at h
    next e heq =>
      injection h with h1 h2
      injection h1 with h1 h2
      subst h1
      dsimp only
      rw [upd_other _ _ _ _ hn.1]
    next var' heq =>
      rw [ih h hn.2]
      dsimp only
      rw [upd_other _ _ _ _ hn.1, upd_other _ _ _ _ hn.1]

/-- In the keyword-write phase, a variable with a value was written there
(when it started with an empty history). -/
theorem writeValuesAux_values_src {p : List (String × Val)} {st st1 : RunState}
    {acc acc1 : List String} {r : Except Err Unit} {n : String}
    (h : writeValuesAux st p acc = ((st1, acc1), r))
    (hne : (st1.vars n).values ≠ []) :
    (st.vars n).values ≠ [] ∨ n ∈ p.map Prod.fst := by
  induction p generalizing st acc with
  | nil =>
    unfold writeValuesAux at h
    injection h with h1 h2
    injection h1 with h1 h2
    subst h1
    exact Or.inl hne
  | cons hd tl ih =>
    obtain ⟨nm, v⟩ := hd
    simp only [writeValuesAux] at h
    split at h
    next e heq =>
      injection h with h1 h2
      injection h1 with h1 h2
      subst h1
      dsimp only at hne
      by_cases hn : n = nm
      · exact Or.inr (by simp [hn])
      · rw [upd_other _ _ _ _ hn] at hne
        exact Or.inl hne
    next var' heq =>
      by_cases hn : n = nm
      · exact Or.inr (by simp [hn])
      · rcases ih h with hl | hr
        · dsimp only at hl
          rw [upd_other _ _ _ _ hn, upd_other _ _ _ _ hn] at hl
          exact Or.inl hl
        · exact Or.inr (by simp [hr])

/-- Registration never writes a value. -/
theorem registerCore_values (s0 : Startup) (spec : TaskSpec) (n : String) :
    ((registerCore s0 spec).vars n).values = (s0.vars n).values := by
  unfold registerCore
  dsimp only
  generalize spec.out.names.foldl (fun ns n => touch ns n)
    (spec.binds.foldl (fun ns b => touch ns b.var) s0.names) = ns2
  have h1 : ∀ (outs : List String) (vs : String → Variable),
      ((outs.foldl (fun a o => upd a o ((a o).notifyWillWrite)) vs) n).values
        = (vs n).values := by
    intro outs
    induction outs with
    | nil => intro vs; rfl
    | cons o rest ih =>
      intro vs
      simp only [List.foldl_cons]
      rw [ih]
      by_cases hn : n = o
      · subst hn
        rw [upd_same]
        rfl
      · rw [upd_other _ _ _ _ hn]
  have h2 : ∀ (bs : List Binding) (vs : String → Variable),
      ((bs.foldl (fun a b => upd a b.var
          { a b.var with readers := (a b.var).readers ++ [spec.id] }) vs) n).values
        = (vs n).values := by
    intro bs
    induction bs with
    | nil => intro vs; rfl
    | cons b rest ih =>
      intro vs
      simp only [List.foldl_cons]
      rw [ih]
      by_cases hn : n = b.var
      · subst hn
        rw [upd_same]
      · rw [upd_other _ _ _ _ hn]
  rw [h2, h1]

/-- A successful registration fold never writes a value. -/
theorem registerFold_values {specs : List TaskSpec} {s0 s : Startup}
    (h : List.foldlM Startup.register s0 specs = .ok s) (n : String) :
    (s.vars n).values = (s0.vars n).values := by
  induction specs generalizing s0 with
  | nil =>
    simp only [List.foldlM] at h
    injection h with h
    subst h
    rfl
  | cons spec rest ih =>
    simp only [List.foldlM] at h
    cases hr : Startup.register s0 spec with
    | error e => rw [hr] at h; simp [Bind.bind, Except.bind] at h
    | ok s1 =>
      rw [hr] at h
      simp only [Bind.bind, Except.bind] at h
      obtain ⟨_, _, hcore⟩ := register_ok hr
      subst hcore
      rw [ih h, registerCore_values]

/-- After `registerAll`, every variable history is empty. -/
theorem registerAll_values {specs : List TaskSpec} {s : Startup}
    (h : registerAll specs = .ok s) (n : String) : (s.vars n).values = [] :=
  registerFold_values h n

end MonotonicityLemmas

section EstablishLemmas

/-- Registration on a fresh object: per-variable wait counts, reader
counts, reader membership, and the staged satisfied list. -/
theorem registerAll_vars {specs : List TaskSpec} {s : Startup}
    (h : registerAll specs = .ok s) :
    (∀ n, (s.vars n).numWriteWaits
      = (specs.map (fun sp => occOut sp.out n)).sum) ∧
    (∀ n, ∀ sp ∈ specs, (s.vars n).readers.count sp.id
      = sp.binds.countP (fun b => b.var = n)) ∧
    (∀ n j, j ∈ (s.vars n).readers → j ∈ specs.map TaskSpec.id) ∧
    s.satisfied
      = (specs.filter (fun sp => sp.binds.length = 0)).map TaskSpec.id := by
  have hfold : List.foldlM Startup.register Startup.init specs = .ok s := h
  obtain ⟨v1, v2, v3, v4⟩ := registerFold_vars hfold
  obtain ⟨r1, r2, r3, r4, r5⟩ := registerAll_shape h
  have hidnd : (specs.map TaskSpec.id).Nodup := r1 ▸ r2
  refine ⟨?_, ?_, ?_, ?_⟩
  · intro n
    have := v1 n
    simpa [Startup.init, Variable.init] using this
  · intro n sp hsp
    have := v2 n sp.id
    rw [filter_id_single hidnd sp hsp] at this
    simpa [Startup.init, Variable.init] using this
  · intro n j hj
    rcases v3 n j hj with hj2 | hj2
    · simp [Startup.init, Variable.init] at hj2
    · exact hj2
  · simpa [Startup.init] using v4

/-- The master invariant holds at the head of the scheduling loop: after
registration, keyword-value seeding and its notification pass, the state
entering `while queue` satisfies `InvB` with the registered ids and the
total declared write counts. -/
theorem initial_InvB {specs : List TaskSpec} {kw : List (String × Val)}
    {s : Startup} (hreg : registerAll specs = .ok s)
    (hkwnd : (kw.map Prod.fst).Nodup)
    {st1 : RunState} {batch : List Nat}
    (hwv : writeValues (callInit s kw) kw = (st1, .ok batch)) :
    InvB (specs.map TaskSpec.id) (declaredWrites specs kw)
      { st1 with queue := st1.queue ++ batch } := by
  unfold writeValues at hwv
  revert hwv
  cases hwa : writeValuesAux (callInit s kw) kw [] with
  | mk p r =>
    obtain ⟨stA, acc⟩ := p
    cases r with
    | error e => intro hwv; simp at hwv
    | ok u =>
      cases u
      intro hwv
      obtain ⟨r1, r2, r3, r4, r5⟩ := registerAll_shape hreg
      obtain ⟨w1, w2, w3, w4⟩ := registerAll_vars hreg
      have hidnd : (specs.map TaskSpec.id).Nodup := r1 ▸ r2
      obtain ⟨ha1, ha2, ha3, ha4, ha5, ha6⟩ := writeValuesAux_ok_full hwa
      simp only [List.nil_append] at ha1
      subst ha1
      dsimp only [callInit] at ha2 ha3 ha4 ha5 ha6
      simp only [List.nil_append] at ha2
      obtain ⟨cls2, batch0, hnv, hst1, hbs, hperm⟩ := notifyReaders_ok_spec hwv
      subst hst1
      rw [ha4] at hnv
      obtain ⟨nv1, nv2, nv3, batch1, hb1, hb1nd, hb1iff⟩ := notifyVars_ok_spec hnv
      simp only [List.nil_append] at hb1
      subst hb1
      -- variable-table facts at the seeded state
      have hAr : ∀ n, (stA.vars n).readers = (s.vars n).readers := by
        intro n
        have := (ha6 n).1
        rw [this]
      have hAw : ∀ n, (stA.vars n).numWriteWaits
          = (specs.map (fun sp => occOut sp.out n)).sum := by
        intro n
        have := (ha6 n).2.1
        rw [this]
        exact w1 n
      have hAv : ∀ n, (stA.vars n).values
          = (kw.filter (fun p => p.1 = n)).map Prod.snd := by
        intro n
        have := (ha6 n).2.2
        rw [this]
        rw [registerAll_values hreg n, List.nil_append]
      have hmemkw : ∀ n, (kw.filter (fun p => p.1 = n)).map Prod.snd ≠ []
          ↔ n ∈ kw.map Prod.fst := by
        intro n
        rw [Ne, List.map_eq_nil_iff, List.mem_map]
        constructor
        · intro hne
          rcases List.exists_mem_of_ne_nil _ hne with ⟨p, hp⟩
          have := List.mem_filter.mp hp
          exact ⟨p, this.1, by
            have := this.2
            simpa using this⟩
        · rintro ⟨p, hp, hp1⟩ hnil
          rw [List.filter_eq_nil_iff] at hnil
          exact hnil p hp (by simp [hp1])
      have hreadiff : ∀ n, (stA.vars n).readable = true
          ↔ ((specs.map (fun sp => occOut sp.out n)).sum = 0
              ∧ n ∈ kw.map Prod.fst) := by
        intro n
        rw [Variable.readable_iff, hAw n, hAv n, hmemkw n]
      have hreadkw : ∀ n, (stA.vars n).readable = true → n ∈ kw.map Prod.fst :=
        fun n hr => ((hreadiff n).mp hr).2
      -- per-spec closure facts
      have hcls2rel : ∀ j, (cls2 j).released = (s.closures j).released := by
        intro j
        obtain ⟨w, hw⟩ := nv1 j
        rw [hw]
      have hcls2args : ∀ j, (cls2 j).args = (s.closures j).args := by
        intro j
        obtain ⟨w, hw⟩ := nv1 j
        rw [hw]
      have hcls2wr : ∀ j, (cls2 j).writeto = (s.closures j).writeto := by
        intro j
        obtain ⟨w, hw⟩ := nv1 j
        rw [hw]
      -- notification counts against bindings
      have hnotifj : ∀ sp ∈ specs, notifCount stA.vars (kw.map Prod.fst) sp.id
          = sp.binds.countP (fun b => (stA.vars b.var).readable) := by
        intro sp hsp
        unfold notifCount
        rw [sum_if_filter]
        have hcong : ((kw.map Prod.fst).filter
              (fun m => (stA.vars m).readable)).map
            (fun n => (stA.vars n).readers.count sp.id)
            = ((kw.map Prod.fst).filter (fun m => (stA.vars m).readable)).map
              (fun n => sp.binds.countP (fun b => b.var = n)) := by
          apply List.map_congr_left
          intro n hn
          rw [hAr n]
          exact w2 n sp hsp
        rw [hcong, sum_countP_eq Binding.var _ (hkwnd.filter _)]
        apply List.countP_congr
        intro b hb
        rw [decide_eq_true_eq, List.mem_filter]
        constructor
        · rintro ⟨h1, h2⟩
          exact h2
        · intro h1
          exact ⟨hreadkw b.var h1, h1⟩
      -- wait balance for each spec
      have hbalance : ∀ sp ∈ specs, (cls2 sp.id).numReadReadyWaits
          + sp.binds.countP (fun b => (stA.vars b.var).readable)
          = sp.binds.length := by
        intro sp hsp
        have := nv2 sp.id
        rw [hnotifj sp hsp, r4 sp hsp] at this
        exact this
      have hwaitfin : ∀ sp ∈ specs, (cls2 sp.id).numReadReadyWaits
          = sp.binds.countP (fun b => !(stA.vars b.var).readable) := by
        intro sp hsp
        have hb := hbalance sp hsp
        have hlen := List.length_eq_countP_add_countP
          (fun b => (stA.vars b.var).readable) sp.binds
        have hcong : sp.binds.countP
            (fun a => decide ¬((stA.vars a.var).readable = true))
            = sp.binds.countP (fun b => !(stA.vars b.var).readable) := by
          apply List.countP_congr
          intro b hb2
          simp
        rw [hcong] at hlen
        omega
      -- the queue before extension
      have hAq : stA.queue = sortClosures s.closures s.satisfied := ha5
      have hsatnd : s.satisfied.Nodup := by
        rw [w4]
        exact hidnd.sublist ((List.filter_sublist specs).map TaskSpec.id)
      have hsortperm : (sortClosures s.closures s.satisfied).Perm s.satisfied :=
        sortClosures_perm _ _
      have hsatspec : ∀ j ∈ s.satisfied, ∃ sp ∈ specs,
          sp.id = j ∧ sp.binds = [] := by
        intro j hj
        rw [w4] at hj
        obtain ⟨sp, hsp, hspid⟩ := List.mem_map.mp hj
        exact ⟨sp, (List.mem_filter.mp hsp).1, hspid, List.length_eq_zero.mp
          (by simpa using (List.mem_filter.mp hsp).2)⟩
      -- batch members received a notification
      have hbatch0R : ∀ j ∈ batch0, j ∈ specs.map TaskSpec.id := by
        intro j hj
        obtain ⟨hc, hz⟩ := (hb1iff j).mp hj
        unfold notifCount at hc
        obtain ⟨n, hn, hpos⟩ := sum_map_pos hc
        by_cases hr : (stA.vars n).readable
        · rw [if_pos hr] at hpos
          have hjrd : j ∈ (stA.vars n).readers := List.count_pos_iff.mp hpos
          rw [hAr n] at hjrd
          exact w3 n j hjrd
        · rw [if_neg hr] at hpos
          omega
      constructor
      case funcsNodup =>
        dsimp only
        rw [ha3]
        exact r2
      case funcsSub =>
        dsimp only
        intro j hj
        rw [ha3, r1] at hj
        exact hj
      case queueNodup =>
        dsimp only
        rw [ha5]
        refine List.nodup_append.mpr ⟨hsortperm.nodup_iff.mpr hsatnd,
          hperm.nodup_iff.mpr hb1nd, ?_⟩
        intro j hjs hjb
        obtain ⟨sp, hsp, hspid, hspbinds⟩ :=
          hsatspec j (hsortperm.mem_iff.mp hjs)
        obtain ⟨hc, hz⟩ := (hb1iff j).mp (hperm.mem_iff.mp hjb)
        rw [← hspid, hnotifj sp hsp, hspbinds] at hc
        simp at hc
      case queueSub =>
        dsimp only
        intro j hj
        rw [ha5] at hj
        rw [ha3, r1]
        rcases List.mem_append.mp hj with hjs | hjb
        · obtain ⟨sp, hsp, hspid, hspbinds⟩ :=
            hsatspec j (hsortperm.mem_iff.mp hjs)
          rw [← hspid]
          exact List.mem_map_of_mem TaskSpec.id hsp
        · exact hbatch0R j (hperm.mem_iff.mp hjb)
      case queueSat =>
        dsimp only
        intro j hj
        rw [ha5] at hj
        rcases List.mem_append.mp hj with hjs | hjb
        · obtain ⟨sp, hsp, hspid, hspbinds⟩ :=
            hsatspec j (hsortperm.mem_iff.mp hjs)
          rw [← hspid, hwaitfin sp hsp, hspbinds]
          rfl
        · exact ((hb1iff j).mp (hperm.mem_iff.mp hjb)).2
      case satInQueue =>
        dsimp only
        intro j hjf hjw
        rw [ha3, r1] at hjf
        obtain ⟨sp, hsp, hspid⟩ := List.mem_map.mp hjf
        subst hspid
        rw [ha5]
        have hbal := hbalance sp hsp
        by_cases hbe : sp.binds = []
        · refine List.mem_append.mpr (Or.inl (hsortperm.mem_iff.mpr ?_))
          rw [w4]
          exact List.mem_map_of_mem TaskSpec.id
            (List.mem_filter.mpr ⟨hsp, by simp [hbe]⟩)
        · have hlp : 0 < sp.binds.length := by
            cases hbl : sp.binds with
            | nil => exact absurd hbl hbe
            | cons b bs => simp [hbl]
          refine List.mem_append.mpr (Or.inr (hperm.mem_iff.mpr
            ((hb1iff sp.id).mpr ⟨?_, hjw⟩)))
          rw [hnotifj sp hsp]
          omega
      case relNR =>
        dsimp only
        intro j hjR
        rw [ha3, r1, hcls2rel j]
        simp [hjR, r5 j]
      case relInv =>
        dsimp only
        intro j hjR
        rw [ha2, invocs_wr_map, hcls2rel j, r5 j]
        simp
      case invNodup =>
        dsimp only
        rw [ha2, invocs_wr_map]
        exact List.nodup_nil
      case invSub =>
        dsimp only
        intro j hj
        rw [ha2, invocs_wr_map] at hj
        cases hj
      case waitsCount =>
        dsimp only
        intro j hjR hrel
        obtain ⟨sp, hsp, hspid⟩ := List.mem_map.mp hjR
        subst hspid
        rw [hcls2args sp.id, r4 sp hsp]
        exact hwaitfin sp hsp
      case readersCnt =>
        dsimp only
        intro n j hjR
        obtain ⟨sp, hsp, hspid⟩ := List.mem_map.mp hjR
        subst hspid
        rw [hAr n, hcls2args sp.id, r4 sp hsp]
        exact w2 n sp hsp
      case readersSub =>
        dsimp only
        intro n j hj
        rw [hAr n] at hj
        exact w3 n j hj
      case releasedReadable =>
        dsimp only
        intro j hjR hrel
        rw [hcls2rel j, r5 j] at hrel
        cases hrel
      case valuesLog =>
        dsimp only
        intro n
        rw [hAv n, ha2, writesTo_wr_map]
      case declBalance =>
        dsimp only
        intro n
        simp only [declaredWrites]
        rw [hAw n, ha2, writesTo_wr_map, List.length_map, count_map_fst,
          List.countP_eq_length_filter]
      case waitsWriters =>
        dsimp only
        intro n
        rw [hAw n]
        simp only [unreleasedDecl, List.map_map]
        have hc : specs.map ((fun j => if (cls2 j).released then 0
              else occOut (cls2 j).writeto n) ∘ TaskSpec.id)
            = specs.map (fun sp => occOut sp.out n) := by
          apply List.map_congr_left
          intro sp hsp
          simp only [Function.comp]
          rw [hcls2rel sp.id, r5 sp.id]
          simp only [Bool.false_eq_true, if_false]
          rw [hcls2wr sp.id, r4 sp hsp]
          rfl
        rw [hc]

end EstablishLemmas

section BootLemmas

/-- Structure extensionality for run states. -/
theorem RunState.ext' {a b : RunState} (h1 : a.funcs = b.funcs)
    (h2 : a.closures = b.closures) (h3 : a.vars = b.vars)
    (h4 : a.names = b.names) (h5 : a.queue = b.queue)
    (h6 : a.events = b.events) : a = b := by
  cases a
  cases b
  dsimp only at h1 h2 h3 h4 h5 h6
  subst h1 h2 h3 h4 h5 h6
  rfl

theorem mem_touch {ns : List String} {m : String} (n : String)
    (h : m ∈ ns) : m ∈ touch ns n := by
  unfold touch
  split
  · exact h
  · exact List.mem_append_left _ h

theorem mem_touch_self (ns : List String) (n : String) : n ∈ touch ns n := by
  unfold touch
  split
  · assumption
  · exact List.mem_append_right _ (List.mem_singleton.mpr rfl)

theorem touch_of_mem {ns : List String} {n : String} (h : n ∈ ns) :
    touch ns n = ns := by
  unfold touch
  rw [if_pos h]

/-- Folding `touch` over names already present changes nothing. -/
theorem foldl_touch_of_mem :
    ∀ (l : List (String × Val)) (ns : List String),
    (∀ p ∈ l, p.1 ∈ ns) →
    l.foldl (fun ns p => touch ns p.1) ns = ns
  | [], ns => by intro h; rfl
  | p :: l, ns => by
    intro h
    rw [List.foldl_cons, touch_of_mem (h p (List.mem_cons_self p l))]
    exact foldl_touch_of_mem l ns (fun q hq => h q (List.mem_cons_of_mem p hq))

/-- Folding `touch` preserves membership. -/
theorem mem_foldl_touch :
    ∀ (l : List (String × Val)) (ns : List String) (m : String),
    m ∈ ns → m ∈ l.foldl (fun ns p => touch ns p.1) ns
  | [], ns, m => fun h => h
  | p :: l, ns, m => by
    intro h
    rw [List.foldl_cons]
    exact mem_foldl_touch l _ m (mem_touch p.1 h)

/-- Every folded key is a member of the result. -/
theorem key_mem_foldl_touch :
    ∀ (l : List (String × Val)) (ns : List String), ∀ p ∈ l,
    p.1 ∈ l.foldl (fun ns p => touch ns p.1) ns
  | [], ns => by intro p h; cases h
  | q :: l, ns => by
    intro p h
    rw [List.foldl_cons]
    rcases List.mem_cons.mp h with he | hm
    · subst he
      exact mem_foldl_touch l _ p.1 (mem_touch_self ns p.1)
    · exact key_mem_foldl_touch l _ p hm

/-- The name-setting pass of `Startup.call` is idempotent: the keyword
names are inserted once; re-touching them in `_write_values` changes
nothing. -/
theorem foldl_touch_idem (l : List (String × Val)) (ns : List String) :
    l.foldl (fun ns p => touch ns p.1)
        (l.foldl (fun ns p => touch ns p.1) ns)
      = l.foldl (fun ns p => touch ns p.1) ns :=
  foldl_touch_of_mem l _ (fun p hp => key_mem_foldl_touch l ns p hp)

/-- `boot.py`'s registration equals `startup.py`'s on specs whose
non-optional parameters are all annotated. -/
theorem bootRegister_eq {s : Startup} {spec : TaskSpec}
    (h : notAnnotatedOf spec = []) :
    Boot.register s spec = Startup.register s spec := by
  unfold Boot.register Startup.register
  rw [h]
  simp

/-- Whole-list registration agrees between the two implementations when
every spec passes the annotation check. -/
theorem bootRegisterFold_eq :
    ∀ {specs : List TaskSpec} (s0 : Startup),
    (∀ sp ∈ specs, notAnnotatedOf sp = []) →
    List.foldlM Boot.register s0 specs = List.foldlM Startup.register s0 specs
  | [], s0 => by intro h; rfl
  | spec :: rest, s0 => by
    intro h
    simp only [List.foldlM]
    rw [bootRegister_eq (h spec (List.mem_cons_self spec rest))]
    cases hr : Startup.register s0 spec with
    | error e => rfl
    | ok s1 =>
      simp only [Bind.bind, Except.bind]
      exact bootRegisterFold_eq s1
        (fun sp hsp => h sp (List.mem_cons_of_mem spec hsp))

theorem bootRegisterAll_eq {specs : List TaskSpec}
    (h : ∀ sp ∈ specs, notAnnotatedOf sp = []) :
    bootRegisterAll specs = registerAll specs :=
  bootRegisterFold_eq Startup.init h

/-- `_write_values` run in lockstep on two states differing only in the
variables' name list: the outcome, the collected names and every other
state component agree, and on success both name lists are the
touch-fold of the keyword names over the respective initial lists. -/
theorem writeValuesAux_lockstep :
    ∀ {kw : List (String × Val)} {acc : List String} {st st' : RunState},
    st'.funcs = st.funcs → st'.closures = st.closures → st'.vars = st.vars →
    st'.queue = st.queue → st'.events = st.events →
    ∀ {s1 s2 : RunState} {a1 a2 : List String} {r1 r2 : Except Err Unit},
    writeValuesAux st kw acc = ((s1, a1), r1) →
    writeValuesAux st' kw acc = ((s2, a2), r2) →
    r2 = r1 ∧ a2 = a1 ∧ s2.funcs = s1.funcs ∧ s2.closures = s1.closures ∧
    s2.vars = s1.vars ∧ s2.queue = s1.queue ∧ s2.events = s1.events ∧
    (r1 = .ok () →
      s1.names = kw.foldl (fun ns p => touch ns p.1) st.names ∧
      s2.names = kw.foldl (fun ns p => touch ns p.1) st'.names)
  | [], acc, st, st' => by
    intro hf hc hv hq he s1 s2 a1 a2 r1 r2 h1 h2
    unfold writeValuesAux at h1 h2
    injection h1 with h1 h1r
    injection h1 with h1 h1a
    injection h2 with h2 h2r
    injection h2 with h2 h2a
    subst h1 h1a h1r h2 h2a h2r
    exact ⟨rfl, rfl, hf.symm ▸ rfl, hc.symm ▸ rfl, hv.symm ▸ rfl,
      hq.symm ▸ rfl, he.symm ▸ rfl, fun _ => ⟨rfl, rfl⟩⟩
  | (n, v) :: kw, acc, st, st' => by
    intro hf hc hv hq he s1 s2 a1 a2 r1 r2 h1 h2
    unfold writeValuesAux at h1 h2
    dsimp only at h1 h2
    rw [upd_same] at h1 h2
    rw [hv] at h2
    cases hw : ((st.vars n).notifyWillWrite).write v with
    | error e =>
      rw [hw] at h1 h2
      injection h1 with h1 h1r
      injection h1 with h1 h1a
      injection h2 with h2 h2r
      injection h2 with h2 h2a
      subst h1 h1a h1r h2 h2a h2r
      refine ⟨rfl, rfl, hf, hc, rfl, hq, he, ?_⟩
      intro hok
      cases hok
    | ok var2 =>
      rw [hw] at h1 h2
      obtain ⟨g1, g2, g3, g4, g5, g6, g7, g8⟩ :=
        writeValuesAux_lockstep (by exact hf) (by exact hc) (by rfl)
          (by exact hq) (by rw [he]) h1 h2
      refine ⟨g1, g2, g3, g4, g5, g6, g7, ?_⟩
      intro hok
      obtain ⟨n1, n2⟩ := g8 hok
      exact ⟨n1, n2⟩
  
/-- `_write_values` followed by its notification pass, in lockstep. -/
theorem writeValues_lockstep {kw : List (String × Val)} {st st' : RunState}
    (hf : st'.funcs = st.funcs) (hc : st'.closures = st.closures)
    (hv : st'.vars = st.vars) (hq : st'.queue = st.queue)
    (he : st'.events = st.events)
    {s1 s2 : RunState} {r1 r2 : Except Err (List Nat)}
    (h1 : writeValues st kw = (s1, r1)) (h2 : writeValues st' kw = (s2, r2)) :
    r2 = r1 ∧ s2.funcs = s1.funcs ∧ s2.closures = s1.closures ∧
    s2.vars = s1.vars ∧ s2.queue = s1.queue ∧ s2.events = s1.events ∧
    ((∃ batch, r1 = .ok batch) →
      s1.names = kw.foldl (fun ns p => touch ns p.1) st.names ∧
      s2.names = kw.foldl (fun ns p => touch ns p.1) st'.names) := by
  unfold writeValues at h1 h2
  revert h1 h2
  cases hwa1 : writeValuesAux st kw [] with
  | mk p1 q1 =>
    obtain ⟨stA, acc1⟩ := p1
    cases hwa2 : writeValuesAux st' kw [] with
    | mk p2 q2 =>
      obtain ⟨stB, acc2⟩ := p2
      intro h1 h2
      obtain ⟨g1, g2, g3, g4, g5, g6, g7, g8⟩ :=
        writeValuesAux_lockstep hf hc hv hq he hwa1 hwa2
      rw [g1, g2] at h2
      cases q1 with
      | error e =>
        dsimp only at h1 h2
        injection h1 with h1 h1r
        injection h2 with h2 h2r
        subst h1 h2 h1r h2r
        refine ⟨rfl, g3, g4, g5, g6, g7, ?_⟩
        rintro ⟨batch, hb⟩
        cases hb
      | ok u =>
        cases u
        dsimp only at h1 h2
        obtain ⟨n1, n2⟩ := g8 rfl
        revert h1 h2
        unfold notifyReaders
        rw [g4, g5]
        cases hnv : notifyVars stA.closures stA.vars acc1 [] with
        | mk pn rn =>
          obtain ⟨clsn, batchn⟩ := pn
          cases rn with
          | error e =>
            intro h1 h2
            injection h1 with h1 h1r
            injection h2 with h2 h2r
            subst h1 h2 h1r h2r
            refine ⟨rfl, g3, rfl, rfl, g6, g7, ?_⟩
            rintro ⟨batch, hb⟩
            cases hb
          | ok u =>
            cases u
            intro h1 h2
            injection h1 with h1 h1r
            injection h2 with h2 h2r
            subst h1 h2 h1r h2r
            exact ⟨rfl, g3, rfl, rfl, g6, g7, fun _ => ⟨n1, n2⟩⟩

end BootLemmas

section C1Lemmas

theorem Variable.readable_congr {v1 v2 : Variable}
    (hw : v2.numWriteWaits = v1.numWriteWaits) (hv : v2.values = v1.values) :
    v2.readable = v1.readable := by
  unfold Variable.readable
  rw [hw, hv]

theorem Variable.readLatest_congr {v1 v2 : Variable}
    (hw : v2.numWriteWaits = v1.numWriteWaits) (hv : v2.values = v1.values) :
    v2.readLatest = v1.readLatest := by
  unfold Variable.readLatest
  rw [Variable.readable_congr hw hv, hv]

theorem Variable.readAll_congr {v1 v2 : Variable}
    (hw : v2.numWriteWaits = v1.numWriteWaits) (hv : v2.values = v1.values) :
    v2.readAll = v1.readAll := by
  unfold Variable.readAll
  rw [Variable.readable_congr hw hv, hv]

/-- Argument reading sees only wait counts and value histories, so it
agrees across related variable tables. -/
theorem readArgs_congr {v1 v2 : String → Variable} (hv : VarsRel v1 v2) :
    ∀ args : List Binding, readArgs v2 args = readArgs v1 args
  | [] => rfl
  | b :: bs => by
    unfold readArgs
    rw [Variable.readLatest_congr (hv b.var).1 (hv b.var).2.1,
      Variable.readAll_congr (hv b.var).1 (hv b.var).2.1,
      readArgs_congr hv bs]

/-- `Variable.write` on related variables: both fail, or both succeed
with results related in the same way. -/
theorem Variable.write_congr {v1 v2 : Variable}
    (hw : v2.numWriteWaits = v1.numWriteWaits) (x : Val) :
    (v1.numWriteWaits = 0 ∧ v1.write x = .error .assertFail ∧
      v2.write x = .error .assertFail) ∨
    (∃ var1 var2, v1.write x = .ok var1 ∧ v2.write x = .ok var2 ∧
      var2.numWriteWaits = var1.numWriteWaits ∧
      var1.values = v1.values ++ [x] ∧ var2.values = v2.values ++ [x] ∧
      var1.readers = v1.readers ∧ var2.readers = v2.readers) := by
  unfold Variable.write
  by_cases h0 : v1.numWriteWaits = 0
  · left
    rw [if_pos h0, if_pos (hw.trans h0)]
    exact ⟨h0, rfl, rfl⟩
  · right
    rw [if_neg h0, if_neg (fun hc => h0 (hw ▸ hc))]
    exact ⟨_, _, rfl, rfl, by dsimp only; omega, rfl, rfl, rfl, rfl⟩

/-- The write sequence of `Closure.call` in lockstep across related
states: outcomes agree and the resulting variable tables and event logs
are again related. -/
theorem writeSeq_congr :
    ∀ {l : List (String × Val)} {s1 s2 s1' s2' : RunState}
      {r1 r2 : Except Err Unit},
    VarsRel s1.vars s2.vars → s2.events = s1.events →
    writeSeq s1 l = (s1', r1) → writeSeq s2 l = (s2', r2) →
    r2 = r1 ∧ VarsRel s1'.vars s2'.vars ∧ s2'.events = s1'.events
  | [], s1, s2, s1', s2', r1, r2 => by
    intro hv he h1 h2
    unfold writeSeq at h1 h2
    injection h1 with h1a h1b
    injection h2 with h2a h2b
    subst h1a h1b h2a h2b
    exact ⟨rfl, hv, he⟩
  | (n, x) :: l, s1, s2, s1', s2', r1, r2 => by
    intro hv he h1 h2
    unfold writeSeq at h1 h2
    rcases Variable.write_congr (hv n).1 x with
      ⟨h0, hw1, hw2⟩ | ⟨var1, var2, hw1, hw2, gw, gv1, gv2, gr1, gr2⟩
    · rw [hw1] at h1
      rw [hw2] at h2
      injection h1 with h1a h1b
      injection h2 with h2a h2b
      subst h1a h1b h2a h2b
      exact ⟨rfl, hv, he⟩
    · rw [hw1] at h1
      rw [hw2] at h2
      refine writeSeq_congr ?_ ?_ h1 h2
      · intro m
        dsimp only
        by_cases hm : m = n
        · subst hm
          rw [upd_same, upd_same, gw, gv1, gv2, gr1, gr2]
          exact ⟨rfl, by rw [(hv m).2.1], (hv m).2.2⟩
        · rw [upd_other _ _ _ _ hm, upd_other _ _ _ _ hm]
          exact hv m
      · dsimp only
        rw [he]

/-- The output-writing branch of `Closure.call` in lockstep. -/
theorem writeOuts_congr {w : WriteSpec} {x : Val} {s1 s2 s1' s2' : RunState}
    {r1 r2 : Except Err (List String)}
    (hv : VarsRel s1.vars s2.vars) (he : s2.events = s1.events)
    (h1 : writeOuts s1 w x = (s1', r1)) (h2 : writeOuts s2 w x = (s2', r2)) :
    r2 = r1 ∧ VarsRel s1'.vars s2'.vars ∧ s2'.events = s1'.events ∧
    s1'.closures = s1.closures ∧ s2'.closures = s2.closures ∧
    s1'.funcs = s1.funcs ∧ s2'.funcs = s2.funcs ∧
    s1'.queue = s1.queue ∧ s2'.queue = s2.queue ∧
    s1'.names = s1.names ∧ s2'.names = s2.names := by
  cases w with
  | none =>
    unfold writeOuts at h1 h2
    injection h1 with h1a h1b
    injection h2 with h2a h2b
    subst h1a h1b h2a h2b
    exact ⟨rfl, hv, he, rfl, rfl, rfl, rfl, rfl, rfl, rfl, rfl⟩
  | one n =>
    unfold writeOuts at h1 h2
    dsimp only at h1 h2
    rcases Variable.write_congr (hv n).1 x with
      ⟨h0, hw1, hw2⟩ | ⟨var1, var2, hw1, hw2, gw, gv1, gv2, gr1, gr2⟩
    · rw [hw1] at h1
      rw [hw2] at h2
      injection h1 with h1a h1b
      injection h2 with h2a h2b
      subst h1a h1b h2a h2b
      exact ⟨rfl, hv, he, rfl, rfl, rfl, rfl, rfl, rfl, rfl, rfl⟩
    · rw [hw1] at h1
      rw [hw2] at h2
      injection h1 with h1a h1b
      injection h2 with h2a h2b
      subst h1a h1b h2a h2b
      refine ⟨rfl, ?_, by dsimp only; rw [he], rfl, rfl, rfl, rfl, rfl,
        rfl, rfl, rfl⟩
      intro m
      dsimp only
      by_cases hm : m = n
      · subst hm
        rw [upd_same, upd_same, gw, gv1, gv2, gr1, gr2]
        exact ⟨rfl, by rw [(hv m).2.1], (hv m).2.2⟩
      · rw [upd_other _ _ _ _ hm, upd_other _ _ _ _ hm]
        exact hv m
  | many ns =>
    unfold writeOuts at h1 h2
    cases x with
    | nat m =>
      injection h1 with h1a h1b
      injection h2 with h2a h2b
      subst h1a h1b h2a h2b
      exact ⟨rfl, hv, he, rfl, rfl, rfl, rfl, rfl, rfl, rfl, rfl⟩
    | list outs =>
      dsimp only at h1 h2
      revert h1 h2
      cases hs1 : writeSeq s1 (ns.zip outs) with
      | mk t1 q1 =>
        cases hs2 : writeSeq s2 (ns.zip outs) with
        | mk t2 q2 =>
          obtain ⟨g1, g2, g3⟩ := writeSeq_congr hv he hs1 hs2
          obtain ⟨a1, a2, a3, a4, _⟩ := writeSeq_any hs1
          obtain ⟨b1, b2, b3, b4, _⟩ := writeSeq_any hs2
          subst g1
          cases q2 with
          | error e =>
            intro h1 h2
            injection h1 with h1a h1b
            injection h2 with h2a h2b
            subst h1a h1b h2a h2b
            exact ⟨rfl, g2, g3, a2, b2, a1, b1, a4, b4, a3, b3⟩
          | ok u =>
            cases u
            intro h1 h2
            injection h1 with h1a h1b
            injection h2 with h2a h2b
            subst h1a h1b h2a h2b
            exact ⟨rfl, g2, g3, a2, b2, a1, b1, a4, b4, a3, b3⟩

/-- `Closure.call` in lockstep across related states: identical
outcome, related variable tables, identical event logs, and equal
closure stores. -/
theorem closureCall_congr {id : Nat} {s1 s2 s1' s2' : RunState}
    {r1 r2 : Except Err (List String)}
    (hcls : s2.closures = s1.closures) (hv : VarsRel s1.vars s2.vars)
    (he : s2.events = s1.events)
    (h1 : closureCall s1 id = (s1', r1)) (h2 : closureCall s2 id = (s2', r2)) :
    r2 = r1 ∧ VarsRel s1'.vars s2'.vars ∧ s2'.events = s1'.events ∧
    s2'.closures = s1'.closures := by
  unfold closureCall at h1 h2
  dsimp only at h1 h2
  rw [hcls] at h2
  split at h1
  · next hrel =>
    rw [if_pos hrel] at h2
    injection h1 with h1a h1b
    injection h2 with h2a h2b
    subst h1a h1b h2a h2b
    exact ⟨rfl, hv, he, hcls⟩
  · next hrel =>
    rw [if_neg hrel] at h2
    split at h1
    · next hwait =>
      rw [if_pos hwait] at h2
      injection h1 with h1a h1b
      injection h2 with h2a h2b
      subst h1a h1b h2a h2b
      exact ⟨rfl, hv, he, hcls⟩
    · next hwait =>
      rw [if_neg hwait] at h2
      rw [readArgs_congr hv] at h2
      revert h1 h2
      cases hra : readArgs s1.vars (s1.closures id).args with
      | error e =>
        intro h1 h2
        injection h1 with h1a h1b
        injection h2 with h2a h2b
        subst h1a h1b h2a h2b
        exact ⟨rfl, hv, he, hcls⟩
      | ok vals =>
        dsimp only
        cases hwo1 : writeOuts { s1 with events := s1.events ++ [Event.inv id vals] }
            (s1.closures id).writeto ((s1.closures id).body vals) with
        | mk t1 q1 =>
          cases hwo2 : writeOuts
              { funcs := s2.funcs, closures := s1.closures, vars := s2.vars,
                names := s2.names, queue := s2.queue,
                events := s2.events ++ [Event.inv id vals] }
              (s1.closures id).writeto ((s1.closures id).body vals) with
          | mk t2 q2 =>
            intro h1 h2
            obtain ⟨g1, g2, g3, g4, g5, _⟩ :=
              writeOuts_congr (by exact hv) (by dsimp only; rw [he]) hwo1 hwo2
            subst g1
            cases q2 with
            | error e =>
              injection h1 with h1a h1b
              injection h2 with h2a h2b
              subst h1a h1b h2a h2b
              refine ⟨rfl, g2, g3, ?_⟩
              rw [g4, g5]
            | ok written =>
              injection h1 with h1a h1b
              injection h2 with h2a h2b
              subst h1a h1b h2a h2b
              refine ⟨rfl, g2, by dsimp only; rw [g3], ?_⟩
              dsimp only
              rw [g4, g5]

/-- A reader-notification pass succeeds whenever every reader is
unreleased and no wait count would underflow — conditions that depend
only on the multiset of readers. -/
theorem notifyFold_ok_of :
    ∀ (cls : Nat → Closure) (rs acc : List Nat),
    (∀ j ∈ rs, (cls j).released = false) →
    (∀ j, rs.count j ≤ (cls j).numReadReadyWaits) →
    ∃ cls' acc', notifyFold cls rs acc = ((cls', acc'), .ok ())
  | cls, [], acc => fun _ _ => ⟨cls, acc, rfl⟩
  | cls, r :: rest, acc => by
    intro hrel hcnt
    unfold notifyFold
    dsimp only
    rw [if_neg (by rw [hrel r (List.mem_cons_self r rest)]; simp)]
    have hw : (cls r).numReadReadyWaits ≠ 0 := by
      have := hcnt r
      rw [List.count_cons_self] at this
      omega
    rw [if_neg hw]
    apply notifyFold_ok_of
    · intro j hj
      by_cases hjr : j = r
      · subst hjr
        rw [upd_same]
        exact hrel j (List.mem_cons_self j rest)
      · rw [upd_other _ _ _ _ hjr]
        exact hrel j (List.mem_cons_of_mem r hj)
    · intro j
      by_cases hjr : j = r
      · subst hjr
        rw [upd_same]
        have := hcnt j
        rw [List.count_cons_self] at this
        dsimp only
        omega
      · rw [upd_other _ _ _ _ hjr]
        have := hcnt j
        rw [List.count_cons_of_ne hjr] at this
        exact this

/-- A successful reader-notification pass transfers to any permutation
of the reader list and of the accumulator: the resulting closure store
is identical and the collected batch a permutation. -/
theorem notifyFold_perm {cls : Nat → Closure} {rs rs' acc acc' : List Nat}
    {cls1 : Nat → Closure} {b1 : List Nat}
    (hperm : rs'.Perm rs) (haccp : acc'.Perm acc)
    (h : notifyFold cls rs acc = ((cls1, b1), .ok ())) :
    ∃ cls2 b2, notifyFold cls rs' acc' = ((cls2, b2), .ok ()) ∧
      cls2 = cls1 ∧ b2.Perm b1 := by
  obtain ⟨c1, c2, c3, batch, hbatch, hbnd, hbiff⟩ := notifyFold_ok_spec h
  obtain ⟨cls2, b2, h2⟩ := notifyFold_ok_of cls rs' acc'
    (fun j hj => c3 j (hperm.mem_iff.mp hj))
    (fun j => by
      rw [hperm.count_eq j]
      have := c2 j
      omega)
  obtain ⟨d1, d2, d3, batch2, hbatch2, hbnd2, hbiff2⟩ := notifyFold_ok_spec h2
  have hclseq : cls2 = cls1 := by
    funext j
    obtain ⟨w1, hw1⟩ := c1 j
    obtain ⟨w2, hw2⟩ := d1 j
    have e1 := c2 j
    have e2 := d2 j
    rw [hperm.count_eq j] at e2
    rw [hw1] at e1
    rw [hw2] at e2
    dsimp only at e1 e2
    rw [hw1, hw2]
    have : w2 = w1 := by omega
    rw [this]
  have hbp : batch2.Perm batch := by
    rw [List.perm_ext_iff_of_nodup hbnd2 hbnd]
    intro j
    rw [hbiff j, hbiff2 j, hperm.count_eq j, hclseq]
  subst hbatch hbatch2
  exact ⟨cls2, acc' ++ batch2, h2, hclseq, haccp.append hbp⟩

/-- `_notify_reader_writes`' inner loop over the same written names, on
related variable tables and an accumulator permutation: success
transfers, the closure stores agree and the batches are permutations. -/
theorem notifyVars_congr :
    ∀ {ws : List String} {cls : Nat → Closure} {v1 v2 : String → Variable}
      {acc acc2 : List Nat} {cls1' : Nat → Closure} {b1 : List Nat},
    VarsRel v1 v2 → acc2.Perm acc →
    notifyVars cls v1 ws acc = ((cls1', b1), .ok ()) →
    ∃ cls2' b2, notifyVars cls v2 ws acc2 = ((cls2', b2), .ok ()) ∧
      cls2' = cls1' ∧ b2.Perm b1
  | [], cls, v1, v2, acc, acc2, cls1', b1 => by
    intro hv haccp h
    unfold notifyVars at h ⊢
    injection h with h1 h2
    injection h1 with h1a h1b
    subst h1a h1b
    exact ⟨cls, acc2, rfl, rfl, haccp⟩
  | n :: rest, cls, v1, v2, acc, acc2, cls1', b1 => by
    intro hv haccp h
    unfold notifyVars at h ⊢
    rw [Variable.readable_congr (hv n).1 (hv n).2.1]
    revert h
    split
    · next hread =>
      cases hnf : notifyFold cls (v1 n).readers acc with
      | mk p r =>
        obtain ⟨clsA, accA⟩ := p
        cases r with
        | error e => intro h; simp at h
        | ok u =>
          cases u
          intro h
          dsimp only at h
          obtain ⟨clsB, accB, hnf2, hclseq, haccp2⟩ :=
            notifyFold_perm ((hv n).2.2) haccp hnf
          rw [hnf2]
          dsimp only
          rw [hclseq]
          exact notifyVars_congr hv haccp2 h
    · next hread =>
      intro h
      exact notifyVars_congr hv haccp h

/-- `_notify_reader_writes` in lockstep: on related states and with
injective tie-break keys over the satisfied batch, the second run
returns the very same (sorted) batch and the same closure store. -/
theorem notifyReaders_congr {s1 s2 : RunState} {written : List String}
    (hcls : s2.closures = s1.closures) (hv : VarsRel s1.vars s2.vars)
    {s1' : RunState} {b1 : List Nat}
    (h : notifyReaders s1 written = (s1', .ok b1))
    (hinj : ∀ a ∈ b1, ∀ b ∈ b1, (s1.closures a).key = (s1.closures b).key →
      a = b) :
    ∃ s2', notifyReaders s2 written = (s2', .ok b1) ∧
      s2' = { s2 with closures := s1'.closures } ∧
      s1' = { s1 with closures := s1'.closures } := by
  obtain ⟨cls1', batch01, hnv1, hst1, hbs1, hperm1⟩ := notifyReaders_ok_spec h
  obtain ⟨cls2', batch02, hnv2, hclseq, hbp⟩ :=
    notifyVars_congr hv (List.Perm.refl []) hnv1
  rw [← hcls] at hnv2
  obtain ⟨e1, _, _, _⟩ := notifyVars_ok_spec hnv1
  have hkey : ∀ j, (cls1' j).key = (s1.closures j).key := by
    intro j
    obtain ⟨w, hw⟩ := e1 j
    rw [hw]
  have hsorteq : sortClosures cls1' batch02 = sortClosures cls1' batch01 := by
    apply sortClosures_eq_of_perm hbp
    intro a ha b hb hk
    have ha1 : a ∈ b1 := by
      rw [hbs1]
      exact (sortClosures_perm cls1' batch01).mem_iff.mpr (hbp.mem_iff.mp ha)
    have hb1m : b ∈ b1 := by
      rw [hbs1]
      exact (sortClosures_perm cls1' batch01).mem_iff.mpr (hbp.mem_iff.mp hb)
    apply hinj a ha1 b hb1m
    rw [← hkey a, ← hkey b]
    exact hk
  refine ⟨{ s2 with closures := cls2' }, ?_, ?_, ?_⟩
  · unfold notifyReaders
    rw [hnv2]
    dsimp only
    rw [hclseq, hsorteq, ← hbs1]
  · rw [hst1]
    dsimp only
    rw [hclseq]
  · rw [hst1]

/-- One loop iteration in lockstep: a successful step of the first run
transfers to the related second run, producing related states.  Requires
the master invariant (to place the satisfied batch among the registered
ids) and injective tie-break keys over the registered ids. -/
theorem stepOnce_congr {R : List Nat} {D : String → Nat}
    {s1 s2 s1' : RunState} (hR : R.Nodup) (hrel : SRel s1 s2)
    (inv : InvB R D s1)
    (hinj : ∀ a ∈ R, ∀ b ∈ R, (s1.closures a).key = (s1.closures b).key →
      a = b)
    (h : stepOnce s1 = (s1', .ok ())) :
    ∃ s2', stepOnce s2 = (s2', .ok ()) ∧ SRel s1' s2' := by
  have inv' := stepOnce_InvB hR h inv
  unfold stepOnce at h ⊢
  rw [hrel.queue]
  revert h
  cases hq : s1.queue with
  | nil =>
    intro h
    injection h with h1 h2
    subst h1
    exact ⟨s2, rfl, hrel⟩
  | cons id rest =>
    dsimp only
    cases hcc : closureCall { s1 with queue := rest } id with
    | mk t1 r1 =>
      intro h
      cases r1 with
      | error e => simp at h
      | ok written =>
        dsimp only at h
        cases hcc2 : closureCall { s2 with queue := rest } id with
        | mk t2 r2 =>
          obtain ⟨g1, g2, g3, g4⟩ := closureCall_congr
            (by exact hrel.closures) (by exact hrel.vars)
            (by exact hrel.events) hcc hcc2
          subst g1
          obtain ⟨o1a, o1b, o1c, o1d, o1e, o1f⟩ := closureCall_ok_shape hcc
          obtain ⟨o2a, o2b, o2c, o2d, o2e, o2f⟩ := closureCall_ok_shape hcc2
          dsimp only at o1a o1b o1c o1f o2a o2b o2c o2f
          split at h
          · next hmem =>
            have hmem2 : id ∈ t2.funcs := by
              rw [o2a]
              rw [o1a] at hmem
              exact (hrel.funcs.mem_iff).mpr hmem
            dsimp only
            rw [if_pos hmem2]
            revert h
            cases hnr : notifyReaders { t1 with funcs := t1.funcs.erase id }
                written with
            | mk t3 r3 =>
              intro h
              cases r3 with
              | error e => simp at h
              | ok batch =>
                injection h with h1 h2
                subst h1
                -- batch members are registered
                have hbR : ∀ a ∈ batch, a ∈ R := by
                  intro a ha
                  apply inv'.funcsSub
                  apply inv'.queueSub
                  dsimp only
                  obtain ⟨cb, bb, hnvb, hst3b, hbsb, hpermb⟩ :=
                    notifyReaders_ok_spec hnr
                  rw [hst3b]
                  dsimp only
                  rw [o1c]
                  exact List.mem_append.mpr (Or.inr ha)
                -- keys of the post-call store match the original
                have hkeys : ∀ a, (t1.closures a).key = (s1.closures a).key := by
                  intro a
                  rw [o1f]
                  by_cases hai : a = id
                  · subst hai
                    rw [upd_same]
                  · rw [upd_other _ _ _ _ hai]
                obtain ⟨t4, hnr2, ht4, ht3⟩ := notifyReaders_congr
                  (show ({ t2 with funcs := t2.funcs.erase id } : RunState).closures
                      = ({ t1 with funcs := t1.funcs.erase id } : RunState).closures
                    from g4)
                  (show VarsRel
                      ({ t1 with funcs := t1.funcs.erase id } : RunState).vars
                      ({ t2 with funcs := t2.funcs.erase id } : RunState).vars
                    from g2) hnr
                  (by
                    intro a ha b hb hk
                    exact hinj a (hbR a ha) b (hbR b hb)
                      (by rw [← hkeys a, ← hkeys b]; exact hk))
                rw [hnr2]
                refine ⟨_, rfl, ?_⟩
                rw [ht4, ht3]
                refine ⟨?_, ?_, ?_, ?_, ?_, ?_⟩
                · dsimp only
                  rw [o1a, o2a]
                  exact (hrel.funcs.erase id)
                · rfl
                · dsimp only
                  exact g2
                · dsimp only
                  rw [o1b, o2b]
                  exact hrel.names
                · dsimp only
                  rw [o1c, o2c]
                · dsimp only
                  exact g3
          · next hmem => simp at h

/-- Folding addition of a tally over a list is the sum of its image. -/
theorem foldl_add_sum (f : String → Nat) :
    ∀ (ns : List String) (acc : Nat),
    ns.foldl (fun a n => a + f n) acc = acc + (ns.map f).sum
  | [], acc => by simp
  | n :: ns, acc => by
    rw [List.foldl_cons, foldl_add_sum f ns (acc + f n), List.map_cons,
      List.sum_cons]
    omega

/-- The fuel bound agrees across related states. -/
theorem fuelOf_congr {s1 s2 : RunState} (hrel : SRel s1 s2) :
    fuelOf s2 = fuelOf s1 := by
  unfold fuelOf
  rw [hrel.queue, hrel.funcs.length_eq,
    foldl_add_sum (fun n => (s2.vars n).readers.length) s2.names 0,
    foldl_add_sum (fun n => (s1.vars n).readers.length) s1.names 0]
  have hmap : s2.names.map (fun n => (s2.vars n).readers.length)
      = s2.names.map (fun n => (s1.vars n).readers.length) :=
    List.map_congr_left (fun n _ => ((hrel.vars n).2.2).length_eq)
  rw [hmap, (hrel.names.map (fun n => (s1.vars n).readers.length)).sum_eq]

/-- The scheduling loop in lockstep: a normally terminating loop of the
first run transfers, with the same fuel, to the related second run. -/
theorem loop_congr {R : List Nat} {D : String → Nat} (hR : R.Nodup) :
    ∀ {fuel : Nat} {s1 s2 s1' : RunState}, SRel s1 s2 → InvB R D s1 →
    (∀ a ∈ R, ∀ b ∈ R, (s1.closures a).key = (s1.closures b).key → a = b) →
    loop fuel s1 = (s1', .ok ()) →
    ∃ s2', loop fuel s2 = (s2', .ok ()) ∧ SRel s1' s2'
  | 0, s1, s2, s1' => by
    intro hrel inv hinj h
    unfold loop at h ⊢
    rw [hrel.queue]
    revert h
    cases hq : s1.queue with
    | nil =>
      intro h
      injection h with h1 h2
      subst h1
      exact ⟨s2, rfl, hrel⟩
    | cons id rest => intro h; simp at h
  | Nat.succ n, s1, s2, s1' => by
    intro hrel inv hinj h
    unfold loop at h ⊢
    rw [hrel.queue]
    revert h
    cases hq : s1.queue with
    | nil =>
      intro h
      injection h with h1 h2
      subst h1
      exact ⟨s2, rfl, hrel⟩
    | cons id rest =>
      dsimp only
      cases hstep : stepOnce s1 with
      | mk t1 r1 =>
        intro h
        cases r1 with
        | error e => simp at h
        | ok u =>
          cases u
          obtain ⟨t2, hstep2, hrel2⟩ := stepOnce_congr hR hrel inv hinj hstep
          rw [hstep2]
          exact loop_congr hR hrel2 (stepOnce_InvB hR hstep inv)
            (fun a ha b hb hk => hinj a ha b hb
              (by rw [← (stepOnce_closure_static hstep a).2.2,
                ← (stepOnce_closure_static hstep b).2.2]; exact hk)) h

theorem touch_perm {ns1 ns2 : List String} (hp : ns2.Perm ns1)
    (n : String) : (touch ns2 n).Perm (touch ns1 n) := by
  unfold touch
  by_cases hm : n ∈ ns1
  · rw [if_pos hm, if_pos (hp.mem_iff.mpr hm)]
    exact hp
  · rw [if_neg hm, if_neg (fun hc => hm (hp.mem_iff.mp hc))]
    exact hp.append (List.Perm.refl [n])

/-- The `_write_values` pass in lockstep across related states. -/
theorem writeValuesAux_congr :
    ∀ {kw : List (String × Val)} {acc : List String} {s1 s2 : RunState},
    VarsRel s1.vars s2.vars → s2.events = s1.events → s2.names.Perm s1.names →
    ∀ {s1' s2' : RunState} {acc1 acc2 : List String} {r1 r2 : Except Err Unit},
    writeValuesAux s1 kw acc = ((s1', acc1), r1) →
    writeValuesAux s2 kw acc = ((s2', acc2), r2) →
    r2 = r1 ∧ acc2 = acc1 ∧ VarsRel s1'.vars s2'.vars ∧
    s2'.events = s1'.events ∧ s2'.names.Perm s1'.names
  | [], acc, s1, s2 => by
    intro hv he hn s1' s2' acc1 acc2 r1 r2 h1 h2
    unfold writeValuesAux at h1 h2
    injection h1 with h1 h1r
    injection h1 with h1 h1a
    injection h2 with h2 h2r
    injection h2 with h2 h2a
    subst h1 h1a h1r h2 h2a h2r
    exact ⟨rfl, rfl, hv, he, hn⟩
  | (n, v) :: kw, acc, s1, s2 => by
    intro hv he hn s1' s2' acc1 acc2 r1 r2 h1 h2
    unfold writeValuesAux at h1 h2
    dsimp only at h1 h2
    rw [upd_same] at h1 h2
    rcases Variable.write_congr
      (show ((s2.vars n).notifyWillWrite).numWriteWaits
          = ((s1.vars n).notifyWillWrite).numWriteWaits by
        unfold Variable.notifyWillWrite; dsimp only; rw [(hv n).1]) v with
      ⟨h0, hw1, hw2⟩ | ⟨var1, var2, hw1, hw2, gw, gv1, gv2, gr1, gr2⟩
    · rw [hw1] at h1
      rw [hw2] at h2
      injection h1 with h1 h1r
      injection h1 with h1 h1a
      injection h2 with h2 h2r
      injection h2 with h2 h2a
      subst h1 h1a h1r h2 h2a h2r
      refine ⟨rfl, rfl, ?_, he, touch_perm hn n⟩
      intro m
      dsimp only
      by_cases hm : m = n
      · subst hm
        rw [upd_same, upd_same]
        unfold Variable.notifyWillWrite
        dsimp only
        exact ⟨by rw [(hv m).1], (hv m).2.1, (hv m).2.2⟩
      · rw [upd_other _ _ _ _ hm, upd_other _ _ _ _ hm]
        exact hv m
    · rw [hw1] at h1
      rw [hw2] at h2
      refine writeValuesAux_congr ?_ ?_ ?_ h1 h2
      · intro m
        dsimp only
        by_cases hm : m = n
        · subst hm
          rw [upd_same, upd_same, gw, gv1, gv2, gr1, gr2]
          unfold Variable.notifyWillWrite
          dsimp only
          exact ⟨rfl, by rw [(hv m).2.1], (hv m).2.2⟩
        · rw [upd_other _ _ _ _ hm, upd_other _ _ _ _ hm,
            upd_other _ _ _ _ hm, upd_other _ _ _ _ hm]
          exact hv m
      · dsimp only
        rw [he]
      · dsimp only
        exact touch_perm hn n

/-- The keyword-seeding phase (`_write_values` plus notification) in
lockstep: success of the first run transfers to the related second run
with the very same satisfied batch. -/
theorem writeValues_congr (R : List Nat) {kw : List (String × Val)}
    {s1 s2 : RunState} (hrel : SRel s1 s2)
    (hrsub : ∀ n j, j ∈ (s1.vars n).readers → j ∈ R)
    (hinj : ∀ a ∈ R, ∀ b ∈ R, (s1.closures a).key = (s1.closures b).key →
      a = b)
    {t1 : RunState} {batch : List Nat}
    (h : writeValues s1 kw = (t1, .ok batch)) :
    ∃ t2, writeValues s2 kw = (t2, .ok batch) ∧ SRel t1 t2 := by
  unfold writeValues at h ⊢
  revert h
  cases hwa1 : writeValuesAux s1 kw [] with
  | mk p1 q1 =>
    obtain ⟨stA, acc1⟩ := p1
    cases q1 with
    | error e => intro h; simp at h
    | ok u =>
      cases u
      intro h
      cases hwa2 : writeValuesAux s2 kw [] with
      | mk p2 q2 =>
        obtain ⟨stB, acc2⟩ := p2
        obtain ⟨g1, g2, g3, g4, g5⟩ := writeValuesAux_congr
          (by exact hrel.vars) (by exact hrel.events) (by exact hrel.names)
          hwa1 hwa2
        subst g1 g2
        obtain ⟨a1, a2, a3, _⟩ := writeValuesAux_any hwa1
        obtain ⟨b1, b2, b3, _⟩ := writeValuesAux_any hwa2
        obtain ⟨f1, f2, f3, f4, f5, f6⟩ := writeValuesAux_ok_full hwa1
        -- batch members are readers, hence registered
        have hbmem : ∀ j ∈ batch, j ∈ R := by
          intro j hj
          obtain ⟨cls', batch0, hnv, hst, hbs, hperm⟩ :=
            notifyReaders_ok_spec h
          obtain ⟨nv1, nv2, nv3, batchx, hbx, hbxnd, hbxiff⟩ :=
            notifyVars_ok_spec hnv
          simp only [List.nil_append] at hbx
          subst hbx
          obtain ⟨hc, hz⟩ := (hbxiff j).mp (hperm.mem_iff.mp hj)
          unfold notifCount at hc
          obtain ⟨n, hn, hpos⟩ := sum_map_pos hc
          by_cases hr : (stA.vars n).readable
          · rw [if_pos hr] at hpos
            have hjr : j ∈ (stA.vars n).readers := List.count_pos_iff.mp hpos
            rw [(f6 n).1] at hjr
            exact hrsub n j hjr
          · rw [if_neg hr] at hpos
            omega
        obtain ⟨t2, hnr2, ht2, ht1⟩ := notifyReaders_congr
          (show stB.closures = stA.closures by rw [b2, a2, hrel.closures])
          (show VarsRel stA.vars stB.vars from g3) h
          (by
            intro a ha b hb hk
            rw [a2] at hk
            exact hinj a (hbmem a ha) b (hbmem b hb) hk)
        refine ⟨t2, hnr2, ?_⟩
        rw [ht2, ht1]
        refine ⟨?_, rfl, ?_, ?_, ?_, ?_⟩
        · dsimp only
          rw [a1, b1]
          exact hrel.funcs
        · dsimp only
          exact g3
        · dsimp only
          exact g5
        · dsimp only
          rw [a3, b3, hrel.queue]
        · dsimp only
          exact g4

/-- A duplicate-free image makes the mapped function injective on the
list's members. -/
theorem nodup_map_inj {α β : Type} (f : α → β) :
    ∀ {l : List α}, (l.map f).Nodup →
    ∀ a ∈ l, ∀ b ∈ l, f a = f b → a = b
  | [], _ => by intro a ha; cases ha
  | x :: l, hnd => by
    rw [List.map_cons, List.nodup_cons] at hnd
    intro a ha b hb hf
    rcases List.mem_cons.mp ha with hea | hma
    · rcases List.mem_cons.mp hb with heb | hmb
      · rw [hea, heb]
      · subst hea
        exact absurd (hf ▸ List.mem_map_of_mem f hmb) hnd.1
    · rcases List.mem_cons.mp hb with heb | hmb
      · subst heb
        exact absurd (hf ▸ List.mem_map_of_mem f hma) hnd.1
      · exact nodup_map_inj f hnd.2 a hma b hmb hf

/-- Closures of never-registered ids are untouched by registration. -/
theorem registerFold_closures_other :
    ∀ {specs : List TaskSpec} {s0 s : Startup},
    List.foldlM Startup.register s0 specs = .ok s →
    ∀ j, j ∉ specs.map TaskSpec.id → s.closures j = s0.closures j
  | [], s0, s => by
    intro h j hj
    simp only [List.foldlM] at h
    injection h with h
    subst h
    rfl
  | spec :: rest, s0, s => by
    intro h j hj
    simp only [List.foldlM] at h
    cases hr : Startup.register s0 spec with
    | error e => rw [hr] at h; simp [Bind.bind, Except.bind] at h
    | ok s1 =>
      rw [hr] at h
      simp only [Bind.bind, Except.bind] at h
      obtain ⟨hrel, hfresh, hcore⟩ := register_ok hr
      subst hcore
      rw [List.map_cons] at hj
      have hj1 : j ∉ rest.map TaskSpec.id := fun hc => hj (List.mem_cons_of_mem _ hc)
      have hj2 : j ≠ spec.id := fun hc => hj (hc ▸ List.mem_cons_self _ _)
      rw [registerFold_closures_other h j hj1, registerCore_closures,
        upd_other _ _ _ _ hj2]

theorem touch_nodup {ns : List String} (h : ns.Nodup) (n : String) :
    (touch ns n).Nodup := by
  unfold touch
  split
  · exact h
  · next hm =>
    rw [List.nodup_append]
    exact ⟨h, List.nodup_singleton n, fun a ha hb =>
      hm ((List.mem_singleton.mp hb) ▸ ha)⟩

theorem mem_touch_iff (ns : List String) (n m : String) :
    m ∈ touch ns n ↔ m ∈ ns ∨ m = n := by
  unfold touch
  split
  · next hm =>
    constructor
    · exact Or.inl
    · rintro (h | h)
      · exact h
      · exact h ▸ hm
  · simp

theorem mem_foldl_touch_iff :
    ∀ (l : List String) (ns : List String) (m : String),
    m ∈ l.foldl touch ns ↔ m ∈ ns ∨ m ∈ l
  | [], ns, m => by simp
  | n :: l, ns, m => by
    rw [List.foldl_cons, mem_foldl_touch_iff l (touch ns n) m, mem_touch_iff]
    simp only [List.mem_cons]
    tauto

theorem foldl_touch_nodup :
    ∀ (l : List String) {ns : List String}, ns.Nodup →
    (l.foldl touch ns).Nodup
  | [], ns => fun h => h
  | n :: l, ns => fun h => foldl_touch_nodup l (touch_nodup h n)

/-- The names inserted by one registration. -/
theorem registerCore_names_mem (s0 : Startup) (spec : TaskSpec) (m : String) :
    m ∈ (registerCore s0 spec).names ↔
      m ∈ s0.names ∨ (∃ b ∈ spec.binds, b.var = m) ∨ m ∈ spec.out.names := by
  have e : (registerCore s0 spec).names
      = spec.out.names.foldl touch
          ((spec.binds.map Binding.var).foldl touch s0.names) := by
    show (spec.out.names.foldl (fun ns n => touch ns n)
        (spec.binds.foldl (fun ns b => touch ns b.var) s0.names)) = _
    rw [List.foldl_map]
  rw [e, mem_foldl_touch_iff, mem_foldl_touch_iff]
  constructor
  · rintro ((h | h) | h)
    · exact Or.inl h
    · obtain ⟨x, hx, hxe⟩ := List.mem_map.mp h
      exact Or.inr (Or.inl ⟨x, hx, hxe⟩)
    · exact Or.inr (Or.inr h)
  · rintro (h | ⟨b, hb, hbe⟩ | h)
    · exact Or.inl (Or.inl h)
    · exact Or.inl (Or.inr (hbe ▸ List.mem_map_of_mem Binding.var hb))
    · exact Or.inr h

theorem registerCore_names_nodup (s0 : Startup) (spec : TaskSpec)
    (h : s0.names.Nodup) : (registerCore s0 spec).names.Nodup := by
  have e : (registerCore s0 spec).names
      = spec.out.names.foldl touch
          ((spec.binds.map Binding.var).foldl touch s0.names) := by
    show (spec.out.names.foldl (fun ns n => touch ns n)
        (spec.binds.foldl (fun ns b => touch ns b.var) s0.names)) = _
    rw [List.foldl_map]
  rw [e]
  exact foldl_touch_nodup _ (foldl_touch_nodup _ h)

/-- Name-table contents and shape after a registration fold. -/
theorem registerFold_names :
    ∀ {specs : List TaskSpec} {s0 s : Startup},
    List.foldlM Startup.register s0 specs = .ok s →
    (s0.names.Nodup → s.names.Nodup) ∧
    (∀ m, m ∈ s.names ↔ m ∈ s0.names ∨ ∃ sp ∈ specs,
      (∃ b ∈ sp.binds, b.var = m) ∨ m ∈ sp.out.names)
  | [], s0, s => by
    intro h
    simp only [List.foldlM] at h
    injection h with h
    subst h
    exact ⟨fun h => h, fun m => by simp⟩
  | spec :: rest, s0, s => by
    intro h
    simp only [List.foldlM] at h
    cases hr : Startup.register s0 spec with
    | error e => rw [hr] at h; simp [Bind.bind, Except.bind] at h
    | ok s1 =>
      rw [hr] at h
      simp only [Bind.bind, Except.bind] at h
      obtain ⟨hrel, hfresh, hcore⟩ := register_ok hr
      subst hcore
      obtain ⟨i1, i2⟩ := registerFold_names h
      refine ⟨fun hnd => i1 (registerCore_names_nodup s0 spec hnd), ?_⟩
      intro m
      rw [i2 m, registerCore_names_mem]
      constructor
      · rintro ((h | h) | ⟨sp, hsp, hc⟩)
        · exact Or.inl h
        · exact Or.inr ⟨spec, List.mem_cons_self _ _, h⟩
        · exact Or.inr ⟨sp, List.mem_cons_of_mem _ hsp, hc⟩
      · rintro (h | ⟨sp, hsp, hc⟩)
        · exact Or.inl (Or.inl h)
        · rcases List.mem_cons.mp hsp with he | hm2
          · subst he
            exact Or.inl (Or.inr hc)
          · exact Or.inr ⟨sp, hm2, hc⟩

theorem foldl_touch_kw_perm :
    ∀ (kw : List (String × Val)) {ns1 ns2 : List String}, ns2.Perm ns1 →
    (kw.foldl (fun ns kv => touch ns kv.1) ns2).Perm
      (kw.foldl (fun ns kv => touch ns kv.1) ns1)
  | [], ns1, ns2 => fun hp => hp
  | kv :: kw, ns1, ns2 => fun hp =>
    foldl_touch_kw_perm kw (touch_perm hp kv.1)

/-- Related registered objects give related initial run states: the
closure stores and therefore the sorted initial queues agree exactly
(given injective tie-break keys of the staged closures). -/
theorem callInit_srel {s1 s2 : Startup} (kw : List (String × Val))
    (hobj : ObjRel s1 s2)
    (hinj : ∀ a ∈ s1.satisfied, ∀ b ∈ s1.satisfied,
      (s1.closures a).key = (s1.closures b).key → a = b) :
    SRel (callInit s1 kw) (callInit s2 kw) := by
  refine ⟨hobj.funcs, hobj.closures, hobj.vars,
    foldl_touch_kw_perm kw hobj.names, ?_, rfl⟩
  show sortClosures s2.closures s2.satisfied
    = sortClosures s1.closures s1.satisfied
  rw [hobj.closures]
  exact sortClosures_eq_of_perm hobj.satisfied
    (fun a ha b hb => hinj a (hobj.satisfied.mem_iff.mp ha)
      b (hobj.satisfied.mem_iff.mp hb))

/-- The output mapping of `read_latest` over the name list, as a map. -/
theorem readOutputs_eq_map {vars : String → Variable} :
    ∀ {ns : List String} {out : List (String × Val)},
    readOutputs vars ns = .ok out →
    out = ns.map (fun n => (n,
      match (vars n).readLatest with | .ok x => x | .error _ => .nat 0))
  | [], out => by
    intro h
    unfold readOutputs at h
    injection h with h
    subst h
    rfl
  | n :: rest, out => by
    intro h
    unfold readOutputs at h
    revert h
    cases hl : (vars n).readLatest with
    | error e => intro h; simp at h
    | ok x =>
      cases hr : readOutputs vars rest with
      | error e => intro h; simp at h
      | ok out2 =>
        intro h
        injection h with h
        subst h
        rw [List.map_cons, readOutputs_eq_map hr, hl]

theorem readOutputs_ok_of {vars : String → Variable} :
    ∀ {ns : List String}, (∀ n ∈ ns, ∃ x, (vars n).readLatest = .ok x) →
    ∃ out, readOutputs vars ns = .ok out
  | [] => fun _ => ⟨[], rfl⟩
  | n :: rest => by
    intro h
    obtain ⟨x, hx⟩ := h n (List.mem_cons_self _ _)
    obtain ⟨out2, hout2⟩ :=
      readOutputs_ok_of (fun m hm => h m (List.mem_cons_of_mem _ hm))
    refine ⟨(n, x) :: out2, ?_⟩
    unfold readOutputs
    rw [hx, hout2]

theorem lookup_map_self {β : Type} [BEq β] [LawfulBEq β] (g : β → Val) :
    ∀ (ns : List β) (m : β),
    (ns.map (fun n => (n, g n))).lookup m
      = if m ∈ ns then some (g m) else none
  | [], m => rfl
  | n :: ns, m => by
    by_cases he : m = n
    · subst he
      simp [List.lookup]
    · have hbe : (m == n) = false := beq_false_of_ne he
      rw [List.map_cons]
      show (match m == n with
        | true => some (g n)
        | false => List.lookup m (ns.map (fun n => (n, g n)))) = _
      rw [hbe]
      rw [lookup_map_self g ns m]
      by_cases hm : m ∈ ns
      · rw [if_pos hm, if_pos (List.mem_cons_of_mem n hm)]
      · rw [if_neg hm,
          if_neg (fun hc => (List.mem_cons.mp hc).elim he hm)]

/-- Output construction transfers across related final states: the second
run also succeeds, and its output mapping is a permutation of the first
with identical per-name lookups. -/
theorem readOutputs_congr {v1 v2 : String → Variable}
    {ns1 ns2 : List String} (hv : VarsRel v1 v2) (hn : ns2.Perm ns1)
    {out1 : List (String × Val)} (h : readOutputs v1 ns1 = .ok out1) :
    ∃ out2, readOutputs v2 ns2 = .ok out2 ∧ out2.Perm out1 ∧
      ∀ m, out2.lookup m = out1.lookup m := by
  have hrlc : ∀ n, (v2 n).readLatest = (v1 n).readLatest := fun n =>
    Variable.readLatest_congr (hv n).1 (hv n).2.1
  have hall1 : ∀ n ∈ ns1, ∃ x, (v1 n).readLatest = .ok x := by
    intro n hm
    have e1 := readOutputs_eq_map h
    have hmem : (n, match (v1 n).readLatest with
        | .ok x => x | .error _ => .nat 0) ∈ out1 := by
      rw [e1]
      exact List.mem_map_of_mem _ hm
    obtain ⟨hrd, hgl⟩ := (readOutputs_ok h).2 _ hmem
    refine ⟨(n, match (v1 n).readLatest with
      | .ok x => x | .error _ => .nat 0).2, ?_⟩
    unfold Variable.readLatest
    rw [if_pos hrd, hgl]
  obtain ⟨out2, hout2⟩ := readOutputs_ok_of (fun n hm => by
    rw [hrlc n]
    exact hall1 n (hn.mem_iff.mp hm))
  have e1 := readOutputs_eq_map h
  have e2 := readOutputs_eq_map hout2
  have hg : (fun n => (n, match (v2 n).readLatest with
        | .ok x => x | .error _ => .nat 0))
      = (fun n => (n, match (v1 n).readLatest with
        | .ok x => x | .error _ => .nat 0)) := by
    funext n
    rw [hrlc n]
  refine ⟨out2, hout2, ?_, ?_⟩
  · rw [e1, e2, hg]
    exact hn.map _
  · intro m
    rw [e1, e2, hg,
      lookup_map_self (fun n => match (v1 n).readLatest with
        | .ok x => x | .error _ => .nat 0) ns2 m,
      lookup_map_self (fun n => match (v1 n).readLatest with
        | .ok x => x | .error _ => .nat 0) ns1 m]
    by_cases hm : m ∈ ns1
    · rw [if_pos hm, if_pos (hn.mem_iff.mpr hm)]
    · rw [if_neg hm, if_neg (fun hc => hm (hn.mem_iff.mp hc))]

/-- Registering the same specs in two different orders builds related
objects: closure stores equal, wait counts and histories equal, readers,
names, funcs and satisfied staging permuted. -/
theorem registerAll_objRel {specs1 specs2 : List TaskSpec} {s1 s2 : Startup}
    (hp : specs1.Perm specs2)
    (h1 : registerAll specs1 = .ok s1) (h2 : registerAll specs2 = .ok s2) :
    ObjRel s1 s2 := by
  obtain ⟨f1, nd1, rel1, cl1, _⟩ := registerAll_shape h1
  obtain ⟨f2, nd2, rel2, cl2, _⟩ := registerAll_shape h2
  obtain ⟨w1a, w1b, w1c, w1d⟩ := registerAll_vars h1
  obtain ⟨w2a, w2b, w2c, w2d⟩ := registerAll_vars h2
  refine ⟨?_, ?_, ?_, ?_, ?_, ?_⟩
  · rw [f1, f2]
    exact (hp.map TaskSpec.id).symm
  · funext j
    by_cases hj : j ∈ specs1.map TaskSpec.id
    · obtain ⟨sp, hsp, hspe⟩ := List.mem_map.mp hj
      rw [← hspe, cl1 sp hsp, cl2 sp (hp.mem_iff.mp hsp)]
    · have hj2 : j ∉ specs2.map TaskSpec.id := fun hc =>
        hj ((hp.map TaskSpec.id).mem_iff.mpr hc)
      rw [registerFold_closures_other h1 j hj,
        registerFold_closures_other h2 j hj2]
  · intro n
    refine ⟨?_, ?_, ?_⟩
    · rw [w1a n, w2a n]
      exact (hp.map (fun sp => occOut sp.out n)).sum_eq.symm
    · rw [registerAll_values h1 n, registerAll_values h2 n]
    · refine List.perm_iff_count.mpr (fun j => ?_)
      by_cases hj : j ∈ specs1.map TaskSpec.id
      · obtain ⟨sp, hsp, hspe⟩ := List.mem_map.mp hj
        rw [← hspe, w1b n sp hsp, w2b n sp (hp.mem_iff.mp hsp)]
      · have hj2 : j ∉ specs2.map TaskSpec.id := fun hc =>
          hj ((hp.map TaskSpec.id).mem_iff.mpr hc)
        rw [List.count_eq_zero.mpr (fun hm => hj2 (w2c n j hm)),
          List.count_eq_zero.mpr (fun hm => hj (w1c n j hm))]
  · obtain ⟨n1, m1⟩ := registerFold_names h1
    obtain ⟨n2, m2⟩ := registerFold_names h2
    refine (List.perm_ext_iff_of_nodup (n2 List.nodup_nil)
      (n1 List.nodup_nil)).mpr (fun a => ?_)
    rw [m1 a, m2 a]
    constructor
    · rintro (h | ⟨sp, hsp, hc⟩)
      · cases h
      · exact Or.inr ⟨sp, hp.mem_iff.mpr hsp, hc⟩
    · rintro (h | ⟨sp, hsp, hc⟩)
      · cases h
      · exact Or.inr ⟨sp, hp.mem_iff.mp hsp, hc⟩
  · rw [w1d, w2d]
    exact ((hp.filter (fun sp => sp.binds.length = 0)).map TaskSpec.id).symm
  · rw [rel1, rel2]

/-- Like `runFrom_ok_state`, additionally exposing the output
construction. -/
theorem runFrom_ok_out {st0 : RunState} {kw : List (String × Val)}
    {out : List (String × Val)} {obj : Startup} {es : List Event}
    (h : runFrom st0 kw = (.ok out, obj, es)) :
    ∃ (st1 : RunState) (batch : List Nat) (st3 : RunState),
      writeValues st0 kw = (st1, .ok batch) ∧
      loop (fuelOf { st1 with queue := st1.queue ++ batch })
        { st1 with queue := st1.queue ++ batch } = (st3, .ok ()) ∧
      st3.funcs = [] ∧
      readOutputs st3.vars st3.names = .ok out ∧
      obj = { stToObj st3 with released := true } ∧ es = st3.events := by
  unfold runFrom at h
  revert h
  cases hwv : writeValues st0 kw with
  | mk st1 r1 =>
    cases r1 with
    | error e => intro h; simp at h
    | ok batch =>
      dsimp only
      cases hlp : loop (fuelOf { st1 with queue := st1.queue ++ batch })
          { st1 with queue := st1.queue ++ batch } with
      | mk st3 r3 =>
        cases r3 with
        | error e => intro h; simp at h
        | ok u =>
          cases u
          intro h
          dsimp only at h
          by_cases hfe : st3.funcs = []
          · rw [if_neg (not_not_intro hfe)] at h
            revert h
            cases hro : readOutputs st3.vars st3.names with
            | error e => intro h; simp at h
            | ok out2 =>
              intro h
              injection h with h1 h2
              injection h2 with h2 h3
              injection h1 with h1
              subst h2 h3
              exact ⟨st1, batch, st3, rfl, hlp, hfe, h1 ▸ hro, rfl, rfl⟩
          · rw [if_pos hfe] at h
            simp at h

/-- The full-run mirror: with injective tie-break keys, a normally
returning run of one registration order transfers to any permuted
registration order with the identical event log (hence the identical
invocation sequence) and an output mapping equal as a mapping. -/
theorem call_congr {specs1 specs2 : List TaskSpec} {s1 s2 : Startup}
    {kw : List (String × Val)}
    (hp : specs1.Perm specs2)
    (hkinj : (specs1.map TaskSpec.key).Nodup)
    (hkwnd : (kw.map Prod.fst).Nodup)
    (h1 : registerAll specs1 = .ok s1) (h2 : registerAll specs2 = .ok s2)
    {out1 : List (String × Val)} {obj1 : Startup} {es1 : List Event}
    (hc1 : Startup.call s1 kw = (.ok out1, obj1, es1)) :
    ∃ out2 obj2, Startup.call s2 kw = (.ok out2, obj2, es1) ∧
      out2.Perm out1 ∧ ∀ m, out2.lookup m = out1.lookup m := by
  obtain ⟨f1, nd1, rel1, cl1, _⟩ := registerAll_shape h1
  obtain ⟨f2, nd2, rel2, cl2, _⟩ := registerAll_shape h2
  obtain ⟨w1a, w1b, w1c, w1d⟩ := registerAll_vars h1
  have hobj := registerAll_objRel hp h1 h2
  have hR : (specs1.map TaskSpec.id).Nodup := f1 ▸ nd1
  have hinj : ∀ a ∈ specs1.map TaskSpec.id, ∀ b ∈ specs1.map TaskSpec.id,
      (s1.closures a).key = (s1.closures b).key → a = b := by
    intro a ha b hb hk
    obtain ⟨spa, hspa, hea⟩ := List.mem_map.mp ha
    obtain ⟨spb, hspb, heb⟩ := List.mem_map.mp hb
    subst hea heb
    rw [cl1 spa hspa, cl1 spb hspb] at hk
    have hkk : spa.key = spb.key := hk
    rw [nodup_map_inj TaskSpec.key hkinj spa hspa spb hspb hkk]
  have hrun1 : runFrom (callInit s1 kw) kw = (.ok out1, obj1, es1) :=
    (call_eq_runFrom s1 kw rel1) ▸ hc1
  obtain ⟨st1, batch, st3, hwv1, hlp1, hfe1, hro1, hobj1e, hes1⟩ :=
    runFrom_ok_out hrun1
  have hsat_sub : ∀ a ∈ s1.satisfied, a ∈ specs1.map TaskSpec.id := by
    intro a ha
    rw [w1d] at ha
    obtain ⟨sp, hsp, hea⟩ := List.mem_map.mp ha
    exact hea ▸ List.mem_map_of_mem TaskSpec.id (List.mem_of_mem_filter hsp)
  have hrelInit : SRel (callInit s1 kw) (callInit s2 kw) :=
    callInit_srel kw hobj (fun a ha b hb =>
      hinj a (hsat_sub a ha) b (hsat_sub b hb))
  obtain ⟨t2, hwv2, hrelSt⟩ := writeValues_congr (specs1.map TaskSpec.id)
    hrelInit (fun n j hj => w1c n j hj) hinj hwv1
  have hrelX : SRel { st1 with queue := st1.queue ++ batch }
      { t2 with queue := t2.queue ++ batch } :=
    ⟨hrelSt.funcs, hrelSt.closures, hrelSt.vars, hrelSt.names,
      by show t2.queue ++ batch = st1.queue ++ batch; rw [hrelSt.queue],
      hrelSt.events⟩
  have invX := initial_InvB h1 hkwnd hwv1
  obtain ⟨_, _, hcl1, _⟩ := writeValues_any hwv1
  have hkeyst : ∀ j, (st1.closures j).key = (s1.closures j).key := by
    intro j
    obtain ⟨w, hw⟩ := hcl1 j
    rw [hw]
    rfl
  have hinjX : ∀ a ∈ specs1.map TaskSpec.id, ∀ b ∈ specs1.map TaskSpec.id,
      (({ st1 with queue := st1.queue ++ batch } : RunState).closures a).key
        = (({ st1 with queue := st1.queue ++ batch } : RunState).closures b).key
      → a = b := by
    intro a ha b hb hk
    exact hinj a ha b hb (by rw [← hkeyst a, ← hkeyst b]; exact hk)
  obtain ⟨st3', hlp2, hrelF⟩ := loop_congr hR hrelX invX hinjX hlp1
  have hfuel : fuelOf { t2 with queue := t2.queue ++ batch }
      = fuelOf { st1 with queue := st1.queue ++ batch } := fuelOf_congr hrelX
  have hfe2 : st3'.funcs = [] := by
    have hpf := hrelF.funcs
    rw [hfe1] at hpf
    exact hpf.eq_nil
  obtain ⟨out2, hro2, hperm, hlook⟩ :=
    readOutputs_congr hrelF.vars hrelF.names hro1
  refine ⟨out2, { stToObj st3' with released := true }, ?_, hperm, hlook⟩
  rw [call_eq_runFrom s2 kw rel2]
  unfold runFrom
  rw [hwv2]
  dsimp only
  rw [hfuel, hlp2]
  dsimp only
  rw [if_neg (not_not_intro hfe2), hro2]
  dsimp only
  rw [hrelF.events, ← hes1]

theorem keyLe_self (k : String × String) : keyLe k k = true := by
  unfold keyLe
  rw [if_pos rfl]
  exact decide_eq_true (le_refl k.2)

theorem insortBy_pair {α : Type} (le : α → α → Bool) (a b : α)
    (h : le a b = true) : insortBy le a [b] = [a, b] := by
  unfold insortBy
  rw [h]
  rw [if_pos rfl]

theorem sort_keyAB : sortClosures exKeyABObj.closures [0, 1] = [0, 1] := by
  show insortBy (fun a b =>
    keyLe (exKeyABObj.closures a).key (exKeyABObj.closures b).key) 0 [1]
    = [0, 1]
  refine insortBy_pair _ 0 1 ?_
  show keyLe ("m", "f") ("m", "f") = true
  exact keyLe_self ("m", "f")

theorem sort_keyBA : sortClosures exKeyBAObj.closures [1, 0] = [1, 0] := by
  show insortBy (fun a b =>
    keyLe (exKeyBAObj.closures a).key (exKeyBAObj.closures b).key) 1 [0]
    = [1, 0]
  refine insortBy_pair _ 1 0 ?_
  show keyLe ("m", "f") ("m", "f") = true
  exact keyLe_self ("m", "f")

theorem callInit_keyAB : callInit exKeyABObj [] = exKeyABSt := by
  unfold callInit
  rw [show exKeyABObj.satisfied = [0, 1] from rfl, sort_keyAB]
  rfl

theorem callInit_keyBA : callInit exKeyBAObj [] = exKeyBASt := by
  unfold callInit
  rw [show exKeyBAObj.satisfied = [1, 0] from rfl, sort_keyBA]
  rfl

set_option maxHeartbeats 1000000 in
/-- The two equal-key tasks run in their registration order: the event
log of the `A, B` registration. -/
theorem runEvents_keyAB : runEvents [exKeyA, exKeyB] []
    = [.inv 0 [], .wr "a" (.nat 0), .inv 1 [], .wr "b" (.nat 1)] := by
  unfold runEvents startupRun
  rw [show registerAll [exKeyA, exKeyB] = .ok exKeyABObj from rfl]
  show (Startup.call exKeyABObj []).2.2 = _
  rw [call_eq_runFrom exKeyABObj [] (by rfl), callInit_keyAB]
  rfl

set_option maxHeartbeats 1000000 in
/-- The event log of the `B, A` registration of the same two tasks. -/
theorem runEvents_keyBA : runEvents [exKeyB, exKeyA] []
    = [.inv 1 [], .wr "b" (.nat 1), .inv 0 [], .wr "a" (.nat 0)] := by
  unfold runEvents startupRun
  rw [show registerAll [exKeyB, exKeyA] = .ok exKeyBAObj from rfl]
  show (Startup.call exKeyBAObj []).2.2 = _
  rw [call_eq_runFrom exKeyBAObj [] (by rfl), callInit_keyBA]
  rfl

end C1Lemmas

section Claims

/-- C6, amended: after a run that returns normally the scheduler is
released and every subsequent `call` fails with the reuse error; after a
run that raises, the internal state is retained (the object is not
released) — and consequently the reuse check does not fire on a second
`call` after a failure (see the counterexample). -/
theorem claim_C6 (s : Startup) (kw kw2 : List (String × Val)) :
    (∀ out obj es, Startup.call s kw = (.ok out, obj, es) →
      obj.released = true ∧ Startup.call obj kw2 = (.error .reuse, obj, [])) ∧
    (∀ e obj es, s.released = false → Startup.call s kw = (.error e, obj, es) →
      obj.released = false) := by
  constructor
  · intro out obj es h
    cases hrel : s.released with
    | true => rw [call_released kw hrel] at h; simp at h
    | false =>
      rw [call_eq_runFrom s kw hrel] at h
      rcases runFrom_cases (callInit s kw) kw with
        ⟨out2, obj2, es2, heq, hr, _, _⟩ | ⟨e2, obj2, es2, heq, hr⟩
      · rw [heq] at h
        injection h with h1 h2
        injection h2 with h2 h3
        subst h2
        exact ⟨hr, call_released kw2 hr⟩
      · rw [heq] at h
        simp at h
  · intro e obj es hrel h
    rw [call_eq_runFrom s kw hrel] at h
    rcases runFrom_cases (callInit s kw) kw with
      ⟨out2, obj2, es2, heq, hr, _, _⟩ | ⟨e2, obj2, es2, heq, hr⟩
    · rw [heq] at h; simp at h
    · rw [heq] at h
      injection h with h1 h2
      injection h2 with h2 h3
      subst h2
      exact hr

/-- C6 witness: a concrete normal run releases the object, and a second
`call` on it returns the reuse error. -/
theorem claim_C6_witness :
    ((Startup.call exArityObj []).2.1.released = true) ∧
    (Startup.call ((Startup.call exArityObj []).2.1) []).1 = .error .reuse := by
  have h := (claim_C6 exArityObj [] []).1 [("p", .nat 1), ("q", .nat 2)]
    ((Startup.call exArityObj []).2.1) ((Startup.call exArityObj []).2.2) rfl
  exact ⟨h.1, by rw [h.2]⟩

/-- C6 counterexample: a run that fails (unsatisfiable dependency) leaves
an unreleased object, and a second `call` on it raises the same
unsatisfiable-dependency error — not the reuse error the claim requires
after a failed run. -/
theorem claim_C6_cx :
    runResult [exStuck] [] = .error (.unsat [0]) ∧
    secondCallResult [exStuck] [] [] = .error (.unsat [0]) ∧
    secondCallResult [exStuck] [] [] ≠ .error .reuse := by
  refine ⟨by decide, by decide, by decide⟩

/-- C7, amended: for a task declaring an ordered list of output variables,
the return value must be a sequence (`zip` raises a `TypeError` on a
non-sequence), but its length is not checked against the declared arity:
element `i` is written to output variable `i`, in declared order, for
`i < min N M` (surplus return elements are ignored, missing ones leave the
corresponding declared writes unperformed); a repeated output variable
receives each zipped write independently against its declared-write count;
and the task's run returns the deduplicated list of the declared output
variables. -/
theorem claim_C7 (st st' : RunState) (id : Nat) (ns : List String)
    (outs vals : List Val) (written : List String)
    (h1 : (st.closures id).released = false)
    (h2 : (st.closures id).numReadReadyWaits = 0)
    (h3 : (st.closures id).writeto = .many ns)
    (hvals : readArgs st.vars (st.closures id).args = .ok vals) :
    ((st.closures id).body vals = .list outs →
      closureCall st id = (st', .ok written) →
      written = ns.eraseDups ∧
      st'.events = st.events ++ Event.inv id vals ::
        (ns.zip outs).map (fun p => Event.wr p.1 p.2) ∧
      (∀ n, (st'.vars n).values
          = (st.vars n).values ++ ((ns.zip outs).filter (fun p => p.1 = n)).map Prod.snd ∧
        (st'.vars n).numWriteWaits + ((ns.zip outs).map Prod.fst).count n
          = (st.vars n).numWriteWaits)) ∧
    (∀ m, (st.closures id).body vals = .nat m →
      closureCall st id
        = ({ st with events := st.events ++ [Event.inv id vals] }, .error .typeErr)) := by
  constructor
  · intro hbody hok
    obtain ⟨a1, a2, a3, _, _⟩ := closureCall_many h1 h2 h3 hvals hbody hok
    exact ⟨a1, a2, a3⟩
  · intro m hbody
    simp only [closureCall, h1, h2, hvals, h3, hbody, Bool.false_eq_true,
      if_false, ne_eq, not_true_eq_false, not_false_eq_true, reduceIte]
    simp [writeOuts]

/-- C7 witness: the two-output task of `exArity` invoked on the concrete
loop state writes the first two of its three returned elements, in order,
and reports both declared outputs. -/
theorem claim_C7_witness :
    (closureCall exAritySt 0).2 = .ok ["p", "q"] ∧
    ((closureCall exAritySt 0).1).events =
      [Event.inv 0 [], Event.wr "p" (.nat 1), Event.wr "q" (.nat 2)] := by
  have h := (claim_C7 exAritySt ((closureCall exAritySt 0).1) 0 ["p", "q"]
    [.nat 1, .nat 2, .nat 3] [] ["p", "q"] rfl rfl rfl rfl).1 rfl rfl
  refine ⟨rfl, ?_⟩
  rw [h.2.1]
  rfl

/-- C7 counterexample: the task of `exArity` declares exactly two output
variables but its callable returns a three-element sequence, and the run
nevertheless completes normally, silently dropping the third element —
against the claim that the return value must have exactly N elements. -/
theorem claim_C7_cx :
    exArity.out.names.length = 2 ∧
    exArity.body [] = .list [.nat 1, .nat 2, .nat 3] ∧
    runResult [exArity] [] = .ok [("p", .nat 1), ("q", .nat 2)] := by
  refine ⟨by decide, rfl, by decide⟩

/-- C8, amended: on successful completion `call` returns the mapping that
assigns to every touched variable (in table insertion order) the last
value of its history, and every such variable is readable; a variable that
was declared but never fully written does not end up absent: it makes
`read_latest` raise an `AssertionError` during output building (see the
counterexample), so no successful run contains one. -/
theorem claim_C8 (s : Startup) (kw : List (String × Val))
    (out : List (String × Val)) (obj : Startup) (es : List Event)
    (h : Startup.call s kw = (.ok out, obj, es)) :
    out.map Prod.fst = obj.names ∧
    ∀ p ∈ out, (obj.vars p.1).readable = true ∧
      (obj.vars p.1).values.getLast? = some p.2 := by
  cases hrel : s.released with
  | true => rw [call_released kw hrel] at h; simp at h
  | false =>
    rw [call_eq_runFrom s kw hrel] at h
    rcases runFrom_cases (callInit s kw) kw with
      ⟨out2, obj2, es2, heq, _, _, hro⟩ | ⟨e2, obj2, es2, heq, hr⟩
    · rw [heq] at h
      injection h with h1 h2
      injection h2 with h2 h3
      injection h1 with h1
      subst h1
      subst h2
      exact readOutputs_ok hro
    · rw [heq] at h; simp at h

/-- C8 witness: the concrete successful `exArity` run returns the mapping
over the touched names with each variable readable and mapped to its
latest value. -/
theorem claim_C8_witness :
    ((Startup.call exArityObj []).2.1.vars "p").readable = true ∧
    ((Startup.call exArityObj []).2.1.vars "p").values.getLast? = some (.nat 1) := by
  have h := claim_C8 exArityObj [] [("p", .nat 1), ("q", .nat 2)]
    ((Startup.call exArityObj []).2.1) ((Startup.call exArityObj []).2.2) rfl
  exact h.2 ("p", .nat 1) (by simp)

/-- C8 counterexample: a task declaring outputs `(p, q)` whose callable
returns a one-element sequence leaves `q` declared but never written;
the run invokes every registered task and then raises an
`AssertionError` from `read_latest` while building the output mapping —
the variable is not silently absent as the claim requires. -/
theorem claim_C8_cx :
    invocs (runEvents [exShort] []) = [0] ∧
    runResult [exShort] [] = .error .assertFail := by
  refine ⟨by decide, by decide⟩

/-- C2: in a run of `Startup.call` that returns normally, every function
registered with the object is invoked exactly once; in every run, normal
or raising, no function body is invoked more than once (the invocation
log never repeats an id). -/
theorem claim_C2 (specs : List TaskSpec) (kw : List (String × Val))
    (s : Startup) (hreg : registerAll specs = .ok s) :
    (∀ out obj es, Startup.call s kw = (.ok out, obj, es) →
      ∀ id ∈ s.funcs, (invocs es).count id = 1) ∧
    (∀ res obj es, Startup.call s kw = (res, obj, es) → (invocs es).Nodup) := by
  obtain ⟨r1, r2, r3, r4, r5⟩ := registerAll_shape hreg
  have hcall := call_eq_runFrom s kw r3
  constructor
  · intro out obj es h
    rw [hcall] at h
    obtain ⟨a1, a2⟩ := runFrom_C2 h r2 rfl r5
    intro id hid
    have hmem := a2 out rfl id hid
    exact List.count_eq_one_of_mem a1 hmem
  · intro res obj es h
    rw [hcall] at h
    exact (runFrom_C2 h r2 rfl r5).1

/-- C2 witness: in the concrete run of `exArity` the single registered
task is invoked exactly once. -/
theorem claim_C2_witness :
    (invocs ((Startup.call exArityObj []).2.2)).count 0 = 1 := by
  have h := (claim_C2 [exArity] [] exArityObj rfl).1
    [("p", .nat 1), ("q", .nat 2)] ((Startup.call exArityObj []).2.1)
    ((Startup.call exArityObj []).2.2) rfl 0 (by decide)
  exact h

/-- C5: when the ready queue drains (the loop ends normally) while
registered functions remain pending, `call` raises the
unsatisfiable-dependency error carrying exactly the pending set, and that
payload holds precisely the registered ids never invoked in the run;
in particular a collection-mode input on a variable with zero declared
writers, and a dependency cycle, produce this failure. -/
theorem claim_C5 (specs : List TaskSpec) (kw : List (String × Val))
    (s : Startup) (hreg : registerAll specs = .ok s) :
    (∀ l obj es, Startup.call s kw = (.error (.unsat l), obj, es) →
      l ≠ [] ∧ l.Nodup ∧
      ∀ id, id ∈ l ↔ (id ∈ specs.map TaskSpec.id ∧ id ∉ invocs es)) ∧
    runResult [exColl] [("y", .nat 1)] = .error (.unsat [0]) ∧
    runResult exCycle [] = .error (.unsat [0, 1, 2]) := by
  obtain ⟨r1, r2, r3, r4, r5⟩ := registerAll_shape hreg
  have hcall := call_eq_runFrom s kw r3
  refine ⟨?_, by decide, by decide⟩
  intro l obj es h
  rw [hcall] at h
  obtain ⟨a1, a2, a3⟩ := runFrom_unsat h r2 rfl r5
  refine ⟨a1, a2, ?_⟩
  intro id
  rw [a3 id]
  simp only [callInit]
  rw [r1]

/-- C5 witness: in the concrete stuck run the error payload `[0]` holds
exactly the registered-but-never-invoked id. -/
theorem claim_C5_witness :
    (0 ∈ ([0] : List Nat)) ↔
      (0 ∈ [exStuck].map TaskSpec.id ∧
        0 ∉ invocs ((Startup.call exStuckObj []).2.2)) := by
  have h := (claim_C5 [exStuck] [] exStuckObj rfl).1 [0]
    ((Startup.call exStuckObj []).2.1) ((Startup.call exStuckObj []).2.2) rfl
  exact h.2.2 0

/-- C4: a variable is readable exactly when its pending-write count is
zero and its history is non-empty; along the scheduling loop, histories
only grow by appends and readability, once gained, is never lost;
`read_latest` returns the most recently appended value; and in the
keyword-seeding phase of a fresh run (empty histories, distinct keyword
names) readability is likewise never lost. -/
theorem claim_C4 :
    (∀ v : Variable, v.readable = true ↔ (v.numWriteWaits = 0 ∧ v.values ≠ [])) ∧
    (∀ (k : Nat) (st st' : RunState) (n : String), reachN k st = some st' →
      ((st.vars n).readable = true → (st'.vars n).readable = true) ∧
      ∃ tl, (st'.vars n).values = (st.vars n).values ++ tl) ∧
    (∀ v : Variable, v.readable = true →
      ∃ x, v.values.getLast? = some x ∧ v.readLatest = .ok x) ∧
    (∀ (st : RunState) (p q : List (String × Val)) (acc acc1 acc2 : List String)
        (st1 st2 : RunState) (r : Except Err Unit) (n : String),
      (∀ m, (st.vars m).values = []) →
      ((p ++ q).map Prod.fst).Nodup →
      writeValuesAux st p acc = ((st1, acc1), .ok ()) →
      writeValuesAux st (p ++ q) acc = ((st2, acc2), r) →
      (st1.vars n).readable = true → (st2.vars n).readable = true) ∧
    (∀ (specs : List TaskSpec) (s : Startup), registerAll specs = .ok s →
      ∀ m, (s.vars m).values = []) := by
  refine ⟨?_, ?_, ?_, ?_, ?_⟩
  · intro v
    unfold Variable.readable
    simp only [Bool.and_eq_true, beq_iff_eq, Bool.not_eq_true']
    rw [List.isEmpty_eq_false]
  · intro k st st' n h
    exact reachN_mono h n
  · intro v hr
    unfold Variable.readLatest
    rw [hr]
    have hne : v.values ≠ [] := by
      unfold Variable.readable at hr
      simp only [Bool.and_eq_true, beq_iff_eq, Bool.not_eq_true'] at hr
      rw [List.isEmpty_eq_false] at hr
      exact hr.2
    cases hl : v.values.getLast? with
    | none => exact absurd (List.getLast?_eq_none_iff.mp hl) hne
    | some x => exact ⟨x, rfl, rfl⟩
  · intro st p q acc acc1 acc2 st1 st2 r n hval hnd hp hpq hr
    have happ : writeValuesAux st (p ++ q) acc
        = writeValuesAux st1 q acc1 := writeValuesAux_append hp
    rw [happ] at hpq
    have hvne : (st1.vars n).values ≠ [] := by
      unfold Variable.readable at hr
      simp only [Bool.and_eq_true, beq_iff_eq, Bool.not_eq_true'] at hr
      rw [List.isEmpty_eq_false] at hr
      exact hr.2
    rcases writeValuesAux_values_src hp hvne with hsrc | hsrc
    · exact absurd (hval n) hsrc
    · have hnq : n ∉ q.map Prod.fst := by
        rw [List.map_append] at hnd
        exact fun hq => (List.disjoint_of_nodup_append hnd) hsrc hq
      rw [writeValuesAux_untouched hpq hnq]
      exact hr
  · intro specs s hreg m
    exact registerAll_values hreg m

/-- C4 witness: a concrete variable with one value and no pending writes
is readable and `read_latest` returns that value. -/
theorem claim_C4_witness :
    (Variable.mk 0 [] [Val.nat 1]).readable = true ∧
    (Variable.mk 0 [] [Val.nat 1]).readLatest = .ok (.nat 1) := by
  have h1 := claim_C4.1 (Variable.mk 0 [] [.nat 1])
  have hr : (Variable.mk 0 [] [Val.nat 1]).readable = true :=
    h1.mpr ⟨rfl, by simp⟩
  obtain ⟨x, hx, hl⟩ := claim_C4.2.2.1 (Variable.mk 0 [] [.nat 1]) hr
  have hx2 : x = Val.nat 1 := by
    have := hx
    simp at this
    exact this.symm
  rw [hx2] at hl
  exact ⟨hr, hl⟩

/-- C9: throughout every execution (every state at the head of the
`while queue` loop, over a run with duplicate-free keyword names), the
ready queue contains a registered task iff that task is satisfied
(its read-wait count is zero) and it has not yet run, the queue never
contains the same task twice; and at successful completion the set of
not-yet-run tasks (`self.funcs`) is empty. -/
theorem claim_C9 (specs : List TaskSpec) (kw : List (String × Val))
    (s : Startup) (hreg : registerAll specs = .ok s)
    (hkw : (kw.map Prod.fst).Nodup) :
    (∀ (st1 : RunState) (batch : List Nat) (k : Nat) (st' : RunState),
      writeValues (callInit s kw) kw = (st1, .ok batch) →
      reachN k { st1 with queue := st1.queue ++ batch } = some st' →
      st'.queue.Nodup ∧
      ∀ id ∈ specs.map TaskSpec.id,
        (id ∈ st'.queue ↔ ((st'.closures id).numReadReadyWaits = 0 ∧
          id ∉ invocs st'.events))) ∧
    (∀ out obj es, Startup.call s kw = (.ok out, obj, es) →
      obj.funcs = []) := by
  obtain ⟨r1, r2, r3, r4, r5⟩ := registerAll_shape hreg
  have hidnd : (specs.map TaskSpec.id).Nodup := r1 ▸ r2
  constructor
  · intro st1 batch k st' hwv hre
    have hinv := reachN_InvB hidnd hre (initial_InvB hreg hkw hwv)
    refine ⟨hinv.queueNodup, ?_⟩
    intro id hid
    constructor
    · intro hq
      have hf := hinv.queueSub id hq
      have hrel := (hinv.relNR id hid).mp hf
      refine ⟨hinv.queueSat id hq, ?_⟩
      intro hc
      have := (hinv.relInv id hid).mpr hc
      rw [this] at hrel
      cases hrel
    · rintro ⟨hw, hni⟩
      have hrel : (st'.closures id).released = false := by
        cases hcase : (st'.closures id).released with
        | false => rfl
        | true => exact absurd ((hinv.relInv id hid).mp hcase) hni
      exact hinv.satInQueue id ((hinv.relNR id hid).mpr hrel) hw
  · intro out obj es h
    rw [call_eq_runFrom s kw r3] at h
    rcases runFrom_cases (callInit s kw) kw with
      ⟨out2, obj2, es2, heq, hr, hfe, _⟩ | ⟨e2, obj2, es2, heq, hr⟩
    · rw [heq] at h
      injection h with h1 h2
      injection h2 with h2 h3
      subst h2
      exact hfe
    · rw [heq] at h
      simp at h

/-- C9 witness: on the concrete single-task run, the loop-head state is
duplicate-free with the satisfied unrun task 0 queued, and the completed
run leaves no pending function. -/
theorem claim_C9_witness :
    (0 ∈ ({ (writeValues (callInit exArityObj []) []).1 with
        queue := (writeValues (callInit exArityObj []) []).1.queue
          ++ [] } : RunState).queue) ∧
    (Startup.call exArityObj []).2.1.funcs = [] := by
  have h := claim_C9 [exArity] [] exArityObj rfl (by decide)
  have h1 := h.1 (writeValues (callInit exArityObj []) []).1 [] 0 _ rfl rfl
  have h2 := h.2 [("p", .nat 1), ("q", .nat 2)]
    ((Startup.call exArityObj []).2.1) ((Startup.call exArityObj []).2.2) rfl
  refine ⟨?_, h2⟩
  have h3 := (h1.2 0 (by decide)).mpr (by decide)
  exact h3

/-- C3: over every run with duplicate-free keyword names, every
loop-head state satisfies the collection-read property `JoinProp`: a
task invoked with a collection-mode binding received exactly the values
written to the variable before its invocation, their count equals the
total declared-write count of the variable, no later write to the
variable occurs, and every registered writer of the variable was
invoked earlier; on a successful `call`, the same holds of the final
event log. -/
theorem claim_C3 (specs : List TaskSpec) (kw : List (String × Val))
    (s : Startup) (hreg : registerAll specs = .ok s)
    (hkw : (kw.map Prod.fst).Nodup) :
    (∀ (st1 : RunState) (batch : List Nat) (k : Nat) (st' : RunState),
      writeValues (callInit s kw) kw = (st1, .ok batch) →
      reachN k { st1 with queue := st1.queue ++ batch } = some st' →
      JoinProp specs kw st') ∧
    (∀ out obj es, Startup.call s kw = (.ok out, obj, es) →
      ∀ pre t vs post, es = pre ++ Event.inv t vs :: post →
      ∀ i b, (obj.closures t).args.get? i = some b → b.mode = .all →
        vs.get? i = some (.list (writesTo b.var pre)) ∧
        (writesTo b.var pre).length = declaredWrites specs kw b.var ∧
        writesTo b.var post = [] ∧
        ∀ sp ∈ specs, 0 < occOut sp.out b.var → sp.id ∈ invocs pre) := by
  obtain ⟨r1, r2, r3, r4, r5⟩ := registerAll_shape hreg
  have hidnd : (specs.map TaskSpec.id).Nodup := r1 ▸ r2
  have hpart1 : ∀ (st1 : RunState) (batch : List Nat) (k : Nat)
      (st' : RunState),
      writeValues (callInit s kw) kw = (st1, .ok batch) →
      reachN k { st1 with queue := st1.queue ++ batch } = some st' →
      JoinProp specs kw st' := by
    intro st1 batch k st' hwv hre
    obtain ⟨we1, we2, we3, we4⟩ := writeValues_events hwv
    dsimp only [callInit] at we1
    rw [List.nil_append] at we1
    have hout0 : ∀ sp ∈ specs,
        (({ st1 with queue := st1.queue ++ batch } : RunState).closures
          sp.id).writeto = sp.out := by
      intro sp hsp
      dsimp only
      rw [(we4 sp.id).1]
      dsimp only [callInit]
      rw [r4 sp hsp]
      rfl
    have hJ0 : JoinProp specs kw { st1 with queue := st1.queue ++ batch } := by
      apply JoinProp_of_no_inv
      intro t vs hc
      dsimp only at hc
      rw [we1] at hc
      exact inv_not_mem_wr_map t vs kw hc
    exact reachN_JoinProp hidnd hre (initial_InvB hreg hkw hwv) hout0 hJ0
  refine ⟨hpart1, ?_⟩
  intro out obj es h pre t vs post hdec i b hb hmode
  rw [call_eq_runFrom s kw r3] at h
  obtain ⟨st1, batch, st3, hwv, hlp, hfe, hobj, hes⟩ := runFrom_ok_state h
  obtain ⟨k, hk⟩ := loop_reach hlp
  have hJ := hpart1 st1 batch k st3 hwv hk
  subst hobj
  subst hes
  exact hJ pre t vs post hdec i b hb hmode

set_option maxHeartbeats 4000000 in
/-- C3 witness: in the concrete `exJoin2` run (one writer of `x`, one
collection reader), the reader's invocation received exactly the
previously written value, the single declared write had happened, no
write follows, and the writer appears earlier in the log. -/
theorem claim_C3_witness :
    ([Val.list [.nat 7]] : List Val).get? 0
      = some (.list (writesTo "x" [Event.inv 0 [], .wr "x" (.nat 7)])) ∧
    (writesTo "x" [Event.inv 0 [], .wr "x" (.nat 7)]).length
      = declaredWrites exJoin2 [] "x" ∧
    writesTo "x" ([] : List Event) = [] ∧
    ∀ sp ∈ exJoin2, 0 < occOut sp.out "x" →
      sp.id ∈ invocs [Event.inv 0 [], .wr "x" (.nat 7)] := by
  have h := (claim_C3 exJoin2 [] exJoin2Obj rfl (by decide)).2
    [("x", .nat 7)]
    ((Startup.call exJoin2Obj []).2.1) ((Startup.call exJoin2Obj []).2.2) rfl
    [Event.inv 0 [], .wr "x" (.nat 7)]
    1 [Val.list [.nat 7]] []
    (by rfl) 0 ⟨"xs", "x", .all⟩ (by rfl) rfl
  exact h

/-- C10: for every registration sequence accepted by both
implementations (every non-optional parameter annotated) and every
initial-value mapping, registration builds identical objects, and
`boot.Boot.call` and `startup.Startup.call` return equal results (hence
equal output mappings or equal exceptions) and identical event logs —
in particular they invoke the underlying functions in the same order. -/
theorem claim_C10 (specs : List TaskSpec) (kw : List (String × Val))
    (hann : ∀ sp ∈ specs, notAnnotatedOf sp = []) :
    bootRegisterAll specs = registerAll specs ∧
    ∀ s, registerAll specs = .ok s →
      (Boot.call s kw).1 = (Startup.call s kw).1 ∧
      (Boot.call s kw).2.2 = (Startup.call s kw).2.2 ∧
      invocs (Boot.call s kw).2.2 = invocs (Startup.call s kw).2.2 := by
  refine ⟨bootRegisterAll_eq hann, ?_⟩
  intro s hreg
  obtain ⟨r1, r2, r3, r4, r5⟩ := registerAll_shape hreg
  have hmain : (runFrom (bootInit s) kw).1 = (runFrom (callInit s kw) kw).1 ∧
      (runFrom (bootInit s) kw).2.2 = (runFrom (callInit s kw) kw).2.2 := by
    unfold runFrom
    cases hw1 : writeValues (bootInit s) kw with
    | mk s1 q1 =>
      cases hw2 : writeValues (callInit s kw) kw with
      | mk s2 q2 =>
        obtain ⟨g1, g2, g3, g4, g5, g6, g7⟩ := writeValues_lockstep
          (by rfl) (by rfl) (by rfl) (by rfl) (by rfl) hw1 hw2
        subst g1
        cases q2 with
        | error e =>
          dsimp only
          exact ⟨rfl, g6.symm⟩
        | ok batch =>
          obtain ⟨n1, n2⟩ := g7 ⟨batch, rfl⟩
          have hnames : s2.names = s1.names := by
            rw [n1, n2]
            exact foldl_touch_idem kw s.names
          have hse : s2 = s1 := RunState.ext' g2 g3 g4 hnames g5 g6
          subst hse
          dsimp only
          exact ⟨rfl, rfl⟩
  unfold Boot.call Startup.call
  rw [r3]
  simp only [Bool.false_eq_true, if_false]
  exact ⟨hmain.1, hmain.2, by rw [hmain.2]⟩

/-- C10 witness: on the concrete two-output task, both implementations
register identically and their calls return the same result. -/
theorem claim_C10_witness :
    bootRegisterAll [exArity] = registerAll [exArity] ∧
    (Boot.call exArityObj []).1 = (Startup.call exArityObj []).1 := by
  have h := claim_C10 [exArity] [] (by decide)
  exact ⟨h.1, (h.2 exArityObj rfl).1⟩

/-- C1, amended: for a fixed set of registered functions whose
`(module name, qualified name)` tie-break keys are pairwise distinct, and
a fixed initial-value mapping (with distinct names), any two registration
orders are equivalent: a normally returning run of one order transfers to
the other with the identical ghost event log — hence the identical
function-invocation sequence — and with an output mapping that is a
permutation of the first with equal per-name lookups.  Without the
distinct-key proviso the original claim fails, see the counterexample. -/
theorem claim_C1 (specs1 specs2 : List TaskSpec) (kw : List (String × Val))
    (s1 s2 : Startup)
    (hp : specs1.Perm specs2)
    (hkinj : (specs1.map TaskSpec.key).Nodup)
    (hkwnd : (kw.map Prod.fst).Nodup)
    (h1 : registerAll specs1 = .ok s1) (h2 : registerAll specs2 = .ok s2) :
    ∀ out1 obj1 es1, Startup.call s1 kw = (.ok out1, obj1, es1) →
      ∃ out2 obj2, Startup.call s2 kw = (.ok out2, obj2, es1) ∧
        out2.Perm out1 ∧ ∀ m, out2.lookup m = out1.lookup m :=
  fun _ _ _ hc1 => call_congr hp hkinj hkwnd h1 h2 hc1

set_option maxHeartbeats 1000000 in
/-- Witness for C1: a writer of `a` and a dependent reader with distinct
keys, registered in both orders; the permuted registration returns with
the identical event log and the same output mapping. -/
theorem claim_C1_witness :
    ∃ out2 obj2, Startup.call exC1ObjR [] = (.ok out2, obj2, exC1es) ∧
      out2.Perm exC1out ∧ ∀ m, out2.lookup m = exC1out.lookup m := by
  have e1 : (Startup.call exC1Obj []).1 = .ok exC1out := by rfl
  have e3 : (Startup.call exC1Obj []).2.2 = exC1es := by rfl
  have hc1 : Startup.call exC1Obj []
      = (.ok exC1out, (Startup.call exC1Obj []).2.1, exC1es) := by
    rw [← e1, ← e3]
  exact claim_C1 exC1specs exC1specsR [] exC1Obj exC1ObjR
    (List.Perm.swap _ _ _) (by decide) (by decide) (by rfl) (by rfl)
    exC1out _ exC1es hc1

/-- Counterexample to C1 as stated: two distinct functions sharing the
tie-break key `("m", "f")` (e.g. two closures produced by the same
factory) are executed in registration order by the stable sort, so the
two registration orders give different event logs and different
invocation sequences. -/
theorem claim_C1_cx :
    [exKeyA, exKeyB].Perm [exKeyB, exKeyA] ∧
    exKeyA.key = exKeyB.key ∧
    runEvents [exKeyA, exKeyB] [] ≠ runEvents [exKeyB, exKeyA] [] ∧
    invocs (runEvents [exKeyA, exKeyB] []) = [0, 1] ∧
    invocs (runEvents [exKeyB, exKeyA] []) = [1, 0] := by
  refine ⟨List.Perm.swap _ _ _, rfl, ?_, ?_, ?_⟩
  · rw [runEvents_keyAB, runEvents_keyBA]
    decide
  · rw [runEvents_keyAB]
    rfl
  · rw [runEvents_keyBA]
    rfl

end Claims
